import Mathlib

/-!
Verification of the testchart manifest engine.

This development gives a shallow embedding of the core pure functions of the
testchart repository and proves the stated properties about them:

- splitManifest and compareManifests from main.go (the diff engine),
- normalizeManifest and normalizeYAML from normalize.go (the normalizer),
- the update-classification block of Test.Run and the process exit decision
  of runTests,
- a small-step model of the concurrent orchestrator TestSuite.Run.

Go strings are embedded as lists of characters, Go maps as association lists
whose list order stands for the (unspecified) map iteration order, and
fallible Go functions as Except values.  All scanners are written with
explicit fuel so that every definition evaluates by kernel reduction on
concrete inputs.
-/

namespace Testchart

/-- Go strings are modelled as lists of characters. -/
abbrev Str := List Char

/-- Embed a Lean string literal as a character list. -/
def strOf (s : String) : Str := s.data

/-- Whitespace characters trimmed by the Go strings.TrimSpace function
(restricted to the ASCII space class, which is all that manifests contain). -/
def isSpc (c : Char) : Bool :=
  c = ' ' || c = '\t' || c = '\n' || c = '\x0b' || c = '\x0c' || c = '\r'

/-- Drop leading whitespace, as the left half of Go strings.TrimSpace. -/
def trimLeft (s : Str) : Str := s.dropWhile isSpc

/-- Drop trailing whitespace, as the right half of Go strings.TrimSpace. -/
def trimRight (s : Str) : Str := (s.reverse.dropWhile isSpc).reverse

/-- Go strings.TrimSpace: drop leading and trailing whitespace. -/
def trim (s : Str) : Str := trimLeft (trimRight s)

/-- Split a list at every element satisfying a predicate, dropping the
matching elements.  Instantiated with an equality test this is the behaviour
of Go strings.Split for a one-character separator; instantiated on lines it
is the document-boundary split of the YAML stream decoder. -/
def splitOnP (p : α → Bool) : List α → List (List α)
  | [] => [[]]
  | a :: rest =>
    match splitOnP p rest with
    | [] => []
    | x :: xs => if p a then [] :: x :: xs else (a :: x) :: xs

/-- Go strings.Split with a one-character separator. -/
def splitChar (c : Char) (s : Str) : List Str := splitOnP (· = c) s

/-- If sep is a leading pattern of s, return the remainder of s after it. -/
def dropSep : Str → Str → Option Str
  | [], s => some s
  | a :: as, s =>
    match s with
    | [] => none
    | b :: bs => if a = b then dropSep as bs else none

/-- Scanner behind Go strings.Split for a multi-character separator.
The fuel argument only serves to make the recursion structural; it is always
called with enough fuel to finish the scan. -/
def splitSubAux (sep : Str) : Nat → Str → Str → List Str
  | 0, s, acc => [acc.reverse ++ s]
  | fuel + 1, s, acc =>
    match s with
    | [] => [acc.reverse]
    | c :: rest =>
      match dropSep sep (c :: rest) with
      | some rem => acc.reverse :: splitSubAux sep fuel rem []
      | none => splitSubAux sep fuel rest (c :: acc)

/-- Go strings.Split (and SplitSeq) for a non-empty separator. -/
def splitSub (s sep : Str) : List Str := splitSubAux sep (s.length + 1) s []

/-- Join lists with a separator list between consecutive elements, the model
of Go strings.Join. -/
def joinl {α : Type} (sep : List α) : List (List α) → List α
  | [] => []
  | [x] => x
  | x :: y :: t => x ++ sep ++ joinl sep (y :: t)

/-- Go strings.SplitN with limit 2 and separator the newline character. -/
def splitN2 (s : Str) : List Str :=
  match splitChar '\n' s with
  | [] => []
  | [x] => [x]
  | x :: rest => [x, joinl ['\n'] rest]

/-- Lookup in an association list, the model of a Go map read. -/
def alookup [DecidableEq α] (l : List (α × β)) (k : α) : Option β :=
  match l with
  | [] => none
  | (k', v) :: rest => if k' = k then some v else alookup rest k

/-- Replace the value stored at a key of an association list, the model of a
Go map write to an existing key. -/
def aset [DecidableEq α] (l : List (α × β)) (k : α) (v : β) : List (α × β) :=
  match l with
  | [] => []
  | (k', v') :: rest => if k' = k then (k', v) :: rest else (k', v') :: aset rest k v

/-- The map-update step of splitManifest in main.go: if the source path is
already present, append the new body to the stored one behind a synthetic
three-dash boundary line, otherwise add a new entry. -/
def assocUpdate (items : List (Str × Str)) (k v : Str) : List (Str × Str) :=
  match alookup items k with
  | some current => aset items k (current ++ strOf "\n---\n" ++ v)
  | none => items ++ [(k, v)]

/-- The source-section delimiter of splitManifest in main.go. -/
def delim : Str := strOf "---\n# Source: "

/-- The loop body of splitManifest in main.go: trim the chunk, skip it when
it is empty or lacks a second line, otherwise extract the source path and
body and store them. -/
def splitStep (items : List (Str × Str)) (chunk : Str) : List (Str × Str) :=
  let chunk := trim chunk
  if chunk = [] then items
  else
    match splitN2 chunk with
    | [p0, p1] => assocUpdate items (trim p0) (trim p1)
    | _ => items

/-- splitManifest from main.go: cut the manifest at every delimiter, trim
each chunk, skip chunks without both a path line and a body, and fold the
surviving (path, body) pairs into the map. -/
def splitManifest (buffer : Str) : List (Str × Str) :=
  (splitSub buffer delim).foldl splitStep []

/-- A chunk is safe for a separator when scanning it followed by the
separator finds the first separator occurrence exactly at its end: no
occurrence lies inside the chunk or straddles its end. -/
def chunkSafe (sep : Str) : Str → Bool
  | [] => true
  | c :: rest => (dropSep sep (c :: rest ++ sep)).isNone && chunkSafe sep rest

/-- The text of one labeled section without its leading delimiter: the path
line followed by the body and a final newline. -/
def chunkStr (p : Str × Str) : Str := p.1 ++ '\n' :: (p.2 ++ ['\n'])

/-- A manifest built by concatenating labeled sections, each opened by the
source delimiter. -/
def renderSections (sections : List (Str × Str)) : Str :=
  sections.foldr (fun p acc => delim ++ chunkStr p ++ acc) []

/-- A well-formed section: trimmed non-empty single-line path, trimmed
non-empty body, and no delimiter occurrence inside or straddling the
rendered chunk. -/
def sectionOK (p : Str × Str) : Bool :=
  decide (trim p.1 = p.1) && decide (p.1 ≠ []) && !p.1.contains '\n' &&
  decide (trim p.2 = p.2) && decide (p.2 ≠ []) && chunkSafe delim (chunkStr p)

/-- Modelled from the spec: the document values decoded and re-encoded by the
external YAML library (normalize.go only drives its decoder and encoder).
Section 9 of the spec names the tagged union Null, Bool, Number, String,
Sequence and Mapping, with a key-stringification pass making every mapping
key a string.  Numbers and strings keep their canonical text, sequences keep
item order and mappings keep key order. -/
inductive Val where
  | nul
  | bool (b : Bool)
  | num (s : Str)
  | str (s : Str)
  | seq (items : List Val)
  | vmap (entries : List (Str × Val))

/-- One physical line of a YAML document: its indentation depth and its text
after the indentation. -/
structure YLine where
  ind : Nat
  txt : Str
deriving DecidableEq, Repr

/-- Cut a raw content string into indented lines. -/
def toLines (content : Str) : List YLine :=
  (splitChar '\n' content).map fun l =>
    ⟨(l.takeWhile (· = ' ')).length, l.dropWhile (· = ' ')⟩

/-- A line that carries content: not blank and not a comment line. -/
def keepLine (l : YLine) : Bool :=
  !l.txt.isEmpty && l.txt.head? ≠ some '#'

/-- A document-boundary line inside one source content. -/
def isSep (l : YLine) : Bool :=
  l.ind = 0 && l.txt = strOf "---"

/-- Characters that may not start a plain (unquoted) scalar or a key. -/
def badHead (c : Char) : Bool :=
  c = '#' || c = '-' || c = '\'' || c = '"' || c = '{' || c = '[' || c = '&' ||
  c = '*' || c = '%' || c = '!' || c = '?' || c = '|' || c = '>' || c = '@' || isSpc c

/-- A key the model encoder may emit verbatim and the decoder accepts. -/
def keyOK (k : Str) : Bool :=
  match k with
  | [] => false
  | c :: _ =>
    !badHead c && !k.contains ':' && !k.contains '\n' &&
    (match k.getLast? with | some l => !isSpc l | none => false)

/-- The digits of a number text after stripping one optional leading minus
sign. -/
def numCore (s : Str) : Str :=
  match s with
  | [] => []
  | c :: rest => if c = '-' then rest else c :: rest

/-- The digit shape of an unsigned number text: digits with at most one
decimal point, both sides non-empty. -/
def numShape (core : Str) : Bool :=
  match splitChar '.' core with
  | [a] => !a.isEmpty && a.all Char.isDigit
  | [a, b] => !a.isEmpty && !b.isEmpty && a.all Char.isDigit && b.all Char.isDigit
  | _ => false

/-- The canonical integer or decimal texts the decoder reads back as a
Number value: an optional minus sign, then digits with at most one decimal
point. -/
def numLike (s : Str) : Bool := numShape (numCore s)

/-- The canonical text of a Bool value. -/
def boolText : Bool → Str
  | true => strOf "true"
  | false => strOf "false"

/-- Read an unquoted scalar text as a value, resolving the special plain
forms: null, the booleans and numbers; everything else is a String. -/
def classifyPlain (s : Str) : Val :=
  if s = strOf "null" then .nul
  else if s = strOf "true" then .bool true
  else if s = strOf "false" then .bool false
  else if numLike s then .num s
  else .str s

/-- A string the model encoder may emit without quotes: re-reading it as a
value text gives back the same String, so the text may not collide with the
null, boolean or number plain forms. -/
def plainOK (s : Str) : Bool :=
  match s with
  | [] => false
  | c :: _ =>
    !badHead c && !s.contains ':' && !s.contains '\n' &&
    !decide (s = strOf "null") && !decide (s = strOf "true") &&
    !decide (s = strOf "false") && !numLike s &&
    (match s.getLast? with | some l => !isSpc l | none => false)

/-- Double every single quote, the escaping inside single-quoted scalars. -/
def escQ : Str → Str
  | [] => []
  | c :: rest => if c = '\'' then '\'' :: '\'' :: escQ rest else c :: escQ rest

/-- Wrap a scalar in single quotes with escaping. -/
def quoteS (s : Str) : Str := '\'' :: (escQ s ++ ['\''])

/-- Read a single-quoted scalar body: everything after the opening quote up
to a closing quote that must end the text, undoing the escaping. -/
def unqQ : Str → Option Str
  | [] => none
  | c :: rest =>
    if c = '\'' then
      match rest with
      | [] => some []
      | c2 :: rest2 => if c2 = '\'' then (unqQ rest2).map ('\'' :: ·) else none
    else (unqQ rest).map (c :: ·)

/-- Read a double-quoted scalar body: verbatim text up to a closing double
quote that must end the text. -/
def unqD : Str → Option Str
  | [] => none
  | c :: rest =>
    if c = '"' then (if rest = [] then some [] else none)
    else (unqD rest).map (c :: ·)

/-- Emit a scalar with minimized quoting: plain when possible, single-quoted
otherwise. -/
def emitScalar (s : Str) : Str := if plainOK s then s else quoteS s

/-- Read a key text, which may be plain or quoted. -/
def parseKeyTxt (kt : Str) : Option Str :=
  match kt with
  | c :: r =>
    if c = '\'' then (unqQ r).bind fun k => if keyOK k then some k else none
    else if c = '"' then (unqD r).bind fun k => if keyOK k then some k else none
    else if keyOK (c :: r) then some (c :: r) else none
  | [] => none

/-- Split a line text at its first colon into a key and the trimmed value
text; fails when there is no colon or the key is not acceptable. -/
def parseKeyRest (txt : Str) : Option (Str × Str) :=
  match splitChar ':' txt with
  | [] => none
  | [_] => none
  | k :: rest => (parseKeyTxt k).map fun key => (key, trim (joinl [':'] rest))

/-- Read a scalar value inside a flow collection (no nested flow). -/
def parseFlowScalar (t : Str) : Option Val :=
  match t with
  | [] => none
  | c :: r =>
    if c = '\'' then (unqQ r).map .str
    else if c = '"' then (unqD r).map .str
    else if c = '{' then none
    else if c = '[' then none
    else some (classifyPlain (c :: r))

/-- Read one comma-separated entry of a flow mapping. -/
def parseFlowEntry (piece : Str) : Option (Str × Val) :=
  match splitChar ':' piece with
  | [] => none
  | [_] => none
  | k :: rest =>
    (parseKeyTxt (trim k)).bind fun key =>
      (parseFlowScalar (trim (joinl [':'] rest))).map fun v => (key, v)

/-- Read the inside of a flow mapping between its braces. -/
def parseFlow (inner : Str) : Option (List (Str × Val)) :=
  (splitChar ',' inner).mapM parseFlowEntry

/-- Read the inside of a flow sequence between its brackets. -/
def parseFlowSeq (inner : Str) : Option (List Val) :=
  (splitChar ',' inner).mapM fun piece => parseFlowScalar (trim piece)

/-- Read a value text: quoted scalar, flow mapping, flow sequence or plain
scalar. -/
def parseValText (t : Str) : Option Val :=
  match t with
  | [] => none
  | c :: r =>
    if c = '\'' then (unqQ r).map .str
    else if c = '"' then (unqD r).map .str
    else if c = '{' then
      match r.getLast? with
      | some cl => if cl = '}' then (parseFlow (trim r.dropLast)).map .vmap else none
      | none => none
    else if c = '[' then
      match r.getLast? with
      | some cl => if cl = ']' then (parseFlowSeq (trim r.dropLast)).map .seq else none
      | none => none
    else some (classifyPlain (c :: r))

/-- Read a sequence-item line text: a bare dash opens a nested block on the
following deeper lines, a dash and a space carry the item value text on the
line. -/
def itemTxt (t : Str) : Option Str :=
  match t with
  | [] => none
  | c :: rest =>
    if c = '-' then
      match rest with
      | [] => some []
      | c2 :: t2 => if c2 = ' ' then some t2 else none
    else none

/-! Block readers: parseEntries consumes the run of mapping-entry lines at
indentation i, parseItems the run of sequence-item lines at indentation i,
each returning the unconsumed lines (the first of which, if any, is less
indented than i).  A value-less key or a bare dash opens a nested block on
the following deeper lines, read as a sequence when its first line is a dash
line and as a mapping otherwise.  The fuel argument makes the recursion
structural; it is always called with more fuel than there are lines. -/
mutual

/-- Read the run of mapping-entry lines at indentation i. -/
def parseEntries (fuel : Nat) (i : Nat) (ls : List YLine) :
    Option (List (Str × Val) × List YLine) :=
  match fuel with
  | 0 => none
  | fuel + 1 =>
    match ls with
    | [] => some ([], [])
    | l :: rest =>
      if l.ind < i then some ([], l :: rest)
      else if i < l.ind then none
      else
        match parseKeyRest l.txt with
        | none => none
        | some (k, valTxt) =>
          if valTxt = [] then
            let sub := rest.takeWhile fun l2 => i < l2.ind
            let rem := rest.dropWhile fun l2 => i < l2.ind
            match sub with
            | [] => none
            | l2 :: _ =>
              if (itemTxt l2.txt).isSome then
                match parseItems fuel l2.ind sub with
                | some (items, []) =>
                  if items.isEmpty then none
                  else
                    match parseEntries fuel i rem with
                    | some (es2, r) => some ((k, .seq items) :: es2, r)
                    | none => none
                | _ => none
              else
                match parseEntries fuel l2.ind sub with
                | some (es, []) =>
                  if es.isEmpty then none
                  else
                    match parseEntries fuel i rem with
                    | some (es2, r) => some ((k, .vmap es) :: es2, r)
                    | none => none
                | _ => none
          else
            match parseValText valTxt with
            | none => none
            | some v =>
              match parseEntries fuel i rest with
              | some (es2, r) => some ((k, v) :: es2, r)
              | none => none

/-- Read the run of sequence-item lines at indentation i. -/
def parseItems (fuel : Nat) (i : Nat) (ls : List YLine) :
    Option (List Val × List YLine) :=
  match fuel with
  | 0 => none
  | fuel + 1 =>
    match ls with
    | [] => some ([], [])
    | l :: rest =>
      if l.ind < i then some ([], l :: rest)
      else if i < l.ind then none
      else
        match itemTxt l.txt with
        | none => none
        | some t =>
          if t = [] then
            let sub := rest.takeWhile fun l2 => i < l2.ind
            let rem := rest.dropWhile fun l2 => i < l2.ind
            match sub with
            | [] => none
            | l2 :: _ =>
              if (itemTxt l2.txt).isSome then
                match parseItems fuel l2.ind sub with
                | some (items, []) =>
                  if items.isEmpty then none
                  else
                    match parseItems fuel i rem with
                    | some (items3, r) => some (.seq items :: items3, r)
                    | none => none
                | _ => none
              else
                match parseEntries fuel l2.ind sub with
                | some (es, []) =>
                  if es.isEmpty then none
                  else
                    match parseItems fuel i rem with
                    | some (items3, r) => some (.vmap es :: items3, r)
                    | none => none
                | _ => none
          else
            if (parseKeyRest t).isSome then none
            else
              match parseValText t with
              | none => none
              | some v =>
                match parseItems fuel i rest with
                | some (items3, r) => some (v :: items3, r)
                | none => none

end

/-- Read one document from its content lines: a block sequence when the
first line is a dash line, otherwise a block mapping, or a single scalar
line. -/
def parseDoc (ls : List YLine) : Option Val :=
  match ls with
  | [] => none
  | l :: _ =>
    if (itemTxt l.txt).isSome then
      match parseItems (ls.length + 1) l.ind ls with
      | some (items, []) => if items.isEmpty then none else some (.seq items)
      | _ => none
    else
      match parseEntries (ls.length + 1) l.ind ls with
      | some (es, []) => if es.isEmpty then none else some (.vmap es)
      | _ =>
        match ls with
        | [la] => if (parseKeyRest la.txt).isSome then none else parseValText la.txt
        | _ => none

/-- Modelled from the spec: decode a content string as a stream of documents
separated by three-dash boundary lines, skipping blank and comment lines.
Each document is a block sequence, a block mapping or a single scalar line,
with flow mappings, flow sequences, quoted scalars and plain scalars resolved
to the section 9 union (null, booleans, numbers, strings) inside. -/
def decodeDocs (content : Str) : Option (List Val) :=
  ((splitOnP isSep ((toLines content).filter keepLine)).filter
      (fun g => !g.isEmpty)).mapM parseDoc

mutual

/-- Encode one mapping entry at indentation i in block style: scalar values
stay on the key line, mappings and sequences open a nested block two columns
deeper. -/
def encVal (i : Nat) (k : Str) : Val → List YLine
  | .nul => [⟨i, k ++ strOf ": " ++ strOf "null"⟩]
  | .bool b => [⟨i, k ++ strOf ": " ++ boolText b⟩]
  | .num s => [⟨i, k ++ strOf ": " ++ s⟩]
  | .str s => [⟨i, k ++ strOf ": " ++ emitScalar s⟩]
  | .seq items => ⟨i, k ++ [':']⟩ :: encItems (i + 2) items
  | .vmap es => ⟨i, k ++ [':']⟩ :: encEntries (i + 2) es

/-- Encode one sequence item at indentation i in block style: scalar items
follow the dash on its line, nested mappings and sequences open a block two
columns deeper under a bare dash. -/
def encItem (i : Nat) : Val → List YLine
  | .nul => [⟨i, strOf "- " ++ strOf "null"⟩]
  | .bool b => [⟨i, strOf "- " ++ boolText b⟩]
  | .num s => [⟨i, strOf "- " ++ s⟩]
  | .str s => [⟨i, strOf "- " ++ emitScalar s⟩]
  | .seq items => ⟨i, ['-']⟩ :: encItems (i + 2) items
  | .vmap es => ⟨i, ['-']⟩ :: encEntries (i + 2) es

/-- Encode sequence items at indentation i in block style. -/
def encItems (i : Nat) : List Val → List YLine
  | [] => []
  | v :: rest => encItem i v ++ encItems i rest

/-- Encode mapping entries at indentation i in block style. -/
def encEntries (i : Nat) : List (Str × Val) → List YLine
  | [] => []
  | (k, v) :: rest => encVal i k v ++ encEntries i rest

end

/-- Encode one document, block style at top level. -/
def encDoc : Val → List YLine
  | .nul => [⟨0, strOf "null"⟩]
  | .bool b => [⟨0, boolText b⟩]
  | .num s => [⟨0, s⟩]
  | .str s => [⟨0, emitScalar s⟩]
  | .seq items => encItems 0 items
  | .vmap es => encEntries 0 es

/-- The text the encoder uses for a scalar value, none for a collection. -/
def scalarTxt : Val → Option Str
  | .nul => some (strOf "null")
  | .bool b => some (boolText b)
  | .num s => some s
  | .str s => some (emitScalar s)
  | .seq _ => none
  | .vmap _ => none

/-- The boundary line the encoder places between documents. -/
def sepLine : YLine := ⟨0, strOf "---"⟩

/-- Encode a stream of documents with boundary lines between them. -/
def encodeDocs (docs : List Val) : List YLine :=
  joinl [sepLine] (docs.map encDoc)

/-- Spaces of a given width. -/
def spaces : Nat → Str
  | 0 => []
  | n + 1 => ' ' :: spaces n

/-- Render one line back to characters. -/
def renderLine (l : YLine) : Str := spaces l.ind ++ l.txt

/-- Render lines back to a content string. -/
def renderLines (ls : List YLine) : Str :=
  joinl ['\n'] (ls.map renderLine)

/-- normalizeYAML from normalize.go: decode the content as a stream of
documents and re-encode every document with the fixed serialization policy
(2-space indentation, block style, key order preserved, minimal quoting),
then trim the surrounding whitespace.  The decode and encode steps are the
spec-modelled YAML codec above; a decode failure is the failed-to-decode
error the Go function wraps. -/
instance {ε α : Type} [DecidableEq ε] [DecidableEq α] : DecidableEq (Except ε α) := fun x y =>
  match x, y with
  | .ok a, .ok b =>
    if h : a = b then .isTrue (h ▸ rfl) else .isFalse fun hc => h (Except.ok.inj hc)
  | .error a, .error b =>
    if h : a = b then .isTrue (h ▸ rfl) else .isFalse fun hc => h (Except.error.inj hc)
  | .ok _, .error _ => .isFalse fun hc => Except.noConfusion hc
  | .error _, .ok _ => .isFalse fun hc => Except.noConfusion hc

def normalizeYAML (content : Str) : Except Str Str :=
  match decodeDocs content with
  | none => Except.error (strOf "failed to decode values")
  | some docs => Except.ok (trim (renderLines (encodeDocs docs)))

/-- One diff finding, as built by AddMissingItem, AddExtraItem and
AddDifferentItem in normalize_test.go. -/
structure Item where
  source : Str
  expected : Str
  actual : Str
deriving DecidableEq, Repr

/-- Everything compareManifests writes into the builder, plus its boolean
result. -/
structure CompareResult where
  missing : List Item
  extra : List Item
  different : List Item
  ignoredLines : List Str
  areEqual : Bool
deriving DecidableEq, Repr

/-- A compiled ignore pattern, modelled as the line predicate the external
regexp engine computes. -/
def lineMatches (pats : List (Str → Bool)) (l : Str) : Bool := pats.any fun p => p l

/-- removeLinesMatchingPatterns from main.go: drop every line matching one of
the patterns, returning the kept lines joined by newlines together with the
dropped lines recorded through AddIgnoredLine, in input order. -/
def removeLinesMatchingPatterns (pats : List (Str → Bool)) (input : Str) :
    Str × List Str :=
  let lines := splitChar '\n' input
  (joinl ['\n'] (lines.filter fun l => !lineMatches pats l),
    lines.filter (lineMatches pats))

/-- The third loop of compareManifests in main.go, over the source keys left
in the expected map, looking them up in the actual map: normalize both sides,
filter ignored lines from both, and emit a Different item when the filtered
texts differ.  Returns the different items, the ignored lines and the
and-accumulated equality flag; a normalization failure aborts the whole loop
with the wrapped error, as in the source. -/
def diffLoop (pats : List (Str → Bool)) (actual1 : List (Str × Str)) :
    List (Str × Str) → Except Str (List Item × List Str × Bool)
  | [] => .ok ([], [], true)
  | (source, expectedContent) :: rest =>
    match alookup actual1 source with
    | none => diffLoop pats actual1 rest
    | some actualContent =>
      match normalizeYAML expectedContent with
      | .error e => .error (strOf "normalizing expected content: " ++ e)
      | .ok normalizedExpected =>
        match normalizeYAML actualContent with
        | .error e => .error (strOf "normalizing actual content: " ++ e)
        | .ok normalizedActual =>
          let sanitizedExpected := removeLinesMatchingPatterns pats normalizedExpected
          let sanitizedActual := removeLinesMatchingPatterns pats normalizedActual
          match diffLoop pats actual1 rest with
          | .error e => .error e
          | .ok (items, igns, eq) =>
            if sanitizedExpected.1 = sanitizedActual.1 then
              .ok (items, sanitizedExpected.2 ++ sanitizedActual.2 ++ igns, eq)
            else
              .ok (⟨source, normalizedExpected, normalizedActual⟩ :: items,
                sanitizedExpected.2 ++ sanitizedActual.2 ++ igns, false)

/-- compareManifests from main.go, on already-split maps.  The association
lists play the role of the Go maps, their list order standing for the
unspecified map iteration order.  The first loop removes missing keys from
the expected map, the second removes extra keys from the actual map, the
third compares the keys present in both. -/
def compareManifestsWith (pats : List (Str → Bool))
    (expected actual : List (Str × Str)) : Except Str CompareResult :=
  let missingPairs := expected.filter fun p => (alookup actual p.1).isNone
  let expected1 := expected.filter fun p => (alookup actual p.1).isSome
  let extraPairs := actual.filter fun p => (alookup expected1 p.1).isNone
  let actual1 := actual.filter fun p => (alookup expected1 p.1).isSome
  match diffLoop pats actual1 expected1 with
  | .error e => .error e
  | .ok (items, igns, eqDiff) =>
    .ok { missing := missingPairs.map fun p => ⟨p.1, p.2, []⟩
          extra := extraPairs.map fun p => ⟨p.1, [], p.2⟩
          different := items
          ignoredLines := igns
          areEqual := missingPairs.isEmpty && extraPairs.isEmpty && eqDiff }

/-- compareManifests from main.go: split both manifests, then compare the
resulting maps in their encounter order. -/
def compareManifests (pats : List (Str → Bool)) (expectedManifest actualManifest : Str) :
    Except Str CompareResult :=
  compareManifestsWith pats (splitManifest expectedManifest) (splitManifest actualManifest)

/-- Lexicographic string order, the order of Go sort.Strings on the ASCII
strings manifests contain. -/
def strLe : Str → Str → Bool
  | [], _ => true
  | _ :: _, [] => false
  | a :: as, b :: bs => if a = b then strLe as bs else decide (a < b)

/-- Insert into a sorted list of strings. -/
def insortStr (x : Str) : List Str → List Str
  | [] => [x]
  | y :: ys => if strLe x y then x :: y :: ys else y :: insortStr x ys

/-- Sort strings ascending, the model of Go sort.Strings. -/
def sortStrs (l : List Str) : List Str := l.foldr insortStr []

/-- The loop of normalizeManifest in normalize.go: for every source in the
sorted order, normalize its content and prepend the source header. -/
def normalizeParts (documents : List (Str × Str)) :
    List Str → Except Str (List Str)
  | [] => .ok []
  | source :: rest =>
    match normalizeYAML ((alookup documents source).getD []) with
    | .error e => .error (strOf "normalizing YAML: " ++ e)
    | .ok normalizedContent =>
      match normalizeParts documents rest with
      | .error e => .error e
      | .ok parts =>
        .ok ((strOf "---\n# Source: " ++ source ++ ['\n'] ++ normalizedContent) :: parts)

/-- normalizeManifest from normalize.go: split the manifest, normalize every
source content in ascending source order, re-attach the source headers and
join the sections with newlines. -/
def normalizeManifest (manifest : Str) : Except Str Str :=
  let documents := splitManifest manifest
  match normalizeParts documents (sortStrs (documents.map Prod.fst)) with
  | .error e => .error e
  | .ok parts => .ok (joinl ['\n'] parts)

/-- The per-test state of the Test structure in normalize_test.go, restricted
to the fields its methods mutate. -/
structure TestState where
  isUpdate : Bool
  updateType : Str
  isSame : Bool
  isValid : Bool
  differentItems : List Item
  missingItems : List Item
  extraItems : List Item
  validationErrors : List (Str × Str)
  ignoredLines : List Str
deriving DecidableEq, Repr

/-- Test.IsSuccessful from normalize_test.go. -/
def TestState.IsSuccessful (t : TestState) : Bool := t.isSame && t.isValid

/-- The outcome of one run of Test.Run: the final test state and the content
written to the expected fixture, if any. -/
structure RunOutcome where
  test : TestState
  written : Option Str
deriving DecidableEq, Repr

/-- The pure core of Test.Run in normalize_test.go, from the point where the
expected and actual manifests are in hand: compare them, record the
comparison result, in update mode run the update-classification block
(falling back to the raw actual manifest when normalization fails), then
record the external validation findings.  Rendering, file I/O and the
validator itself stay outside the model; the validation findings enter as an
input list. -/
def runModel (isUpdate : Bool) (pats : List (Str → Bool))
    (expectedManifest actualManifest : Str) (validation : List (Str × Str)) :
    Except Str RunOutcome :=
  match compareManifests pats expectedManifest actualManifest with
  | .error e => .error (strOf "comparing manifests: " ++ e)
  | .ok cr =>
    let t0 : TestState :=
      { isUpdate := isUpdate, updateType := [], isSame := cr.areEqual, isValid := true,
        differentItems := cr.different, missingItems := cr.missing,
        extraItems := cr.extra, validationErrors := [], ignoredLines := cr.ignoredLines }
    let step :=
      if isUpdate then
        let normalizedActualManifest :=
          match normalizeManifest actualManifest with
          | .ok s => s
          | .error _ => actualManifest
        let hasSemanticChanges := !cr.areEqual
        let hasFormattingChanges : Bool := decide (expectedManifest ≠ normalizedActualManifest)
        if hasSemanticChanges || hasFormattingChanges then
          ({ t0 with updateType := if hasSemanticChanges then strOf "semantic" else strOf "formatting" },
            some normalizedActualManifest)
        else
          ({ t0 with updateType := strOf "none" }, none)
      else (t0, none)
    let t2 := validation.foldl
      (fun t ve => { t with validationErrors := t.validationErrors ++ [ve], isValid := false })
      step.1
    .ok { test := t2, written := step.2 }

/-- The test suite of normalize_test.go: the update flag and the per-test
states in input order. -/
structure TestSuite where
  IsUpdate : Bool
  Tests : List TestState
deriving DecidableEq, Repr

/-- TestSuite.IsSuccessful from normalize_test.go: every test is both same
and valid. -/
def TestSuite.IsSuccessful (suite : TestSuite) : Bool :=
  suite.Tests.all fun t => t.IsSuccessful

/-- The exit decision of runTests in main.go together with the fatal-error
path of main: a fatal error exits nonzero through log.Fatal, otherwise the
process exits 1 when the suite is not successful and 0 when it is — in both
run and update mode. -/
def exitCode (fatalError : Bool) (suite : TestSuite) : Nat :=
  if fatalError then 1 else if suite.IsSuccessful then 0 else 1

/-- Exactly one of four propositions holds. -/
def ExactlyOneOfFour (p1 p2 p3 p4 : Prop) : Prop :=
  (p1 ∨ p2 ∨ p3 ∨ p4) ∧ ¬(p1 ∧ p2) ∧ ¬(p1 ∧ p3) ∧ ¬(p1 ∧ p4) ∧ ¬(p2 ∧ p3) ∧
    ¬(p2 ∧ p4) ∧ ¬(p3 ∧ p4)

mutual

/-- A document value the model encoder round-trips: numbers in canonical
shape, strings without newlines, sequences and mappings non-empty with
acceptable keys. -/
def goodVal : Val → Bool
  | .nul => true
  | .bool _ => true
  | .num s => numLike s
  | .str s => !s.contains '\n'
  | .seq items => !items.isEmpty && goodItems items
  | .vmap es => !es.isEmpty && goodEntries es

/-- Item lists of round-trippable sequences. -/
def goodItems : List Val → Bool
  | [] => true
  | v :: rest => goodVal v && goodItems rest

/-- Entry lists of round-trippable mappings. -/
def goodEntries : List (Str × Val) → Bool
  | [] => true
  | (k, v) :: rest => keyOK k && goodVal v && goodEntries rest

end

/-- Text of a well-formed physical line: non-blank, not comment-like, free
of newlines and of trailing whitespace. -/
def LineBase (t : Str) : Prop :=
  t ≠ [] ∧ (∀ c r, t = c :: r → isSpc c = false ∧ c ≠ '#') ∧
  (∀ e ∈ t, e ≠ '\n') ∧ ∀ cl, t.getLast? = some cl → isSpc cl = false

/-- Text of a well-formed document content line: additionally not a
document boundary. -/
def TxtGood (t : Str) : Prop := LineBase t ∧ t ≠ strOf "---"

def headerCount (out : Str) : Nat :=
  ((splitChar '\n' out).filter fun l => (strOf "# Source: ").isPrefixOf l).length

/-! Orchestrator model: TestSuite.Run from normalize_test.go.  The spawner
goroutine walks the tests in submission order, acquiring the semaphore
(capacity = concurrency) before launching each worker; a worker fills its
dedicated one-slot result channel and releases its semaphore token; the
single consumer loop walks the result slots strictly in submission order and
finalizes each report as its slot fills. -/

/-- The effective concurrency of TestSuite.Run: a non-positive option means
one worker per test. -/
def effConcurrency (c : Int) (total : Nat) : Nat :=
  if c ≤ 0 then total else c.toNat

/-- A configuration of the orchestrator: how many tests the spawner has
submitted, which submitted tests are still executing, which result slots
are filled, how far the consumer has advanced, and the finalized reports in
emission order. -/
structure SuiteConfig where
  spawned : Nat
  running : List Nat
  filled : List Nat
  consumed : Nat
  reports : List Nat
deriving DecidableEq, Repr

/-- The initial configuration: nothing submitted, executing, filled or
reported. -/
def initConfig : SuiteConfig := ⟨0, [], [], 0, []⟩

/-- One transition of TestSuite.Run with n tests and semaphore capacity cap:
the spawner submits the next test when a semaphore token is free, an
arbitrary executing worker finishes and fills its slot, or the consumer
takes the next slot in submission order and appends its report. -/
inductive SuiteStep (n cap : Nat) : SuiteConfig → SuiteConfig → Prop
  | spawn {s : SuiteConfig} (h1 : s.spawned < n) (h2 : s.running.length < cap) :
      SuiteStep n cap s
        ⟨s.spawned + 1, s.running ++ [s.spawned], s.filled, s.consumed, s.reports⟩
  | finish {s : SuiteConfig} (i : Nat) (h : i ∈ s.running) :
      SuiteStep n cap s
        ⟨s.spawned, s.running.erase i, s.filled ++ [i], s.consumed, s.reports⟩
  | consume {s : SuiteConfig} (h : s.consumed ∈ s.filled) :
      SuiteStep n cap s
        ⟨s.spawned, s.running, s.filled, s.consumed + 1, s.reports ++ [s.consumed]⟩

/-- The configurations TestSuite.Run can reach from its initial state. -/
inductive SuiteReach (n cap : Nat) : SuiteConfig → Prop
  | init : SuiteReach n cap initConfig
  | step {s t : SuiteConfig} : SuiteReach n cap s → SuiteStep n cap s t →
      SuiteReach n cap t


/-! Association-list lemmas: the facts about Go map reads and writes the
claims need. -/

section AssocLemmas

variable {α β : Type} [DecidableEq α]

theorem alookup_cons {k' : α} {v : β} {rest : List (α × β)} {k : α} :
    alookup ((k', v) :: rest) k = if k' = k then some v else alookup rest k := rfl

theorem alookup_eq_none_iff {l : List (α × β)} {k : α} :
    alookup l k = none ↔ k ∉ l.map Prod.fst := by
  induction l with
  | nil => simp [alookup]
  | cons p rest ih =>
    obtain ⟨k', v⟩ := p
    by_cases h : k' = k
    · subst h; simp [alookup_cons]
    · simp [alookup_cons, h, ih, Ne.symm h]

theorem alookup_isSome_iff {l : List (α × β)} {k : α} :
    (alookup l k).isSome = true ↔ k ∈ l.map Prod.fst := by
  induction l with
  | nil => simp [alookup]
  | cons p rest ih =>
    obtain ⟨k', v⟩ := p
    by_cases h : k' = k
    · subst h; simp [alookup_cons]
    · simp [alookup_cons, h, ih, Ne.symm h]

theorem alookup_mem {l : List (α × β)} {k : α} {v : β}
    (h : alookup l k = some v) : (k, v) ∈ l := by
  induction l with
  | nil => simp [alookup] at h
  | cons p rest ih =>
    obtain ⟨k', v'⟩ := p
    rw [alookup_cons] at h
    by_cases hk : k' = k
    · subst hk
      rw [if_pos rfl] at h
      cases h
      exact List.mem_cons_self _ _
    · rw [if_neg hk] at h
      exact List.mem_cons_of_mem _ (ih h)

theorem alookup_filter {l : List (α × β)} {k : α} {v : β} {p : α × β → Bool}
    (h : alookup l k = some v) (hp : p (k, v) = true) :
    alookup (l.filter p) k = some v := by
  induction l with
  | nil => simp [alookup] at h
  | cons q rest ih =>
    obtain ⟨k', v'⟩ := q
    rw [alookup_cons] at h
    by_cases hk : k' = k
    · subst hk
      rw [if_pos rfl] at h
      cases h
      rw [List.filter_cons, if_pos hp, alookup_cons, if_pos rfl]
    · rw [if_neg hk] at h
      rw [List.filter_cons]
      by_cases hq : p (k', v') <;> simp [hq, alookup_cons, hk, ih h]

omit [DecidableEq α] in
theorem mem_keys_filter (l : List (α × β)) (q : α → Bool) {k : α} :
    (k ∈ (l.filter fun p => q p.1).map Prod.fst) ↔ k ∈ l.map Prod.fst ∧ q k = true := by
  constructor
  · intro h
    obtain ⟨⟨a, b⟩, hm, rfl⟩ := List.mem_map.mp h
    obtain ⟨hm', hq⟩ := List.mem_filter.mp hm
    exact ⟨List.mem_map.mpr ⟨(a, b), hm', rfl⟩, hq⟩
  · rintro ⟨h, hq⟩
    obtain ⟨⟨a, b⟩, hm, rfl⟩ := List.mem_map.mp h
    exact List.mem_map.mpr ⟨(a, b), List.mem_filter.mpr ⟨hm, hq⟩, rfl⟩

theorem aset_map_fst {l : List (α × β)} {k : α} {v : β} :
    (aset l k v).map Prod.fst = l.map Prod.fst := by
  induction l with
  | nil => rfl
  | cons q rest ih =>
    obtain ⟨k', v'⟩ := q
    by_cases h : k' = k <;> simp [aset, h, ih]

end AssocLemmas

theorem assocUpdate_nodup {items : List (Str × Str)} {k v : Str}
    (h : (items.map Prod.fst).Nodup) :
    ((assocUpdate items k v).map Prod.fst).Nodup := by
  unfold assocUpdate
  cases hl : alookup items k with
  | some cur => simpa [aset_map_fst] using h
  | none =>
    have hk : k ∉ items.map Prod.fst := alookup_eq_none_iff.mp hl
    simp [List.nodup_append, h, hk]

theorem splitStep_nodup {items : List (Str × Str)} {chunk : Str}
    (h : (items.map Prod.fst).Nodup) :
    ((splitStep items chunk).map Prod.fst).Nodup := by
  unfold splitStep
  by_cases hc : trim chunk = []
  · simpa [hc] using h
  · simp only [hc, if_false]
    cases hs : splitN2 (trim chunk) with
    | nil => exact h
    | cons p0 rest =>
      cases rest with
      | nil => exact h
      | cons p1 rest2 =>
        cases rest2 with
        | nil => exact assocUpdate_nodup h
        | cons _ _ => exact h

theorem foldl_splitStep_nodup (chunks : List Str) :
    ∀ items : List (Str × Str), (items.map Prod.fst).Nodup →
      (((chunks.foldl splitStep items).map Prod.fst).Nodup) := by
  induction chunks with
  | nil => intro items h; exact h
  | cons c rest ih =>
    intro items h
    exact ih _ (splitStep_nodup h)

/-- The keys of a split manifest are distinct: the Go map cannot hold a key
twice. -/
theorem splitManifest_nodup (buffer : Str) :
    ((splitManifest buffer).map Prod.fst).Nodup :=
  foldl_splitStep_nodup _ [] (by simp)

/-! Inversion facts for the third comparison loop. -/

theorem diffLoop_nil_ok {pats : List (Str → Bool)} {A : List (Str × Str)} :
    diffLoop pats A [] = .ok ([], [], true) := rfl

theorem diffLoop_cons_ok_inv {pats : List (Str → Bool)} {A : List (Str × Str)}
    {s ec : Str} {rest : List (Str × Str)} {items : List Item} {igns : List Str} {eq : Bool}
    (h : diffLoop pats A ((s, ec) :: rest) = .ok (items, igns, eq)) :
    (alookup A s = none ∧ diffLoop pats A rest = .ok (items, igns, eq)) ∨
    (∃ ac ne na items' igns' eq',
      alookup A s = some ac ∧ normalizeYAML ec = .ok ne ∧ normalizeYAML ac = .ok na ∧
      diffLoop pats A rest = .ok (items', igns', eq') ∧
      igns = (removeLinesMatchingPatterns pats ne).2 ++ (removeLinesMatchingPatterns pats na).2 ++ igns' ∧
      (((removeLinesMatchingPatterns pats ne).1 = (removeLinesMatchingPatterns pats na).1 ∧
          items = items' ∧ eq = eq') ∨
        ((removeLinesMatchingPatterns pats ne).1 ≠ (removeLinesMatchingPatterns pats na).1 ∧
          items = ⟨s, ne, na⟩ :: items' ∧ eq = false))) := by
  rw [diffLoop] at h
  cases hl : alookup A s with
  | none =>
    simp only [hl] at h
    exact Or.inl ⟨rfl, h⟩
  | some ac =>
    simp only [hl] at h
    cases hne : normalizeYAML ec with
    | error e => simp only [hne] at h; exact Except.noConfusion h
    | ok ne =>
      simp only [hne] at h
      cases hna : normalizeYAML ac with
      | error e => simp only [hna] at h; exact Except.noConfusion h
      | ok na =>
        simp only [hna] at h
        cases hrec : diffLoop pats A rest with
        | error e => simp only [hrec] at h; exact Except.noConfusion h
        | ok r =>
          obtain ⟨items', igns', eq'⟩ := r
          simp only [hrec] at h
          by_cases hsan :
              (removeLinesMatchingPatterns pats ne).1 = (removeLinesMatchingPatterns pats na).1
          · rw [if_pos hsan] at h
            simp only [Except.ok.injEq, Prod.mk.injEq] at h
            obtain ⟨hi, hg, he⟩ := h
            exact Or.inr ⟨ac, ne, na, items', igns', eq', rfl, rfl, hna, rfl, hg.symm,
              Or.inl ⟨hsan, hi.symm, he.symm⟩⟩
          · rw [if_neg hsan] at h
            simp only [Except.ok.injEq, Prod.mk.injEq] at h
            obtain ⟨hi, hg, he⟩ := h
            exact Or.inr ⟨ac, ne, na, items', igns', eq', rfl, rfl, hna, rfl, hg.symm,
              Or.inr ⟨hsan, hi.symm, he.symm⟩⟩

/-- The accumulated equality flag of the third loop is true exactly when no
Different item was emitted. -/
theorem diffLoop_ok_flag {pats : List (Str → Bool)} {A L : List (Str × Str)}
    {items : List Item} {igns : List Str} {eq : Bool}
    (h : diffLoop pats A L = .ok (items, igns, eq)) : eq = true ↔ items = [] := by
  induction L generalizing items igns eq with
  | nil =>
    rw [diffLoop_nil_ok] at h
    cases h
    simp
  | cons p rest ih =>
    obtain ⟨s, ec⟩ := p
    rcases diffLoop_cons_ok_inv h with ⟨_, hrec⟩ |
      ⟨ac, ne, na, items', igns', eq', _, _, _, hrec, _, hcase⟩
    · exact ih hrec
    · rcases hcase with ⟨_, rfl, rfl⟩ | ⟨_, rfl, rfl⟩
      · exact ih hrec
      · simp

/-- A successful third loop normalized both sides of every key it compared:
an entry of the expected working map whose key resolves in the actual
working map has both contents normalizable. -/
theorem diffLoop_ok_norm {pats : List (Str → Bool)} {A L : List (Str × Str)}
    {r : List Item × List Str × Bool} (h : diffLoop pats A L = .ok r)
    {s ec ac : Str} (hm : (s, ec) ∈ L) (hl : alookup A s = some ac) :
    (∃ ne, normalizeYAML ec = .ok ne) ∧ ∃ na, normalizeYAML ac = .ok na := by
  induction L generalizing r with
  | nil => cases hm
  | cons p rest ih =>
    obtain ⟨s', ec'⟩ := p
    obtain ⟨items, igns, eq⟩ := r
    rcases List.mem_cons.mp hm with hh | ht
    · cases hh
      rcases diffLoop_cons_ok_inv h with ⟨hnone, _⟩ |
        ⟨ac', ne, na, _, _, _, hsome, hne, hna, _, _, _⟩
      · rw [hnone] at hl; cases hl
      · rw [hsome] at hl
        cases hl
        exact ⟨⟨ne, hne⟩, na, hna⟩
    · rcases diffLoop_cons_ok_inv h with ⟨_, hrec⟩ |
        ⟨ac', ne, na, items', igns', eq', _, _, _, hrec, _, _⟩
      · exact ih hrec ht
      · exact ih hrec ht

/-- The Different items come out in the iteration order of the expected
working map: their sources form a sublist of its keys. -/
theorem diffLoop_sources_sublist {pats : List (Str → Bool)} {A L : List (Str × Str)}
    {items : List Item} {igns : List Str} {eq : Bool}
    (h : diffLoop pats A L = .ok (items, igns, eq)) :
    List.Sublist (items.map Item.source) (L.map Prod.fst) := by
  induction L generalizing items igns eq with
  | nil =>
    rw [diffLoop_nil_ok] at h
    cases h
    simp
  | cons p rest ih =>
    obtain ⟨s, ec⟩ := p
    rcases diffLoop_cons_ok_inv h with ⟨_, hrec⟩ |
      ⟨ac, ne, na, items', igns', eq', _, _, _, hrec, _, hcase⟩
    · exact (ih hrec).cons _
    · rcases hcase with ⟨_, rfl, rfl⟩ | ⟨_, rfl, rfl⟩
      · exact (ih hrec).cons _
      · exact (ih hrec).cons₂ _

/-- Every Different item names a key that resolves in the actual working
map. -/
theorem diffLoop_src_in_actual {pats : List (Str → Bool)} {A L : List (Str × Str)}
    {items : List Item} {igns : List Str} {eq : Bool}
    (h : diffLoop pats A L = .ok (items, igns, eq)) {it : Item} (hm : it ∈ items) :
    (alookup A it.source).isSome = true := by
  induction L generalizing items igns eq with
  | nil =>
    rw [diffLoop_nil_ok] at h
    cases h
    cases hm
  | cons p rest ih =>
    obtain ⟨s, ec⟩ := p
    rcases diffLoop_cons_ok_inv h with ⟨_, hrec⟩ |
      ⟨ac, ne, na, items', igns', eq', hsome, _, _, hrec, _, hcase⟩
    · exact ih hrec hm
    · rcases hcase with ⟨_, rfl, rfl⟩ | ⟨_, rfl, rfl⟩
      · exact ih hrec hm
      · rcases List.mem_cons.mp hm with rfl | ht
        · simp [hsome]
        · exact ih hrec ht

/-! Further association-list and sorting facts. -/

theorem mem_alookup {α β : Type} [DecidableEq α] {l : List (α × β)} {k : α} {v : β}
    (hm : (k, v) ∈ l) (hn : (l.map Prod.fst).Nodup) : alookup l k = some v := by
  induction l with
  | nil => cases hm
  | cons p rest ih =>
    obtain ⟨k', v'⟩ := p
    rcases List.mem_cons.mp hm with hh | ht
    · cases hh
      rw [alookup_cons, if_pos rfl]
    · have hk : k' ≠ k := by
        rintro rfl
        exact (List.nodup_cons.mp hn).1 (List.mem_map.mpr ⟨(k', v), ht, rfl⟩)
      rw [alookup_cons, if_neg hk]
      exact ih ht (List.nodup_cons.mp hn).2

theorem map_fst_filter_key {α β : Type} (l : List (α × β)) (q : α → Bool) :
    (l.filter fun p => q p.1).map Prod.fst = (l.map Prod.fst).filter q := by
  induction l with
  | nil => rfl
  | cons p rest ih =>
    obtain ⟨k, v⟩ := p
    by_cases h : q k <;> simp [List.filter_cons, h, ih]

theorem mem_insortStr {x y : Str} {l : List Str} :
    y ∈ insortStr x l ↔ y = x ∨ y ∈ l := by
  induction l with
  | nil => simp [insortStr]
  | cons z rest ih =>
    rw [insortStr]
    by_cases h : strLe x z
    · rw [if_pos h]
      simp only [List.mem_cons]
    · rw [if_neg h]
      simp only [List.mem_cons, ih]
      tauto

theorem mem_sortStrs {x : Str} {l : List Str} : x ∈ sortStrs l ↔ x ∈ l := by
  induction l with
  | nil => simp [sortStrs]
  | cons y rest ih =>
    show x ∈ insortStr y (sortStrs rest) ↔ _
    simp only [mem_insortStr, ih, List.mem_cons]

theorem normalizeParts_error_inv {documents : List (Str × Str)} {srcs : List Str} {msg : Str}
    (h : normalizeParts documents srcs = .error msg) :
    ∃ s, s ∈ srcs ∧ ∃ m, normalizeYAML ((alookup documents s).getD []) = .error m := by
  induction srcs generalizing msg with
  | nil => exact Except.noConfusion h
  | cons s rest ih =>
    rw [normalizeParts] at h
    cases hn : normalizeYAML ((alookup documents s).getD []) with
    | error m => exact ⟨s, List.mem_cons_self _ _, m, hn⟩
    | ok nc =>
      simp only [hn] at h
      cases hr : normalizeParts documents rest with
      | error m2 =>
        obtain ⟨s', hs', hm⟩ := ih hr
        exact ⟨s', List.mem_cons_of_mem _ hs', hm⟩
      | ok parts =>
        simp only [hr] at h
        exact Except.noConfusion h

theorem validation_foldl_updateType (validation : List (Str × Str)) (t : TestState) :
    (validation.foldl
        (fun t ve => { t with validationErrors := t.validationErrors ++ [ve], isValid := false })
        t).updateType = t.updateType := by
  induction validation generalizing t with
  | nil => rfl
  | cons v rest ih => simpa using ih _

/-! Inversion of a successful comparison. -/

theorem compareManifestsWith_ok_inv {pats : List (Str → Bool)} {e a : List (Str × Str)}
    {cr : CompareResult} (h : compareManifestsWith pats e a = .ok cr) :
    ∃ items igns eqd,
      diffLoop pats (a.filter fun p => (alookup (e.filter fun p => (alookup a p.1).isSome) p.1).isSome)
          (e.filter fun p => (alookup a p.1).isSome) = .ok (items, igns, eqd) ∧
      cr.missing = (e.filter fun p => (alookup a p.1).isNone).map (fun p => ⟨p.1, p.2, []⟩) ∧
      cr.extra = (a.filter fun p => (alookup (e.filter fun p => (alookup a p.1).isSome) p.1).isNone).map
        (fun p => ⟨p.1, [], p.2⟩) ∧
      cr.different = items ∧
      cr.ignoredLines = igns ∧
      cr.areEqual = ((e.filter fun p => (alookup a p.1).isNone).isEmpty &&
        (a.filter fun p => (alookup (e.filter fun p => (alookup a p.1).isSome) p.1).isNone).isEmpty && eqd) := by
  unfold compareManifestsWith at h
  cases hdl : diffLoop pats
      (a.filter fun p => (alookup (e.filter fun p => (alookup a p.1).isSome) p.1).isSome)
      (e.filter fun p => (alookup a p.1).isSome) with
  | error msg =>
    simp only [hdl] at h
    exact Except.noConfusion h
  | ok r =>
    obtain ⟨items, igns, eqd⟩ := r
    simp only [hdl] at h
    cases h
    exact ⟨items, igns, eqd, rfl, rfl, rfl, rfl, rfl, rfl⟩

/-- A successful comparison normalized both sides of every source present in
both maps. -/
theorem compare_ok_shared_normalizes {pats : List (Str → Bool)} {e a : List (Str × Str)}
    {cr : CompareResult} {s ec ac : Str} (h : compareManifestsWith pats e a = .ok cr)
    (he : alookup e s = some ec) (ha : alookup a s = some ac) :
    (∃ ne, normalizeYAML ec = .ok ne) ∧ ∃ na, normalizeYAML ac = .ok na := by
  obtain ⟨items, igns, eqd, hdl, -, -, -, -, -⟩ := compareManifestsWith_ok_inv h
  have hE1 : alookup (e.filter fun p => (alookup a p.1).isSome) s = some ec :=
    alookup_filter he (by simp [ha])
  have hA1 : alookup (a.filter fun p =>
      (alookup (e.filter fun p => (alookup a p.1).isSome) p.1).isSome) s = some ac :=
    alookup_filter ha (by simp [hE1])
  exact diffLoop_ok_norm hdl (alookup_mem hE1) hA1

/-- When the comparison succeeds but normalizing the whole actual manifest
fails, the failing section can only be an extra one, so the comparison result
was not equal. -/
theorem compare_ok_normalizeManifest_error {pats : List (Str → Bool)} {em am : Str}
    {cr : CompareResult} {msg : Str} (hc : compareManifests pats em am = .ok cr)
    (hn : normalizeManifest am = .error msg) : cr.areEqual = false := by
  unfold normalizeManifest at hn
  cases hp : normalizeParts (splitManifest am) (sortStrs ((splitManifest am).map Prod.fst)) with
  | ok parts =>
    simp only [hp] at hn
    exact Except.noConfusion hn
  | error m' =>
    obtain ⟨s, hs, m2, hfail⟩ := normalizeParts_error_inv hp
    have hs' : s ∈ (splitManifest am).map Prod.fst := mem_sortStrs.mp hs
    obtain ⟨c, hcs⟩ : ∃ c, alookup (splitManifest am) s = some c :=
      Option.isSome_iff_exists.mp (alookup_isSome_iff.mpr hs')
    rw [hcs] at hfail
    simp only [Option.getD_some] at hfail
    by_contra hae
    have hae' : cr.areEqual = true := by
      cases hx : cr.areEqual
      · exact absurd hx hae
      · rfl
    obtain ⟨items, igns, eqd, hdl, -, -, -, -, haeq⟩ := compareManifestsWith_ok_inv hc
    rw [hae'] at haeq
    have hextra : ((splitManifest am).filter fun p =>
        (alookup ((splitManifest em).filter fun p => (alookup (splitManifest am) p.1).isSome) p.1).isNone) = [] := by
      have h1 := (Bool.and_eq_true _ _).mp haeq.symm
      have h2 := (Bool.and_eq_true _ _).mp h1.1
      exact List.isEmpty_iff.mp h2.2
    have hmem : (s, c) ∈ splitManifest am := alookup_mem hcs
    have hnotnone := List.filter_eq_nil_iff.mp hextra (s, c) hmem
    obtain ⟨ec, hec⟩ : ∃ ec,
        alookup ((splitManifest em).filter fun p => (alookup (splitManifest am) p.1).isSome) s = some ec := by
      cases hx : alookup ((splitManifest em).filter fun p => (alookup (splitManifest am) p.1).isSome) s with
      | none => exact absurd (by simp [hx]) hnotnone
      | some ec => exact ⟨ec, rfl⟩
    have hA1 : alookup ((splitManifest am).filter fun p =>
        (alookup ((splitManifest em).filter fun p => (alookup (splitManifest am) p.1).isSome) p.1).isSome) s =
          some c :=
      alookup_filter hcs (by simp [hec])
    obtain ⟨-, na, hna⟩ := diffLoop_ok_norm hdl (alookup_mem hec) hA1
    rw [hna] at hfail
    exact Except.noConfusion hfail

/-! Claim theorems. -/

/-- Claim C1 counterexample: compareManifests does not sort its result lists
by source path.  On a manifest whose sources arrive in the order b, a the
missing items come out as b, a — not ascending — and feeding the same split
map in another iteration order yields the other order, so the output depends
on map iteration order. -/
theorem c1_items_not_sorted_counterexample :
    (compareManifests [] (strOf "---\n# Source: b\nx: 1\n---\n# Source: a\ny: 2\n")
          (strOf "")).map (fun cr => cr.missing.map Item.source) =
        Except.ok [strOf "b", strOf "a"] ∧
    strLe (strOf "b") (strOf "a") = false ∧
    (compareManifestsWith [] [(strOf "a", strOf "y: 2"), (strOf "b", strOf "x: 1")] []).map
        (fun cr => cr.missing.map Item.source) = Except.ok [strOf "a", strOf "b"] := by
  refine ⟨by decide, by decide, by decide⟩

/-- Claim C1 (amended): the Diff Engine emits the missing, extra and
different item lists in map iteration order, without sorting: the missing
sources are the expected keys absent from the actual map in the expected
map's iteration order, the extra sources are the actual keys absent from the
expected map in the actual map's iteration order, and the different sources
form a sublist of the expected map's iteration order. -/
theorem c1_items_follow_iteration_order (pats : List (Str → Bool))
    (e a : List (Str × Str)) (cr : CompareResult)
    (h : compareManifestsWith pats e a = .ok cr) :
    cr.missing.map Item.source = (e.map Prod.fst).filter (fun k => (alookup a k).isNone) ∧
    cr.extra.map Item.source = (a.map Prod.fst).filter (fun k => (alookup e k).isNone) ∧
    List.Sublist (cr.different.map Item.source) (e.map Prod.fst) := by
  obtain ⟨items, igns, eqd, hdl, hmiss, hext, hdiff, -, -⟩ := compareManifestsWith_ok_inv h
  refine ⟨?_, ?_, ?_⟩
  · rw [hmiss, List.map_map]
    have hcomp : (Item.source ∘ fun p : Str × Str => (⟨p.1, p.2, []⟩ : Item)) = Prod.fst := rfl
    rw [hcomp, map_fst_filter_key e (fun k => (alookup a k).isNone)]
  · rw [hext, List.map_map]
    have hcomp : (Item.source ∘ fun p : Str × Str => (⟨p.1, [], p.2⟩ : Item)) = Prod.fst := rfl
    rw [hcomp, map_fst_filter_key a
      (fun k => (alookup (e.filter fun p => (alookup a p.1).isSome) k).isNone)]
    apply List.filter_congr
    intro k hk
    have hsome : (alookup a k).isSome = true := alookup_isSome_iff.mpr hk
    cases hx : alookup e k with
    | none =>
      have hke : k ∉ e.map Prod.fst := alookup_eq_none_iff.mp hx
      have hnone : alookup (e.filter fun p => (alookup a p.1).isSome) k = none := by
        rw [alookup_eq_none_iff]
        intro hmem
        exact hke ((mem_keys_filter e (fun x => (alookup a x).isSome)).mp hmem).1
      rw [hnone]
    | some v =>
      have hsome2 : alookup (e.filter fun p => (alookup a p.1).isSome) k = some v :=
        alookup_filter hx (by simp [hsome])
      rw [hsome2]
  · rw [hdiff]
    exact (diffLoop_sources_sublist hdl).trans
      (by rw [map_fst_filter_key e (fun k => (alookup a k).isSome)]
          exact List.filter_sublist _)

/-- Claim C1 witness: the amended theorem at a concrete instance. -/
theorem c1_items_follow_iteration_order_witness :
    compareManifestsWith [] [(strOf "b", strOf "x: 1"), (strOf "a", strOf "y: 2")] [] =
      Except.ok ⟨[⟨strOf "b", strOf "x: 1", []⟩, ⟨strOf "a", strOf "y: 2", []⟩], [], [], [], false⟩ ∧
    (([⟨strOf "b", strOf "x: 1", []⟩, ⟨strOf "a", strOf "y: 2", []⟩] : List Item).map Item.source =
        (([(strOf "b", strOf "x: 1"), (strOf "a", strOf "y: 2")].map Prod.fst).filter
          (fun k => (alookup ([] : List (Str × Str)) k).isNone)) ∧
      (([] : List Item).map Item.source =
        (([] : List (Str × Str)).map Prod.fst).filter
          (fun k => (alookup [(strOf "b", strOf "x: 1"), (strOf "a", strOf "y: 2")] k).isNone)) ∧
      List.Sublist (([] : List Item).map Item.source)
        ([(strOf "b", strOf "x: 1"), (strOf "a", strOf "y: 2")].map Prod.fst)) :=
  ⟨by decide, c1_items_follow_iteration_order []
    [(strOf "b", strOf "x: 1"), (strOf "a", strOf "y: 2")] []
    ⟨[⟨strOf "b", strOf "x: 1", []⟩, ⟨strOf "a", strOf "y: 2", []⟩], [], [], [], false⟩ (by decide)⟩

/-- Claim C2 counterexample: when the content shared by both manifests fails
to normalize, compareManifests returns the wrapped normalization error to its
caller instead of falling back to raw text. -/
theorem c2_normalization_error_surfaced_counterexample :
    compareManifests [] (strOf "---\n# Source: a\n" ++ ('{' :: strOf " x"))
        (strOf "---\n# Source: a\n" ++ ('{' :: strOf " y")) =
      Except.error (strOf "normalizing expected content: failed to decode values") := by decide

/-- Claim C2 (amended): when normalization of either side of a source key
present in both working maps fails, the Diff Engine does not fall back to raw
text: it aborts and surfaces the error to its caller. -/
theorem c2_normalization_failure_aborts_compare (pats : List (Str → Bool))
    (e a : List (Str × Str)) (s ec ac : Str)
    (he : alookup e s = some ec) (ha : alookup a s = some ac)
    (hfail : (normalizeYAML ec).isOk = false ∨ (normalizeYAML ac).isOk = false) :
    (compareManifestsWith pats e a).isOk = false := by
  cases hres : compareManifestsWith pats e a with
  | error msg => rfl
  | ok cr =>
    exfalso
    obtain ⟨⟨ne, hne⟩, na, hna⟩ := compare_ok_shared_normalizes hres he ha
    rcases hfail with hf | hf
    · rw [hne] at hf
      exact Bool.noConfusion hf
    · rw [hna] at hf
      exact Bool.noConfusion hf

/-- Claim C2 witness: the amended theorem at a concrete instance. -/
theorem c2_normalization_failure_aborts_compare_witness :
    (alookup [(strOf "a", '{' :: strOf " x")] (strOf "a") = some ('{' :: strOf " x") ∧
      alookup [(strOf "a", strOf "k: 1")] (strOf "a") = some (strOf "k: 1") ∧
      ((normalizeYAML ('{' :: strOf " x")).isOk = false ∨
        (normalizeYAML (strOf "k: 1")).isOk = false)) ∧
    (compareManifestsWith [] [(strOf "a", '{' :: strOf " x")] [(strOf "a", strOf "k: 1")]).isOk = false :=
  ⟨⟨by decide, by decide, by decide⟩,
    c2_normalization_failure_aborts_compare [] [(strOf "a", '{' :: strOf " x")]
      [(strOf "a", strOf "k: 1")] (strOf "a") ('{' :: strOf " x") (strOf "k: 1")
      (by decide) (by decide) (by decide)⟩

/-- Claim C3: in update mode the classification follows the strict priority
of Test.Run: a semantic difference persists the normalized actual manifest
with outcome semantic; otherwise a byte difference between the normalized
actual manifest and the stored expected fixture persists it with outcome
formatting; otherwise the outcome is none and nothing is written. -/
theorem c3_update_classification_priority (pats : List (Str → Bool))
    (em am : Str) (validation : List (Str × Str)) (cr : CompareResult) (na : Str)
    (hc : compareManifests pats em am = .ok cr)
    (hn : normalizeManifest am = .ok na) :
    (runModel true pats em am validation).map (fun o => (o.test.updateType, o.written)) =
      Except.ok
        (if cr.areEqual = false then (strOf "semantic", some na)
          else if em ≠ na then (strOf "formatting", some na)
          else (strOf "none", none)) := by
  unfold runModel
  simp only [hc, hn]
  cases hae : cr.areEqual with
  | false =>
    simp [validation_foldl_updateType, Except.map]
  | true =>
    by_cases hem : em = na
    · subst hem
      simp [validation_foldl_updateType, Except.map]
    · simp [validation_foldl_updateType, Except.map, hem]

/-- Claim C3 witness: the theorem at a concrete formatting-only instance. -/
theorem c3_update_classification_priority_witness :
    (compareManifests [] (strOf "---\n# Source: a\nx:  1") (strOf "---\n# Source: a\nx:  1\n") =
        Except.ok ⟨[], [], [], [], true⟩ ∧
      normalizeManifest (strOf "---\n# Source: a\nx:  1\n") =
        Except.ok (strOf "---\n# Source: a\nx: 1")) ∧
    (runModel true [] (strOf "---\n# Source: a\nx:  1") (strOf "---\n# Source: a\nx:  1\n") []).map
        (fun o => (o.test.updateType, o.written)) =
      Except.ok
        (if (⟨[], [], [], [], true⟩ : CompareResult).areEqual = false then
            (strOf "semantic", some (strOf "---\n# Source: a\nx: 1"))
          else if strOf "---\n# Source: a\nx:  1" ≠ strOf "---\n# Source: a\nx: 1" then
            (strOf "formatting", some (strOf "---\n# Source: a\nx: 1"))
          else (strOf "none", none)) :=
  ⟨⟨by decide, by decide⟩,
    c3_update_classification_priority [] (strOf "---\n# Source: a\nx:  1")
      (strOf "---\n# Source: a\nx:  1\n") [] ⟨[], [], [], [], true⟩
      (strOf "---\n# Source: a\nx: 1") (by decide) (by decide)⟩

/-- Claim C4: a successful comparison is equal exactly when no missing,
extra or different item was emitted, and every key in the union of the two
working maps falls into exactly one of the four classes missing, extra,
different, or equal-and-unreported. -/
theorem c4_isEqual_iff_no_items_and_totality (pats : List (Str → Bool))
    (e a : List (Str × Str)) (cr : CompareResult)
    (h : compareManifestsWith pats e a = .ok cr) :
    (cr.areEqual = true ↔ cr.missing = [] ∧ cr.extra = [] ∧ cr.different = []) ∧
    ∀ k : Str, k ∈ e.map Prod.fst ∨ k ∈ a.map Prod.fst →
      ExactlyOneOfFour (k ∈ cr.missing.map Item.source) (k ∈ cr.extra.map Item.source)
        (k ∈ cr.different.map Item.source)
        (k ∈ e.map Prod.fst ∧ k ∈ a.map Prod.fst ∧ k ∉ cr.different.map Item.source) := by
  obtain ⟨items, igns, eqd, hdl, hmiss, hext, hdiff, -, haeq⟩ := compareManifestsWith_ok_inv h
  have hflag := diffLoop_ok_flag hdl
  have hM : ∀ k : Str, k ∈ cr.missing.map Item.source ↔
      (k ∈ e.map Prod.fst ∧ k ∉ a.map Prod.fst) := by
    intro k
    rw [hmiss, List.map_map]
    have hcomp : (Item.source ∘ fun p : Str × Str => (⟨p.1, p.2, []⟩ : Item)) = Prod.fst := rfl
    rw [hcomp, map_fst_filter_key e (fun k => (alookup a k).isNone), List.mem_filter]
    simp [Option.isNone_iff_eq_none, alookup_eq_none_iff]
  have hE : ∀ k : Str, k ∈ cr.extra.map Item.source ↔
      (k ∈ a.map Prod.fst ∧ k ∉ e.map Prod.fst) := by
    intro k
    rw [hext, List.map_map]
    have hcomp : (Item.source ∘ fun p : Str × Str => (⟨p.1, [], p.2⟩ : Item)) = Prod.fst := rfl
    rw [hcomp, map_fst_filter_key a
      (fun k => (alookup (e.filter fun p => (alookup a p.1).isSome) k).isNone), List.mem_filter]
    constructor
    · rintro ⟨hk, hnone⟩
      refine ⟨hk, fun hke => ?_⟩
      have hsome : (alookup a k).isSome = true := alookup_isSome_iff.mpr hk
      have hmem : k ∈ (e.filter fun p => (alookup a p.1).isSome).map Prod.fst :=
        (mem_keys_filter e (fun x => (alookup a x).isSome)).mpr ⟨hke, hsome⟩
      rw [Option.isNone_iff_eq_none, alookup_eq_none_iff] at hnone
      exact hnone hmem
    · rintro ⟨hk, hke⟩
      refine ⟨hk, ?_⟩
      rw [Option.isNone_iff_eq_none, alookup_eq_none_iff]
      intro hmem
      exact hke ((mem_keys_filter e (fun x => (alookup a x).isSome)).mp hmem).1
  have hD : ∀ k : Str, k ∈ cr.different.map Item.source →
      k ∈ e.map Prod.fst ∧ k ∈ a.map Prod.fst := by
    intro k hk
    rw [hdiff] at hk
    constructor
    · have hsub := (diffLoop_sources_sublist hdl).subset hk
      exact ((mem_keys_filter e (fun x => (alookup a x).isSome)).mp hsub).1
    · obtain ⟨it, hit, rfl⟩ := List.mem_map.mp hk
      have hss := diffLoop_src_in_actual hdl hit
      exact ((mem_keys_filter a
        (fun x => (alookup (e.filter fun p => (alookup a p.1).isSome) x).isSome)).mp
          (alookup_isSome_iff.mp hss)).1
  constructor
  · rw [haeq, hmiss, hext, hdiff]
    simp only [Bool.and_eq_true, List.isEmpty_iff, List.map_eq_nil_iff]
    rw [hflag]
    tauto
  · intro k hk
    have hMk := hM k
    have hEk := hE k
    have hDk := hD k
    unfold ExactlyOneOfFour
    tauto

/-- Claim C4 witness: the theorem at a concrete instance. -/
theorem c4_isEqual_iff_no_items_and_totality_witness :
    (compareManifestsWith [] [(strOf "a", strOf "x: 1")] [(strOf "a", strOf "x: 2")] =
        Except.ok ⟨[], [], [⟨strOf "a", strOf "x: 1", strOf "x: 2"⟩], [], false⟩) ∧
    ((false = true ↔ ([] : List Item) = [] ∧ ([] : List Item) = [] ∧
        ([⟨strOf "a", strOf "x: 1", strOf "x: 2"⟩] : List Item) = []) ∧
      ∀ k : Str, k ∈ [(strOf "a", strOf "x: 1")].map Prod.fst ∨
          k ∈ [(strOf "a", strOf "x: 2")].map Prod.fst →
        ExactlyOneOfFour (k ∈ ([] : List Item).map Item.source)
          (k ∈ ([] : List Item).map Item.source)
          (k ∈ ([⟨strOf "a", strOf "x: 1", strOf "x: 2"⟩] : List Item).map Item.source)
          (k ∈ [(strOf "a", strOf "x: 1")].map Prod.fst ∧
            k ∈ [(strOf "a", strOf "x: 2")].map Prod.fst ∧
            k ∉ ([⟨strOf "a", strOf "x: 1", strOf "x: 2"⟩] : List Item).map Item.source)) :=
  ⟨by decide, c4_isEqual_iff_no_items_and_totality [] [(strOf "a", strOf "x: 1")]
    [(strOf "a", strOf "x: 2")] ⟨[], [], [⟨strOf "a", strOf "x: 1", strOf "x: 2"⟩], [], false⟩
    (by decide)⟩

/-- Claim C7 counterexample: in update mode a test with a semantic
difference is rewritten but leaves the suite unsuccessful, so the process
exits 1 even though no fatal error occurred — update mode does not always
exit 0. -/
theorem c7_update_mode_exit_counterexample :
    (runModel true [] (strOf "---\n# Source: a\nx: 1") (strOf "---\n# Source: a\nx: 2\n") []).map
        (fun o => (o.test.isValid, exitCode false ⟨true, [o.test]⟩)) =
      Except.ok (true, 1) := by decide

/-- Claim C7 (amended): in both run and update mode, the process exits 0
exactly when no fatal error occurred and every test is both same and valid;
otherwise it exits 1. -/
theorem c7_exit_code_iff (fatalError : Bool) (suite : TestSuite) :
    exitCode fatalError suite = 0 ↔ fatalError = false ∧ suite.IsSuccessful = true := by
  unfold exitCode
  cases fatalError <;> cases h : suite.IsSuccessful <;> simp [h]

/-- Claim C9: in update mode, when normalizing the whole actual manifest
fails while the comparison succeeded, Test.Run neither fails nor aborts: the
raw actual manifest is persisted as the new expected fixture (necessarily
with outcome semantic, since a section that fails to normalize can only be an
extra one). -/
theorem c9_update_normalize_failure_fallback (pats : List (Str → Bool))
    (em am : Str) (validation : List (Str × Str)) (cr : CompareResult) (msg : Str)
    (hc : compareManifests pats em am = .ok cr)
    (hn : normalizeManifest am = .error msg) :
    (runModel true pats em am validation).map (fun o => (o.written, o.test.updateType)) =
      Except.ok (some am, strOf "semantic") := by
  have hae : cr.areEqual = false := compare_ok_normalizeManifest_error hc hn
  unfold runModel
  simp only [hc, hn, hae]
  simp [validation_foldl_updateType, Except.map]

/-- Claim C9 witness: the theorem at a concrete instance. -/
theorem c9_update_normalize_failure_fallback_witness :
    (compareManifests [] (strOf "") (strOf "---\n# Source: a\n" ++ ('{' :: strOf " x")) =
        Except.ok ⟨[], [⟨strOf "a", [], '{' :: strOf " x"⟩], [], [], false⟩ ∧
      normalizeManifest (strOf "---\n# Source: a\n" ++ ('{' :: strOf " x")) =
        Except.error (strOf "normalizing YAML: failed to decode values")) ∧
    (runModel true [] (strOf "") (strOf "---\n# Source: a\n" ++ ('{' :: strOf " x")) []).map
        (fun o => (o.written, o.test.updateType)) =
      Except.ok (some (strOf "---\n# Source: a\n" ++ ('{' :: strOf " x")), strOf "semantic") :=
  ⟨⟨by decide, by decide⟩,
    c9_update_normalize_failure_fallback [] (strOf "")
      (strOf "---\n# Source: a\n" ++ ('{' :: strOf " x")) []
      ⟨[], [⟨strOf "a", [], '{' :: strOf " x"⟩], [], [], false⟩
      (strOf "normalizing YAML: failed to decode values") (by decide) (by decide)⟩

/-! Scanner lemmas for the delimiter split. -/

theorem dropSep_append (s r : Str) : dropSep s (s ++ r) = some r := by
  induction s with
  | nil => rfl
  | cons a as ih => simp [dropSep, ih]

theorem dropSep_some_append {s t rem : Str} (r : Str) (h : dropSep s t = some rem) :
    dropSep s (t ++ r) = some (rem ++ r) := by
  induction s generalizing t with
  | nil =>
    rw [show dropSep [] t = some t from rfl] at h
    cases h
    rfl
  | cons a as ih =>
    cases t with
    | nil => exact Option.noConfusion h
    | cons b bs =>
      simp only [dropSep] at h
      by_cases hab : a = b
      · rw [if_pos hab] at h
        simp only [List.cons_append, dropSep, if_pos hab]
        exact ih h
      · rw [if_neg hab] at h
        exact Option.noConfusion h

theorem dropSep_some_length {s t rem : Str} (h : dropSep s t = some rem) :
    t.length = s.length + rem.length := by
  induction s generalizing t with
  | nil =>
    rw [show dropSep [] t = some t from rfl] at h
    cases h
    simp
  | cons a as ih =>
    cases t with
    | nil => exact Option.noConfusion h
    | cons b bs =>
      simp only [dropSep] at h
      by_cases hab : a = b
      · rw [if_pos hab] at h
        have := ih h
        simp only [List.length_cons, this]
        omega
      · rw [if_neg hab] at h
        exact Option.noConfusion h

theorem dropSep_none_append {s t : Str} (r : Str) (hlen : s.length ≤ t.length)
    (h : dropSep s t = none) : dropSep s (t ++ r) = none := by
  induction s generalizing t with
  | nil =>
    rw [show dropSep [] t = some t from rfl] at h
    exact Option.noConfusion h
  | cons a as ih =>
    cases t with
    | nil => simp at hlen
    | cons b bs =>
      simp only [dropSep] at h
      simp only [List.cons_append, dropSep]
      by_cases hab : a = b
      · rw [if_pos hab] at h ⊢
        exact ih (by simpa using hlen) h
      · rw [if_neg hab]

/-- One unfolding step of the scanner. -/
theorem splitSubAux_step (sep : Str) (f : Nat) (c : Char) (rest acc : Str) :
    splitSubAux sep (f + 1) (c :: rest) acc =
      match dropSep sep (c :: rest) with
      | some rem => acc.reverse :: splitSubAux sep f rem []
      | none => splitSubAux sep f rest (c :: acc) := rfl

theorem splitSubAux_fuel {d : Char} {ds : Str} :
    ∀ n s acc f1 f2, List.length s ≤ n → List.length s < f1 → List.length s < f2 →
      splitSubAux (d :: ds) f1 s acc = splitSubAux (d :: ds) f2 s acc := by
  intro n
  induction n with
  | zero =>
    intro s acc f1 f2 hn h1 h2
    have hs : s = [] := List.length_eq_zero.mp (Nat.le_zero.mp hn)
    subst hs
    obtain ⟨f1', rfl⟩ : ∃ f, f1 = f + 1 := ⟨f1 - 1, by omega⟩
    obtain ⟨f2', rfl⟩ : ∃ f, f2 = f + 1 := ⟨f2 - 1, by omega⟩
    rfl
  | succ n ih =>
    intro s acc f1 f2 hn h1 h2
    obtain ⟨f1', rfl⟩ : ∃ f, f1 = f + 1 := ⟨f1 - 1, by omega⟩
    obtain ⟨f2', rfl⟩ : ∃ f, f2 = f + 1 := ⟨f2 - 1, by omega⟩
    cases s with
    | nil => rfl
    | cons c rest =>
      rw [splitSubAux_step, splitSubAux_step]
      cases hd : dropSep (d :: ds) (c :: rest) with
      | some rem =>
        have hlen := dropSep_some_length hd
        simp only [List.length_cons] at hlen hn h1 h2
        show List.reverse acc :: splitSubAux (d :: ds) f1' rem [] =
          List.reverse acc :: splitSubAux (d :: ds) f2' rem []
        rw [ih rem [] f1' f2' (by omega) (by omega) (by omega)]
      | none =>
        simp only [List.length_cons] at hn h1 h2
        show splitSubAux (d :: ds) f1' rest (c :: acc) = splitSubAux (d :: ds) f2' rest (c :: acc)
        exact ih rest (c :: acc) f1' f2' (by omega) (by omega) (by omega)

theorem splitSubAux_match {d : Char} {ds X acc : Str} {fuel : Nat}
    (hf : List.length ((d :: ds) ++ X) < fuel) :
    splitSubAux (d :: ds) fuel ((d :: ds) ++ X) acc =
      acc.reverse :: splitSubAux (d :: ds) (X.length + 1) X [] := by
  obtain ⟨f, rfl⟩ : ∃ f, fuel = f + 1 := ⟨fuel - 1, by omega⟩
  have hds : dropSep (d :: ds) (d :: (ds ++ X)) = some X := dropSep_append (d :: ds) X
  rw [show (d :: ds) ++ X = d :: (ds ++ X) from rfl]
  rw [splitSubAux_step, hds]
  show List.reverse acc :: splitSubAux (d :: ds) f X [] = _
  simp only [List.length_append, List.length_cons] at hf
  rw [splitSubAux_fuel X.length X [] f (X.length + 1) (le_refl _) (by omega) (by omega)]

theorem splitSubAux_chunk {d : Char} {ds : Str} :
    ∀ c X acc fuel, chunkSafe (d :: ds) c = true →
      List.length (c ++ (d :: ds) ++ X) < fuel →
      splitSubAux (d :: ds) fuel (c ++ (d :: ds) ++ X) acc =
        (acc.reverse ++ c) :: splitSubAux (d :: ds) (X.length + 1) X [] := by
  intro c
  induction c with
  | nil =>
    intro X acc fuel hsafe hf
    simpa using splitSubAux_match (by simpa using hf)
  | cons x c' ih =>
    intro X acc fuel hsafe hf
    obtain ⟨f, rfl⟩ : ∃ f, fuel = f + 1 := ⟨fuel - 1, by omega⟩
    rw [chunkSafe, Bool.and_eq_true] at hsafe
    obtain ⟨hhead, htail⟩ := hsafe
    have hnone : dropSep (d :: ds) ((x :: c') ++ (d :: ds)) = none := by
      cases hx : dropSep (d :: ds) ((x :: c') ++ (d :: ds)) with
      | none => rfl
      | some rem =>
        rw [show x :: c' ++ (d :: ds) = (x :: c') ++ (d :: ds) from rfl, hx] at hhead
        exact Bool.noConfusion hhead
    have hnone2 : dropSep (d :: ds) (((x :: c') ++ (d :: ds)) ++ X) = none :=
      dropSep_none_append X (by simp; omega) hnone
    have hnone3 : dropSep (d :: ds) (x :: (c' ++ ((d :: ds) ++ X))) = none := by
      simpa [List.append_assoc] using hnone2
    rw [show (x :: c') ++ (d :: ds) ++ X = x :: (c' ++ ((d :: ds) ++ X)) by simp]
    rw [splitSubAux_step, hnone3]
    show splitSubAux (d :: ds) f (c' ++ ((d :: ds) ++ X)) (x :: acc) = _
    have hrec := ih X (x :: acc) f htail (by
      simp only [List.length_append, List.length_cons] at hf ⊢
      omega)
    rw [show c' ++ (d :: ds) ++ X = c' ++ ((d :: ds) ++ X) by simp] at hrec
    rw [hrec]
    simp

theorem splitSubAux_last {d : Char} {ds : Str} :
    ∀ c acc fuel, chunkSafe (d :: ds) c = true → List.length c < fuel →
      splitSubAux (d :: ds) fuel c acc = [acc.reverse ++ c] := by
  intro c
  induction c with
  | nil =>
    intro acc fuel _ hf
    obtain ⟨f, rfl⟩ : ∃ f, fuel = f + 1 := ⟨fuel - 1, by omega⟩
    simp [splitSubAux]
  | cons x c' ih =>
    intro acc fuel hsafe hf
    obtain ⟨f, rfl⟩ : ∃ f, fuel = f + 1 := ⟨fuel - 1, by omega⟩
    rw [chunkSafe, Bool.and_eq_true] at hsafe
    obtain ⟨hhead, htail⟩ := hsafe
    have hnone : dropSep (d :: ds) (x :: c') = none := by
      cases hx : dropSep (d :: ds) (x :: c') with
      | none => rfl
      | some rem =>
        have hext := dropSep_some_append (d :: ds) hx
        rw [show x :: c' ++ (d :: ds) = (x :: c') ++ (d :: ds) from rfl, hext] at hhead
        exact Bool.noConfusion hhead
    rw [splitSubAux_step, hnone]
    show splitSubAux (d :: ds) f c' (x :: acc) = _
    have hrec := ih (x :: acc) f htail (by
      simp only [List.length_cons] at hf
      omega)
    rw [hrec]
    simp

/-- The delimiter in head-tail form, for the scanner lemmas. -/
theorem delim_cons : delim = '-' :: strOf "--\n# Source: " := by decide

/-- Splitting a manifest built from labeled sections recovers one chunk per
section, after an empty leading chunk. -/
theorem splitSub_renderSections (sections : List (Str × Str))
    (hok : ∀ p ∈ sections, sectionOK p = true) :
    splitSub (renderSections sections) delim = [] :: sections.map chunkStr := by
  have hsafe : ∀ p ∈ sections, chunkSafe delim (chunkStr p) = true := by
    intro p hp
    have := hok p hp
    unfold sectionOK at this
    rw [Bool.and_eq_true] at this
    exact this.2
  have hbody : ∀ (p : Str × Str) (ps : List (Str × Str)),
      chunkSafe delim (chunkStr p) = true → (∀ q ∈ ps, chunkSafe delim (chunkStr q) = true) →
      ∀ fuel, List.length (chunkStr p ++ renderSections ps) < fuel →
      splitSubAux delim fuel (chunkStr p ++ renderSections ps) [] =
        chunkStr p :: ps.map chunkStr := by
    intro p ps
    induction ps generalizing p with
    | nil =>
      intro hp _ fuel hfuel
      rw [show renderSections [] = [] from rfl, List.append_nil] at hfuel ⊢
      rw [delim_cons] at hp ⊢
      rw [splitSubAux_last (chunkStr p) [] fuel hp hfuel]
      simp
    | cons q ps' ih =>
      intro hp hq fuel hfuel
      have hrender : renderSections (q :: ps') = delim ++ (chunkStr q ++ renderSections ps') := by
        simp [renderSections, List.foldr_cons, List.append_assoc]
      rw [hrender] at hfuel ⊢
      rw [delim_cons] at hp hfuel ⊢
      rw [show chunkStr p ++ ('-' :: strOf "--\n# Source: " ++ (chunkStr q ++ renderSections ps')) =
            chunkStr p ++ ('-' :: strOf "--\n# Source: ") ++ (chunkStr q ++ renderSections ps') by
          simp [List.append_assoc]] at hfuel ⊢
      rw [splitSubAux_chunk (chunkStr p) (chunkStr q ++ renderSections ps') [] fuel hp hfuel]
      have hrec := ih q (hq q (List.mem_cons_self _ _))
        (fun r hr => hq r (List.mem_cons_of_mem _ hr))
        (List.length (chunkStr q ++ renderSections ps') + 1) (by omega)
      rw [delim_cons] at hrec
      rw [hrec]
      rfl
  cases sections with
  | nil => rfl
  | cons p ps =>
    have hrender : renderSections (p :: ps) = delim ++ (chunkStr p ++ renderSections ps) := by
      simp [renderSections, List.foldr_cons, List.append_assoc]
    rw [hrender]
    unfold splitSub
    rw [delim_cons]
    rw [splitSubAux_match (by simp)]
    have hb := hbody p ps (hsafe p (List.mem_cons_self _ _))
      (fun r hr => hsafe r (List.mem_cons_of_mem _ hr))
      (List.length (chunkStr p ++ renderSections ps) + 1) (by omega)
    rw [delim_cons] at hb
    rw [hb]
    simp

/-! Trim and line-splitting lemmas. -/

theorem length_dropWhile_le {α : Type} (p : α → Bool) (l : List α) :
    (l.dropWhile p).length ≤ l.length :=
  (List.dropWhile_sublist p).length_le

theorem dropWhile_eq_self_of_length {α : Type} {p : α → Bool} {l : List α}
    (h : (l.dropWhile p).length = l.length) : l.dropWhile p = l := by
  induction l with
  | nil => rfl
  | cons x xs ih =>
    rw [List.dropWhile_cons]
    by_cases hp : p x
    · rw [List.dropWhile_cons, if_pos hp] at h
      have hle := length_dropWhile_le p xs
      simp only [List.length_cons] at h
      omega
    · rw [if_neg hp]

theorem trimmed_parts {s : Str} (h : trim s = s) : trimLeft s = s ∧ trimRight s = s := by
  have hlenL : ∀ t : Str, (trimLeft t).length ≤ t.length := fun t => length_dropWhile_le _ _
  have hlenR : ∀ t : Str, (trimRight t).length ≤ t.length := by
    intro t
    unfold trimRight
    simpa using length_dropWhile_le isSpc t.reverse
  have h1 : (trimLeft (trimRight s)).length = s.length := by rw [← trim, h]
  have hR : trimRight s = s := by
    have hlen : (trimRight s).length = s.length := by
      have := hlenL (trimRight s)
      have := hlenR s
      omega
    unfold trimRight at hlen ⊢
    have hrev : (s.reverse.dropWhile isSpc).length = s.reverse.length := by
      simpa using hlen
    rw [dropWhile_eq_self_of_length hrev, List.reverse_reverse]
  refine ⟨?_, hR⟩
  calc trimLeft s = trimLeft (trimRight s) := by rw [hR]
    _ = s := h

theorem trimmed_head_not_spc {s : Str} {c : Char} {t : Str}
    (h : trimLeft s = s) (hs : s = c :: t) : isSpc c = false := by
  subst hs
  unfold trimLeft at h
  rw [List.dropWhile_cons] at h
  by_cases hc : isSpc c
  · rw [if_pos hc] at h
    have := length_dropWhile_le isSpc t
    have := congrArg List.length h
    simp only [List.length_cons] at this
    omega
  · exact Bool.of_not_eq_true hc

theorem trimmed_rev_head_not_spc {s : Str} {c : Char} {t : Str}
    (h : trimRight s = s) (hs : s.reverse = c :: t) : isSpc c = false := by
  have hrev : s.reverse.dropWhile isSpc = s.reverse := by
    unfold trimRight at h
    have := congrArg List.reverse h
    rwa [List.reverse_reverse] at this
  exact trimmed_head_not_spc (by simpa [trimLeft] using hrev) hs

/-- Trimming one rendered chunk gives the path line and the body. -/
theorem trim_chunk {p1 q : Str} (h1 : trim p1 = p1) (hn1 : p1 ≠ []) (h2 : trim q = q)
    (hn2 : q ≠ []) : trim (p1 ++ '\n' :: (q ++ ['\n'])) = p1 ++ '\n' :: q := by
  obtain ⟨hL1, hR1⟩ := trimmed_parts h1
  obtain ⟨hL2, hR2⟩ := trimmed_parts h2
  obtain ⟨c, t, hq⟩ : ∃ c t, q.reverse = c :: t := by
    cases hqr : q.reverse with
    | nil => exact absurd (by simpa using congrArg List.reverse hqr) hn2
    | cons c t => exact ⟨c, t, rfl⟩
  have hc : isSpc c = false := trimmed_rev_head_not_spc hR2 hq
  have hstep : trimRight (p1 ++ '\n' :: (q ++ ['\n'])) = p1 ++ '\n' :: q := by
    unfold trimRight
    have hrev : (p1 ++ '\n' :: (q ++ ['\n'])).reverse =
        '\n' :: (q.reverse ++ '\n' :: p1.reverse) := by
      simp
    rw [hrev, List.dropWhile_cons, if_pos (by decide : isSpc '\n' = true)]
    rw [hq]
    rw [show (c :: t) ++ '\n' :: p1.reverse = c :: (t ++ '\n' :: p1.reverse) from rfl]
    rw [List.dropWhile_cons, if_neg (by simp [hc])]
    have : (c :: (t ++ '\n' :: p1.reverse)).reverse = p1 ++ '\n' :: q := by
      have hq' : q = (c :: t).reverse := by
        have := congrArg List.reverse hq
        rwa [List.reverse_reverse] at this
      simp [hq']
    rw [this]
  rw [trim, hstep]
  obtain ⟨c1, t1, hp⟩ : ∃ c1 t1, p1 = c1 :: t1 := by
    cases hpp : p1 with
    | nil => exact absurd hpp hn1
    | cons c1 t1 => exact ⟨c1, t1, rfl⟩
  have hc1 : isSpc c1 = false := trimmed_head_not_spc hL1 hp
  rw [hp]
  show trimLeft (c1 :: (t1 ++ '\n' :: q)) = _
  unfold trimLeft
  rw [List.dropWhile_cons, if_neg (by simp [hc1])]
  simp

theorem splitOnP_ne_nil {α : Type} (p : α → Bool) (l : List α) : splitOnP p l ≠ [] := by
  induction l with
  | nil => simp [splitOnP]
  | cons a rest ih =>
    rw [splitOnP]
    cases h : splitOnP p rest with
    | nil => exact absurd h ih
    | cons x xs => by_cases hp : p a <;> simp [hp]

theorem splitChar_sep_cons (r : Str) : splitChar '\n' ('\n' :: r) = [] :: splitChar '\n' r := by
  show splitOnP (· = '\n') ('\n' :: r) = [] :: splitOnP (· = '\n') r
  rw [splitOnP]
  cases h : splitOnP (· = '\n') r with
  | nil => exact absurd h (splitOnP_ne_nil _ _)
  | cons x xs => simp

theorem splitChar_append {p1 : Str} (hn : p1.contains '\n' = false) (r : Str) :
    splitChar '\n' (p1 ++ '\n' :: r) = p1 :: splitChar '\n' r := by
  induction p1 with
  | nil => simpa using splitChar_sep_cons r
  | cons x t ih =>
    simp only [List.contains_cons, Bool.or_eq_false_iff] at hn
    obtain ⟨hx, ht⟩ := hn
    have hxne : ¬ (x = '\n') := by
      intro he
      subst he
      simp at hx
    show splitOnP (· = '\n') (x :: (t ++ '\n' :: r)) = _
    rw [splitOnP]
    have ih' := ih ht
    rw [show splitOnP (· = '\n') (t ++ '\n' :: r) = splitChar '\n' (t ++ '\n' :: r) from rfl, ih']
    simp [hxne]

theorem joinl_cons_head {sep : Str} {c : Char} {x : Str} {xs : List Str} :
    joinl sep ((c :: x) :: xs) = c :: joinl sep (x :: xs) := by
  cases xs <;> simp [joinl]

theorem joinl_splitChar (s : Str) : joinl ['\n'] (splitChar '\n' s) = s := by
  induction s with
  | nil => rfl
  | cons c r ih =>
    by_cases hc : c = '\n'
    · subst hc
      rw [splitChar_sep_cons]
      cases h : splitChar '\n' r with
      | nil => exact absurd h (splitOnP_ne_nil _ _)
      | cons x xs =>
        rw [show joinl ['\n'] ([] :: x :: xs) = [] ++ ['\n'] ++ joinl ['\n'] (x :: xs) from rfl]
        rw [← h, ih]
        rfl
    · cases h : splitChar '\n' r with
      | nil => exact absurd h (splitOnP_ne_nil _ _)
      | cons x xs =>
        have hsplit : splitChar '\n' (c :: r) = (c :: x) :: xs := by
          show splitOnP (· = '\n') (c :: r) = _
          rw [splitOnP]
          rw [show splitOnP (· = '\n') r = splitChar '\n' r from rfl, h]
          simp [hc]
        rw [hsplit, joinl_cons_head, ← h, ih]

theorem splitN2_chunk {p1 p2 : Str} (hn : p1.contains '\n' = false) :
    splitN2 (p1 ++ '\n' :: p2) = [p1, p2] := by
  unfold splitN2
  rw [splitChar_append hn]
  cases h : splitChar '\n' p2 with
  | nil => exact absurd h (splitOnP_ne_nil _ _)
  | cons x xs =>
    show [p1, joinl ['\n'] (x :: xs)] = [p1, p2]
    rw [← h, joinl_splitChar]

/-- The split step applied to one rendered chunk stores its path and body. -/
theorem splitStep_chunk {p : Str × Str} (hok : sectionOK p = true)
    (items : List (Str × Str)) : splitStep items (chunkStr p) = assocUpdate items p.1 p.2 := by
  unfold sectionOK at hok
  rw [Bool.and_eq_true] at hok
  obtain ⟨hok1, hsafe⟩ := hok
  rw [Bool.and_eq_true] at hok1
  obtain ⟨hok2, hn2⟩ := hok1
  rw [Bool.and_eq_true] at hok2
  obtain ⟨hok3, ht2⟩ := hok2
  rw [Bool.and_eq_true] at hok3
  obtain ⟨hok4, hnl⟩ := hok3
  rw [Bool.and_eq_true] at hok4
  obtain ⟨ht1, hn1⟩ := hok4
  have ht1' : trim p.1 = p.1 := of_decide_eq_true ht1
  have hn1' : p.1 ≠ [] := of_decide_eq_true hn1
  have ht2' : trim p.2 = p.2 := of_decide_eq_true ht2
  have hn2' : p.2 ≠ [] := of_decide_eq_true hn2
  have hnl' : p.1.contains '\n' = false := by
    cases hx : List.contains p.1 '\n'
    · rfl
    · rw [hx] at hnl
      exact Bool.noConfusion hnl
  unfold splitStep chunkStr
  rw [trim_chunk ht1' hn1' ht2' hn2']
  rw [if_neg (by simp [hn1'])]
  rw [splitN2_chunk hnl']
  show assocUpdate items (trim p.1) (trim p.2) = _
  rw [ht1', ht2']

theorem foldl_splitStep_chunks (sections : List (Str × Str))
    (hok : ∀ p ∈ sections, sectionOK p = true) :
    ∀ items, (sections.map chunkStr).foldl splitStep items =
      sections.foldl (fun m p => assocUpdate m p.1 p.2) items := by
  induction sections with
  | nil => intro items; rfl
  | cons p ps ih =>
    intro items
    rw [List.map_cons, List.foldl_cons, List.foldl_cons]
    rw [splitStep_chunk (hok p (List.mem_cons_self _ _))]
    exact ih (fun q hq => hok q (List.mem_cons_of_mem _ hq)) _

/-- Claim C5: splitManifest recovers concatenated labeled sections, joining
the bodies of a repeated source path in encounter order behind a synthetic
three-dash boundary (the assocUpdate fold); empty input yields an empty map;
and a section lacking both a path line and a body line — such as the empty
chunk before a leading delimiter or a whitespace-only section — is silently
skipped. -/
theorem c5_splitManifest_spec (sections : List (Str × Str)) (rest : Str)
    (hok : ∀ p ∈ sections, sectionOK p = true) :
    splitManifest [] = [] ∧
    splitManifest (renderSections sections) =
      sections.foldl (fun m p => assocUpdate m p.1 p.2) [] ∧
    splitManifest (delim ++ rest) = splitManifest rest ∧
    splitManifest (strOf "---\n# Source: \n  \n---\n# Source: a\nb") = [(strOf "a", strOf "b")] := by
  refine ⟨by decide, ?_, ?_, by decide⟩
  · unfold splitManifest
    rw [splitSub_renderSections sections hok]
    rw [List.foldl_cons]
    rw [show splitStep [] [] = [] from rfl]
    exact foldl_splitStep_chunks sections hok []
  · unfold splitManifest
    have hsplit : splitSub (delim ++ rest) delim = [] :: splitSub rest delim := by
      unfold splitSub
      rw [delim_cons]
      rw [splitSubAux_match (by simp)]
      simp
    rw [hsplit, List.foldl_cons]
    rw [show splitStep [] [] = [] from rfl]

/-- Claim C5 witness: the theorem at a concrete instance with a repeated
source path. -/
theorem c5_splitManifest_spec_witness :
    ([(strOf "a", strOf "x: 1"), (strOf "b", strOf "y: 2"), (strOf "a", strOf "z: 3")].all
        sectionOK = true) ∧
    splitManifest [] = [] ∧
    splitManifest (renderSections
        [(strOf "a", strOf "x: 1"), (strOf "b", strOf "y: 2"), (strOf "a", strOf "z: 3")]) =
      [(strOf "a", strOf "x: 1"), (strOf "b", strOf "y: 2"), (strOf "a", strOf "z: 3")].foldl
        (fun m p => assocUpdate m p.1 p.2) [] ∧
    splitManifest (delim ++ strOf "x") = splitManifest (strOf "x") ∧
    splitManifest (strOf "---\n# Source: \n  \n---\n# Source: a\nb") = [(strOf "a", strOf "b")] :=
  ⟨by decide, c5_splitManifest_spec
    [(strOf "a", strOf "x: 1"), (strOf "b", strOf "y: 2"), (strOf "a", strOf "z: 3")]
    (strOf "x") (by decide)⟩

/-! General facts about the predicate splitter and joins. -/

theorem splitOnP_sep_cons {α : Type} (p : α → Bool) {s : α} (hs : p s = true) (r : List α) :
    splitOnP p (s :: r) = [] :: splitOnP p r := by
  rw [splitOnP]
  cases h : splitOnP p r with
  | nil => exact absurd h (splitOnP_ne_nil _ _)
  | cons x xs => simp [hs]

theorem splitOnP_cons_false {α : Type} (p : α → Bool) {s : α} (hs : p s = false) (r : List α) :
    splitOnP p (s :: r) =
      (s :: (splitOnP p r).headI) :: (splitOnP p r).tail := by
  rw [splitOnP]
  cases h : splitOnP p r with
  | nil => exact absurd h (splitOnP_ne_nil _ _)
  | cons x xs => simp [hs]

theorem splitOnP_append {α : Type} (p : α → Bool) {a : List α} (ha : ∀ x ∈ a, p x = false)
    {s : α} (hs : p s = true) (b : List α) :
    splitOnP p (a ++ s :: b) = a :: splitOnP p b := by
  induction a with
  | nil => simpa using splitOnP_sep_cons p hs b
  | cons x t ih =>
    have hx : p x = false := ha x (List.mem_cons_self _ _)
    have ih' := ih fun e he => ha e (List.mem_cons_of_mem _ he)
    rw [List.cons_append, splitOnP_cons_false p hx, ih']
    simp

theorem splitOnP_mem_false {α : Type} (p : α → Bool) :
    ∀ (l : List α), ∀ x ∈ splitOnP p l, ∀ e ∈ x, p e = false := by
  intro l
  induction l with
  | nil =>
    intro x hx e he
    simp only [splitOnP, List.mem_singleton] at hx
    subst hx
    cases he
  | cons a rest ih =>
    intro x hx e he
    rw [splitOnP] at hx
    cases h : splitOnP p rest with
    | nil => exact absurd h (splitOnP_ne_nil _ _)
    | cons y ys =>
      simp only [h] at hx
      by_cases hp : p a
      · rw [if_pos hp] at hx
        rcases List.mem_cons.mp hx with rfl | hx'
        · cases he
        · exact ih x (h ▸ hx') e he
      · rw [if_neg hp] at hx
        rcases List.mem_cons.mp hx with rfl | hx'
        · rcases List.mem_cons.mp he with rfl | he'
          · exact Bool.of_not_eq_true hp
          · exact ih y (h ▸ List.mem_cons_self _ _) e he'
        · exact ih x (h ▸ List.mem_cons_of_mem _ hx') e he

theorem splitOnP_mem_subset {α : Type} (p : α → Bool) :
    ∀ (l : List α), ∀ x ∈ splitOnP p l, ∀ e ∈ x, e ∈ l := by
  intro l
  induction l with
  | nil =>
    intro x hx e he
    simp only [splitOnP, List.mem_singleton] at hx
    subst hx
    cases he
  | cons a rest ih =>
    intro x hx e he
    rw [splitOnP] at hx
    cases h : splitOnP p rest with
    | nil => exact absurd h (splitOnP_ne_nil _ _)
    | cons y ys =>
      simp only [h] at hx
      by_cases hp : p a
      · rw [if_pos hp] at hx
        rcases List.mem_cons.mp hx with rfl | hx'
        · cases he
        · exact List.mem_cons_of_mem _ (ih x (h ▸ hx') e he)
      · rw [if_neg hp] at hx
        rcases List.mem_cons.mp hx with rfl | hx'
        · rcases List.mem_cons.mp he with rfl | he'
          · exact List.mem_cons_self _ _
          · exact List.mem_cons_of_mem _ (ih y (h ▸ List.mem_cons_self _ _) e he')
        · exact List.mem_cons_of_mem _ (ih x (h ▸ List.mem_cons_of_mem _ hx') e he)

theorem contains_eq_false_iff {s : Str} {c : Char} :
    s.contains c = false ↔ ∀ e ∈ s, e ≠ c := by
  induction s with
  | nil => simp
  | cons a rest ih =>
    rw [List.contains_cons]
    constructor
    · intro h
      rw [Bool.or_eq_false_iff] at h
      intro e he
      rcases List.mem_cons.mp he with rfl | he'
      · intro hc
        subst hc
        rw [beq_self_eq_true] at h
        exact Bool.noConfusion h.1
      · exact ih.mp h.2 e he'
    · intro h
      rw [Bool.or_eq_false_iff]
      refine ⟨?_, ih.mpr fun e he => h e (List.mem_cons_of_mem _ he)⟩
      have ha := h a (List.mem_cons_self _ _)
      exact beq_eq_false_iff_ne.mpr fun hc => ha hc.symm

theorem splitChar_appendC (c : Char) {p1 : Str} (hn : p1.contains c = false) (r : Str) :
    splitChar c (p1 ++ c :: r) = p1 :: splitChar c r :=
  splitOnP_append _
    (fun x hx => decide_eq_false (contains_eq_false_iff.mp hn x hx))
    (by simp) r

theorem splitChar_of_not_contains {c : Char} {s : Str} (h : s.contains c = false) :
    splitChar c s = [s] := by
  induction s with
  | nil => rfl
  | cons a rest ih =>
    rw [List.contains_cons, Bool.or_eq_false_iff] at h
    have ha : ¬ (a = c) := by
      intro hc
      subst hc
      rw [beq_self_eq_true] at h
      exact Bool.noConfusion h.1
    show splitOnP (· = c) (a :: rest) = [a :: rest]
    rw [splitOnP_cons_false (fun x => decide (x = c)) (decide_eq_false ha)]
    rw [show splitOnP (· = c) rest = splitChar c rest from rfl, ih h.2]
    rfl

theorem joinl_splitCharG (c : Char) (s : Str) : joinl [c] (splitChar c s) = s := by
  induction s with
  | nil => rfl
  | cons a r ih =>
    by_cases hc : a = c
    · subst hc
      rw [show splitChar a (a :: r) = [] :: splitChar a r from
        splitOnP_sep_cons _ (by simp) r]
      cases h : splitChar a r with
      | nil => exact absurd h (splitOnP_ne_nil _ _)
      | cons x xs =>
        rw [show joinl [a] ([] :: x :: xs) = [] ++ [a] ++ joinl [a] (x :: xs) from rfl]
        rw [← h, ih]
        rfl
    · cases h : splitChar c r with
      | nil => exact absurd h (splitOnP_ne_nil _ _)
      | cons x xs =>
        have hsplit : splitChar c (a :: r) = (a :: x) :: xs := by
          show splitOnP (· = c) (a :: r) = _
          rw [splitOnP_cons_false _ (by simpa using hc)]
          rw [show splitOnP (· = c) r = splitChar c r from rfl, h]
          rfl
        rw [hsplit, joinl_cons_head, ← h, ih]

theorem splitChar_decompose {c : Char} {s : Str} {k : Str} {rest : List Str}
    (h : splitChar c s = k :: rest) (hne : rest ≠ []) :
    s = k ++ c :: joinl [c] rest ∧ ∀ e ∈ k, (e = c) = false := by
  constructor
  · have := joinl_splitCharG c s
    rw [h] at this
    cases rest with
    | nil => exact absurd rfl hne
    | cons y ys =>
      rw [show joinl [c] (k :: y :: ys) = k ++ [c] ++ joinl [c] (y :: ys) from rfl] at this
      simpa using this.symm
  · intro e he
    have hk : k ∈ splitChar c s := by
      rw [h]
      exact List.mem_cons_self _ _
    have := splitOnP_mem_false (· = c) s k hk e he
    simpa using this

/-! Scalar emission and quoting lemmas. -/

theorem unqQ_cons_ne {c : Char} (hc : c ≠ '\'') (r : Str) :
    unqQ (c :: r) = (unqQ r).map (c :: ·) := by
  rw [unqQ.eq_def]
  simp only [if_neg hc]

theorem unqQ_quote_quote (r : Str) :
    unqQ ('\'' :: ('\'' :: r)) = (unqQ r).map ('\'' :: ·) := by
  rw [unqQ.eq_def]
  simp

theorem unqQ_escQ (s : Str) : unqQ (escQ s ++ ['\'']) = some s := by
  induction s with
  | nil => rfl
  | cons c rest ih =>
    rw [escQ]
    by_cases hc : c = '\''
    · rw [if_pos hc]
      subst hc
      show unqQ ('\'' :: ('\'' :: (escQ rest ++ ['\'']))) = _
      rw [unqQ_quote_quote, ih]
      rfl
    · rw [if_neg hc]
      show unqQ (c :: (escQ rest ++ ['\''])) = _
      rw [unqQ_cons_ne hc, ih]
      rfl

theorem escQ_mem {s : Str} {e : Char} (he : e ∈ escQ s) : e = '\'' ∨ e ∈ s := by
  induction s with
  | nil => cases he
  | cons c rest ih =>
    rw [escQ] at he
    by_cases hc : c = '\''
    · rw [if_pos hc] at he
      rcases List.mem_cons.mp he with rfl | he' <;>
        [exact Or.inl rfl;
         rcases List.mem_cons.mp he' with rfl | he'' <;>
           [exact Or.inl rfl;
            rcases ih he'' with h | h <;> [exact Or.inl h; exact Or.inr (List.mem_cons_of_mem _ h)]]]
    · rw [if_neg hc] at he
      rcases List.mem_cons.mp he with rfl | he'
      · exact Or.inr (List.mem_cons_self _ _)
      · rcases ih he' with h | h
        · exact Or.inl h
        · exact Or.inr (List.mem_cons_of_mem _ h)

theorem plainOK_facts {s : Str} (h : plainOK s = true) :
    ∃ c t, s = c :: t ∧ badHead c = false ∧ s.contains ':' = false ∧
      s.contains '\n' = false ∧ ∃ cl, s.getLast? = some cl ∧ isSpc cl = false := by
  cases s with
  | nil => simp [plainOK] at h
  | cons c t =>
    rw [plainOK] at h
    cases hl : (c :: t).getLast? with
    | none => simp at hl
    | some cl =>
      rw [hl] at h
      simp only [Bool.and_eq_true, Bool.not_eq_true'] at h
      exact ⟨c, t, rfl, h.1.1.1.1.1.1.1, h.1.1.1.1.1.1.2, h.1.1.1.1.1.2, cl, rfl, h.2⟩

theorem plainOK_classify {s : Str} (hp : plainOK s = true) : classifyPlain s = .str s := by
  cases s with
  | nil => simp [plainOK] at hp
  | cons c t =>
    rw [plainOK] at hp
    cases hl : (c :: t).getLast? with
    | none => simp at hl
    | some cl =>
      rw [hl] at hp
      simp only [Bool.and_eq_true, Bool.not_eq_true'] at hp
      unfold classifyPlain
      rw [if_neg (of_decide_eq_false hp.1.1.1.1.2),
        if_neg (of_decide_eq_false hp.1.1.1.2),
        if_neg (of_decide_eq_false hp.1.1.2),
        if_neg (by rw [hp.1.2]; exact Bool.false_ne_true)]

theorem keyOK_facts {k : Str} (h : keyOK k = true) :
    ∃ c t, k = c :: t ∧ badHead c = false ∧ k.contains ':' = false ∧
      k.contains '\n' = false ∧ ∃ cl, k.getLast? = some cl ∧ isSpc cl = false := by
  cases k with
  | nil => simp [keyOK] at h
  | cons c t =>
    rw [keyOK] at h
    cases hl : (c :: t).getLast? with
    | none => simp at hl
    | some cl =>
      rw [hl] at h
      simp only [Bool.and_eq_true, Bool.not_eq_true'] at h
      exact ⟨c, t, rfl, h.1.1.1, h.1.1.2, h.1.2, cl, rfl, h.2⟩

theorem badHead_false_facts {c : Char} (h : badHead c = false) :
    c ≠ '#' ∧ c ≠ '-' ∧ c ≠ '\'' ∧ c ≠ '"' ∧ c ≠ '{' ∧ c ≠ '[' ∧ isSpc c = false := by
  refine ⟨?_, ?_, ?_, ?_, ?_, ?_, ?_⟩
  · intro hc; subst hc; exact absurd h (by decide)
  · intro hc; subst hc; exact absurd h (by decide)
  · intro hc; subst hc; exact absurd h (by decide)
  · intro hc; subst hc; exact absurd h (by decide)
  · intro hc; subst hc; exact absurd h (by decide)
  · intro hc; subst hc; exact absurd h (by decide)
  · cases hs : isSpc c
    · rfl
    · exfalso
      unfold badHead at h
      rw [hs] at h
      simp at h

theorem emitScalar_ne_nil (s : Str) : emitScalar s ≠ [] := by
  unfold emitScalar
  by_cases h : plainOK s
  · rw [if_pos h]
    obtain ⟨c, t, rfl, -⟩ := plainOK_facts h
    simp
  · rw [if_neg h]
    simp [quoteS]

theorem emitScalar_txtGood {s : Str} (h : s.contains '\n' = false) :
    TxtGood (emitScalar s) := by
  unfold emitScalar
  by_cases hp : plainOK s
  · rw [if_pos hp]
    obtain ⟨c, t, rfl, hbad, hcolon, hnl, cl, hcl, hclspc⟩ := plainOK_facts hp
    obtain ⟨h1, h2, h3, h4, h5, hbr, h6⟩ := badHead_false_facts hbad
    refine ⟨⟨by simp, ?_, ?_, ?_⟩, ?_⟩
    · intro c' r' he
      cases he
      exact ⟨h6, h1⟩
    · exact contains_eq_false_iff.mp hnl
    · intro cl' hcl'
      rw [hcl] at hcl'
      cases hcl'
      exact hclspc
    · intro heq
      have hh := congrArg List.head? heq
      rw [show (strOf "---").head? = some '-' from rfl] at hh
      simp at hh
      exact h2 hh
  · rw [if_neg hp]
    unfold quoteS
    refine ⟨⟨by simp, ?_, ?_, ?_⟩, ?_⟩
    · intro c' r' he
      cases he
      exact ⟨by decide, by decide⟩
    · intro e he
      rcases List.mem_cons.mp he with rfl | he'
      · decide
      · rcases List.mem_append.mp he' with he'' | he''
        · rcases escQ_mem he'' with rfl | hmem
          · decide
          · exact contains_eq_false_iff.mp h e hmem
        · rcases List.mem_singleton.mp he'' with rfl
          decide
    · intro cl hcl
      rw [show '\'' :: (escQ s ++ ['\'']) = ('\'' :: escQ s) ++ ['\''] from rfl,
        List.getLast?_concat] at hcl
      cases hcl
      decide
    · intro heq
      have hh := congrArg List.head? heq
      rw [show (strOf "---").head? = some '-' from rfl] at hh
      simp at hh

/-! Line parsing of encoder output. -/

theorem trim_eq_self {s : Str} (hh : ∀ c, s.head? = some c → isSpc c = false)
    (hl : ∀ c, s.getLast? = some c → isSpc c = false) : trim s = s := by
  have hr : trimRight s = s := by
    unfold trimRight
    cases hrev : s.reverse with
    | nil =>
      rw [List.dropWhile_nil, ← hrev, List.reverse_reverse]
    | cons d t =>
      have hd : s.getLast? = some d := by
        rw [← List.head?_reverse, hrev]
        rfl
      rw [List.dropWhile_cons, if_neg (by simp [hl d hd]), ← hrev,
        List.reverse_reverse]
  show trimLeft (trimRight s) = s
  rw [hr]
  show s.dropWhile isSpc = s
  cases s with
  | nil => rfl
  | cons c t => rw [List.dropWhile_cons, if_neg (by simp [hh c rfl])]

theorem trim_space_cons {v : Str} (hne : v ≠ [])
    (hh : ∀ c, v.head? = some c → isSpc c = false)
    (hl : ∀ c, v.getLast? = some c → isSpc c = false) : trim (' ' :: v) = v := by
  have hr : trimRight (' ' :: v) = ' ' :: v := by
    unfold trimRight
    cases hrev : (' ' :: v).reverse with
    | nil => simp at hrev
    | cons d t =>
      have hd : v.getLast? = some d := by
        have h1 : (' ' :: v).getLast? = some d := by
          rw [← List.head?_reverse, hrev]
          rfl
        rw [show (' ' :: v) = [' '] ++ v from rfl,
          List.getLast?_append_of_ne_nil [' '] hne] at h1
        exact h1
      rw [List.dropWhile_cons, if_neg (by simp [hl d hd]), ← hrev,
        List.reverse_reverse]
  show trimLeft (trimRight (' ' :: v)) = v
  rw [hr]
  show (' ' :: v).dropWhile isSpc = v
  rw [List.dropWhile_cons, if_pos (by decide)]
  cases v with
  | nil => rfl
  | cons c t => rw [List.dropWhile_cons, if_neg (by simp [hh c rfl])]

theorem parseValText_quote (r : Str) : parseValText ('\'' :: r) = (unqQ r).map Val.str := by
  unfold parseValText
  simp

theorem parseValText_plain {c : Char} (r : Str) (h1 : ¬ c = '\'') (h2 : ¬ c = '"')
    (h3 : ¬ c = '{') (h4 : ¬ c = '[') :
    parseValText (c :: r) = some (classifyPlain (c :: r)) := by
  unfold parseValText
  simp only [if_neg h1, if_neg h2, if_neg h3, if_neg h4]

theorem parseValText_emit {s : Str} (h : s.contains '\n' = false) :
    parseValText (emitScalar s) = some (.str s) := by
  unfold emitScalar
  by_cases hp : plainOK s
  · rw [if_pos hp]
    obtain ⟨c, t, rfl, hbad, -, -, -⟩ := plainOK_facts hp
    obtain ⟨-, -, h3, h4, h5, h7, -⟩ := badHead_false_facts hbad
    rw [parseValText_plain t h3 h4 h5 h7, plainOK_classify hp]
  · rw [if_neg hp]
    unfold quoteS
    rw [parseValText_quote, unqQ_escQ]
    rfl

theorem parseKeyTxt_plain {k : Str} (hk : keyOK k = true) : parseKeyTxt k = some k := by
  obtain ⟨c, t, rfl, hbad, -, -, -⟩ := keyOK_facts hk
  obtain ⟨-, -, h3, h4, -, -, -⟩ := badHead_false_facts hbad
  unfold parseKeyTxt
  simp only [if_neg h3, if_neg h4, if_pos hk]

theorem parseKeyTxt_quote (u : Str) :
    parseKeyTxt ('\'' :: u) = (unqQ u).bind fun k => if keyOK k then some k else none := by
  unfold parseKeyTxt
  simp

theorem parseKeyRest_no_colon {t : Str} (h : t.contains ':' = false) :
    parseKeyRest t = none := by
  unfold parseKeyRest
  rw [splitChar_of_not_contains h]

theorem parseKeyRest_keyline {k v : Str} (hk : keyOK k = true) (hne : v ≠ [])
    (hh : ∀ c, v.head? = some c → isSpc c = false)
    (hl : ∀ c, v.getLast? = some c → isSpc c = false) :
    parseKeyRest (k ++ ':' :: ' ' :: v) = some (k, v) := by
  obtain ⟨c, t, heq, hbad, hcolon, -, -⟩ := keyOK_facts hk
  unfold parseKeyRest
  rw [splitChar_appendC ':' hcolon (' ' :: v)]
  cases hs : splitChar ':' (' ' :: v) with
  | nil => exact absurd hs (splitOnP_ne_nil _ _)
  | cons x xs =>
    show (parseKeyTxt k).map (fun key => (key, trim (joinl [':'] (x :: xs)))) = _
    rw [parseKeyTxt_plain hk, ← hs, joinl_splitCharG, trim_space_cons hne hh hl]
    rfl

theorem parseKeyRest_bare {k : Str} (hk : keyOK k = true) :
    parseKeyRest (k ++ [':']) = some (k, []) := by
  obtain ⟨c, t, heq, hbad, hcolon, -, -⟩ := keyOK_facts hk
  unfold parseKeyRest
  rw [show k ++ [':'] = k ++ ':' :: ([] : Str) from rfl,
    splitChar_appendC ':' hcolon []]
  show (parseKeyTxt k).map (fun key => (key, trim (joinl [':'] [([] : Str)]))) = _
  rw [parseKeyTxt_plain hk]
  rfl

theorem append_singleton_colon {q : Char} (hq : ¬ q = ':') :
    ∀ {a b J : Str}, a ++ [q] = b ++ ':' :: J → ∃ w, a = b ++ ':' :: w := by
  intro a b
  induction b generalizing a with
  | nil =>
    intro J h
    cases a with
    | nil =>
      simp at h
      exact absurd h.1 hq
    | cons a1 a2 =>
      rw [List.cons_append, List.nil_append] at h
      injection h with h1 h2
      exact ⟨a2, by rw [h1]; rfl⟩
  | cons b1 bs ih =>
    intro J h
    cases a with
    | nil =>
      rw [List.nil_append, List.cons_append] at h
      injection h with h1 h2
      exact absurd h2.symm (by simp)
    | cons a1 a2 =>
      rw [List.cons_append, List.cons_append] at h
      injection h with h1 h2
      obtain ⟨w, hw⟩ := ih h2
      exact ⟨w, by rw [List.cons_append, h1, hw]⟩

theorem unqQ_escQ_colon : ∀ {s u w : Str}, escQ s = u ++ ':' :: w → unqQ u = none := by
  intro s
  induction s with
  | nil =>
    intro u w h
    rw [escQ] at h
    exact absurd h.symm (by simp)
  | cons c rest ih =>
    intro u w h
    rw [escQ] at h
    by_cases hc : c = '\''
    · rw [if_pos hc] at h
      cases u with
      | nil => rfl
      | cons u1 us =>
        cases us with
        | nil =>
          rw [List.cons_append, List.nil_append] at h
          injection h with h1 h2
          injection h2 with h2a h2b
          exact absurd h2a (by decide)
        | cons u2 u3s =>
          rw [List.cons_append, List.cons_append] at h
          injection h with h1 h2
          injection h2 with h2a h2b
          rw [← h1, ← h2a, unqQ_quote_quote, ih h2b]
          rfl
    · rw [if_neg hc] at h
      cases u with
      | nil => rfl
      | cons u1 us =>
        rw [List.cons_append] at h
        injection h with h1 h2
        rw [← h1, unqQ_cons_ne hc, ih h2]
        rfl

theorem parseKeyRest_quoteS (s : Str) : parseKeyRest (quoteS s) = none := by
  unfold parseKeyRest
  cases hs : splitChar ':' (quoteS s) with
  | nil => exact absurd hs (splitOnP_ne_nil _ _)
  | cons kpart rest =>
    cases rest with
    | nil => rfl
    | cons x xs =>
      obtain ⟨hdecomp, -⟩ := splitChar_decompose hs (by simp)
      show (parseKeyTxt kpart).map (fun key => (key, trim (joinl [':'] (x :: xs)))) = none
      cases kpart with
      | nil =>
        rw [List.nil_append] at hdecomp
        unfold quoteS at hdecomp
        injection hdecomp with h1 h2
        exact absurd h1 (by decide)
      | cons k1 u =>
        rw [List.cons_append] at hdecomp
        unfold quoteS at hdecomp
        injection hdecomp with h1 h2
        obtain ⟨w, hw⟩ := append_singleton_colon (by decide) h2
        rw [← h1, parseKeyTxt_quote, unqQ_escQ_colon hw]
        rfl

theorem parseKeyRest_emit (s : Str) (h : plainOK s → s.contains ':' = false) :
    parseKeyRest (emitScalar s) = none := by
  unfold emitScalar
  by_cases hp : plainOK s
  · rw [if_pos hp]
    exact parseKeyRest_no_colon (h hp)
  · rw [if_neg hp]
    exact parseKeyRest_quoteS s

/-! Encoder line facts. -/

/-! Facts about the plain scalar classes. -/

theorem isDigit_facts {c : Char} (h : c.isDigit = true) :
    isSpc c = false ∧ c ≠ '#' ∧ c ≠ '-' ∧ c ≠ '\n' ∧ c ≠ ':' ∧ c ≠ ' ' ∧
      c ≠ '\'' ∧ c ≠ '"' ∧ c ≠ '{' ∧ c ≠ '[' := by
  have h1 : ¬ c = ' ' := fun heq => by subst heq; exact absurd h (by decide)
  have h2 : ¬ c = '\t' := fun heq => by subst heq; exact absurd h (by decide)
  have h3 : ¬ c = '\n' := fun heq => by subst heq; exact absurd h (by decide)
  have h4 : ¬ c = '\x0b' := fun heq => by subst heq; exact absurd h (by decide)
  have h5 : ¬ c = '\x0c' := fun heq => by subst heq; exact absurd h (by decide)
  have h6 : ¬ c = '\r' := fun heq => by subst heq; exact absurd h (by decide)
  refine ⟨by simp [isSpc, h1, h2, h3, h4, h5, h6], ?_, ?_, h3, ?_, h1, ?_, ?_, ?_, ?_⟩
  · intro heq; subst heq; exact absurd h (by decide)
  · intro heq; subst heq; exact absurd h (by decide)
  · intro heq; subst heq; exact absurd h (by decide)
  · intro heq; subst heq; exact absurd h (by decide)
  · intro heq; subst heq; exact absurd h (by decide)
  · intro heq; subst heq; exact absurd h (by decide)
  · intro heq; subst heq; exact absurd h (by decide)

theorem numShape_facts {core : Str} (h : numShape core = true) :
    (∃ d t2, core = d :: t2 ∧ d.isDigit = true) ∧
      (∀ e ∈ core, e = '.' ∨ e.isDigit = true) ∧
      ∃ cl, core.getLast? = some cl ∧ cl.isDigit = true := by
  unfold numShape at h
  cases hsp : splitChar '.' core with
  | nil => exact absurd hsp (splitOnP_ne_nil _ _)
  | cons a rest =>
    rw [hsp] at h
    cases rest with
    | nil =>
      have hh : (!a.isEmpty && a.all Char.isDigit) = true := h
      rw [Bool.and_eq_true, Bool.not_eq_true'] at hh
      have hall := List.all_eq_true.mp hh.2
      have hcore : core = a := by
        have hj := joinl_splitCharG '.' core
        rw [hsp] at hj
        exact hj.symm
      have hane : ∃ d t2, a = d :: t2 := by
        cases a with
        | nil => exact absurd hh.1 (by simp)
        | cons d t2 => exact ⟨d, t2, rfl⟩
      obtain ⟨d, t2, hdt⟩ := hane
      rw [hcore, hdt]
      rw [hdt] at hall
      refine ⟨⟨d, t2, rfl, hall d (List.mem_cons_self _ _)⟩, ?_, ?_⟩
      · intro e he
        exact Or.inr (hall e he)
      · cases hlast : (d :: t2).getLast? with
        | none => simp at hlast
        | some cl =>
          exact ⟨cl, rfl, hall cl (List.mem_of_mem_getLast? (by rw [hlast]; rfl))⟩
    | cons b rest2 =>
      cases rest2 with
      | cons z zs =>
        have hh : (false : Bool) = true := h
        exact Bool.noConfusion hh
      | nil =>
        have hh : (!a.isEmpty && !b.isEmpty && a.all Char.isDigit &&
            b.all Char.isDigit) = true := h
        rw [Bool.and_eq_true, Bool.and_eq_true, Bool.and_eq_true,
          Bool.not_eq_true', Bool.not_eq_true'] at hh
        have halla := List.all_eq_true.mp hh.1.2
        have hallb := List.all_eq_true.mp hh.2
        have hbne : b ≠ [] := by
          intro hc
          rw [hc] at hh
          exact absurd hh.1.1.2 (by simp)
        have hcore : core = a ++ '.' :: b := by
          have hj := joinl_splitCharG '.' core
          rw [hsp] at hj
          rw [← hj]
          show a ++ ['.'] ++ b = a ++ '.' :: b
          rw [List.append_assoc]
          rfl
        have hane : ∃ d t2, a = d :: t2 := by
          cases a with
          | nil => exact absurd hh.1.1.1 (by simp)
          | cons d t2 => exact ⟨d, t2, rfl⟩
        obtain ⟨d, t2, hdt⟩ := hane
        rw [hcore, hdt]
        rw [hdt] at halla
        refine ⟨⟨d, t2 ++ '.' :: b, by rw [List.cons_append],
          halla d (List.mem_cons_self _ _)⟩, ?_, ?_⟩
        · intro e he
          rcases List.mem_append.mp he with h1 | h1
          · exact Or.inr (halla e h1)
          · rcases List.mem_cons.mp h1 with rfl | h2
            · exact Or.inl rfl
            · exact Or.inr (hallb e h2)
        · rw [List.getLast?_append_of_ne_nil (d :: t2) (by simp),
            show ('.' :: b : Str) = ['.'] ++ b from rfl,
            List.getLast?_append_of_ne_nil ['.'] hbne]
          cases hlast : b.getLast? with
          | none => exact absurd (List.getLast?_eq_none_iff.mp hlast) hbne
          | some cl =>
            exact ⟨cl, rfl, hallb cl (List.mem_of_mem_getLast? (by rw [hlast]; rfl))⟩

theorem numLike_facts {s : Str} (h : numLike s = true) :
    ∃ c t, s = c :: t ∧ (c = '-' ∨ c.isDigit = true) ∧
      (c = '-' → ∃ d t2, t = d :: t2 ∧ d.isDigit = true) ∧
      (∀ e ∈ s, e = '-' ∨ e = '.' ∨ e.isDigit = true) ∧
      ∃ cl, s.getLast? = some cl ∧ cl.isDigit = true := by
  unfold numLike at h
  cases s with
  | nil => exact absurd h (by decide)
  | cons c t =>
    by_cases hc : c = '-'
    · subst hc
      have hcore : numCore ('-' :: t) = t := by
        show (if ('-' : Char) = '-' then t else '-' :: t) = t
        rw [if_pos rfl]
      rw [hcore] at h
      obtain ⟨⟨d, t2, ht, hd⟩, hmem, cl, hcl, hcld⟩ := numShape_facts h
      refine ⟨'-', t, rfl, Or.inl rfl, fun hyes => ⟨d, t2, ht, hd⟩, ?_, cl, ?_, hcld⟩
      · intro e he
        rcases List.mem_cons.mp he with rfl | he2
        · exact Or.inl rfl
        · rcases hmem e he2 with h1 | h1
          · exact Or.inr (Or.inl h1)
          · exact Or.inr (Or.inr h1)
      · rw [show ('-' :: t : Str) = ['-'] ++ t from rfl,
          List.getLast?_append_of_ne_nil ['-'] (by rw [ht]; simp)]
        exact hcl
    · have hcore : numCore (c :: t) = c :: t := by
        show (if c = '-' then t else c :: t) = c :: t
        rw [if_neg hc]
      rw [hcore] at h
      obtain ⟨⟨d, t2, ht, hd⟩, hmem, cl, hcl, hcld⟩ := numShape_facts h
      injection ht with ht1 ht2
      refine ⟨c, t, rfl, Or.inr (by rw [ht1]; exact hd), fun hyes => absurd hyes hc,
        ?_, cl, hcl, hcld⟩
      intro e he
      rcases hmem e he with h1 | h1
      · exact Or.inr (Or.inl h1)
      · exact Or.inr (Or.inr h1)

theorem txtGood_null : TxtGood (strOf "null") := by
  refine ⟨⟨by decide, ?_, by decide, ?_⟩, by decide⟩
  · intro c r hh
    injection (show ('n' :: strOf "ull") = c :: r from hh) with h1 h2
    exact h1 ▸ (by decide)
  · intro cl hcl
    injection (show some 'l' = some cl from hcl) with h1
    exact h1 ▸ (by decide)

theorem txtGood_boolText (b : Bool) : TxtGood (boolText b) := by
  cases b with
  | true =>
    refine ⟨⟨by decide, ?_, by decide, ?_⟩, by decide⟩
    · intro c r hh
      injection (show ('t' :: strOf "rue") = c :: r from hh) with h1 h2
      exact h1 ▸ (by decide)
    · intro cl hcl
      injection (show some 'e' = some cl from hcl) with h1
      exact h1 ▸ (by decide)
  | false =>
    refine ⟨⟨by decide, ?_, by decide, ?_⟩, by decide⟩
    · intro c r hh
      injection (show ('f' :: strOf "alse") = c :: r from hh) with h1 h2
      exact h1 ▸ (by decide)
    · intro cl hcl
      injection (show some 'e' = some cl from hcl) with h1
      exact h1 ▸ (by decide)

theorem num_txtGood {s : Str} (h : numLike s = true) : TxtGood s := by
  obtain ⟨c, t, heq, hhead, -, hmem, cl, hcl, hcld⟩ := numLike_facts h
  subst heq
  refine ⟨⟨by simp, ?_, ?_, ?_⟩, ?_⟩
  · intro c' r' he
    injection he with h1 h2
    refine h1 ▸ ?_
    rcases hhead with rfl | hd
    · exact ⟨by decide, by decide⟩
    · obtain ⟨hsp, hsh, -⟩ := isDigit_facts hd
      exact ⟨hsp, hsh⟩
  · intro e he
    rcases hmem e he with rfl | rfl | hd
    · decide
    · decide
    · exact (isDigit_facts hd).2.2.2.1
  · intro cl' hcl'
    rw [hcl] at hcl'
    injection hcl' with h1
    exact h1 ▸ (isDigit_facts hcld).1
  · intro hc
    exact absurd (hc ▸ h) (by decide)

theorem itemTxt_none_of_head {t : Str} (h : ∀ c r, t = c :: r → c ≠ '-') :
    itemTxt t = none := by
  cases t with
  | nil => rfl
  | cons c r =>
    unfold itemTxt
    show (if c = '-' then
        (match r with
          | [] => some []
          | c2 :: t2 => if c2 = ' ' then some t2 else none) else none) = none
    rw [if_neg (h c r rfl)]

theorem itemTxt_dash_space (X : Str) : itemTxt ('-' :: ' ' :: X) = some X := by
  unfold itemTxt
  show (if ('-' : Char) = '-' then
      (match (' ' :: X : Str) with
        | [] => some []
        | c2 :: t2 => if c2 = ' ' then some t2 else none) else none) = some X
  rw [if_pos rfl]
  show (if (' ' : Char) = ' ' then some X else none) = some X
  rw [if_pos rfl]

theorem keyhead_not_dash {k : Str} (hk : keyOK k = true) (Y : Str) :
    itemTxt (k ++ Y) = none := by
  obtain ⟨c, t, rfl, hbad, -, -, -⟩ := keyOK_facts hk
  refine itemTxt_none_of_head ?_
  intro c' r' he
  rw [List.cons_append] at he
  injection he with h1 h2
  rw [← h1]
  exact (badHead_false_facts hbad).2.1

theorem null_val_lemmas :
    parseValText (strOf "null") = some Val.nul ∧ parseKeyRest (strOf "null") = none ∧
      itemTxt (strOf "null") = none := by
  exact ⟨rfl, rfl, rfl⟩

theorem bool_val_lemmas (b : Bool) :
    parseValText (boolText b) = some (Val.bool b) ∧ parseKeyRest (boolText b) = none ∧
      itemTxt (boolText b) = none := by
  cases b with
  | true => exact ⟨rfl, rfl, rfl⟩
  | false => exact ⟨rfl, rfl, rfl⟩

theorem num_val_lemmas {s : Str} (h : numLike s = true) :
    parseValText s = some (Val.num s) ∧ parseKeyRest s = none ∧ itemTxt s = none := by
  obtain ⟨c, t, heq, hhead, hneg, hmem, -⟩ := numLike_facts h
  subst heq
  have hno_colon : (c :: t).contains ':' = false := by
    refine contains_eq_false_iff.mpr ?_
    intro e he
    rcases hmem e he with rfl | rfl | hd
    · decide
    · decide
    · exact (isDigit_facts hd).2.2.2.2.1
  have hne : ∀ x : Char, (c = '-' ∨ c.isDigit = true) → c ≠ '\'' ∧ c ≠ '"' ∧
      c ≠ '{' ∧ c ≠ '[' := by
    intro x hh
    rcases hh with rfl | hd
    · exact ⟨by decide, by decide, by decide, by decide⟩
    · obtain ⟨-, -, -, -, -, -, q1, q2, q3, q4⟩ := isDigit_facts hd
      exact ⟨q1, q2, q3, q4⟩
  obtain ⟨hq1, hq2, hq3, hq4⟩ := hne ' ' hhead
  have hclassify : classifyPlain (c :: t) = Val.num (c :: t) := by
    unfold classifyPlain
    rw [if_neg (fun hc => absurd (hc ▸ h) (by decide)),
      if_neg (fun hc => absurd (hc ▸ h) (by decide)),
      if_neg (fun hc => absurd (hc ▸ h) (by decide)), if_pos h]
  refine ⟨?_, parseKeyRest_no_colon hno_colon, ?_⟩
  · rw [parseValText_plain t hq1 hq2 hq3 hq4, hclassify]
  · rcases hhead with rfl | hd
    · obtain ⟨d, t2, rfl, hdd⟩ := hneg rfl
      unfold itemTxt
      show (if ('-' : Char) = '-' then
          (match (d :: t2 : Str) with
            | [] => some []
            | c2 :: t3 => if c2 = ' ' then some t3 else none) else none) = none
      rw [if_pos rfl]
      show (if d = ' ' then some t2 else none) = none
      rw [if_neg (isDigit_facts hdd).2.2.2.2.2.1]
    · exact itemTxt_none_of_head fun c' r' he => by
        injection he with h1 h2
        rw [← h1]
        exact (isDigit_facts hd).2.2.1

theorem itemTxt_emit (s : Str) : itemTxt (emitScalar s) = none := by
  unfold emitScalar
  by_cases hp : plainOK s
  · rw [if_pos hp]
    obtain ⟨c, t, rfl, hbad, -, -, -⟩ := plainOK_facts hp
    refine itemTxt_none_of_head ?_
    intro c' r' he
    injection he with h1 h2
    rw [← h1]
    exact (badHead_false_facts hbad).2.1
  · rw [if_neg hp]
    unfold quoteS
    refine itemTxt_none_of_head ?_
    intro c' r' he
    injection he with h1 h2
    rw [← h1]
    decide

theorem classifyPlain_good {s : Str} (h : s.contains '\n' = false) :
    goodVal (classifyPlain s) = true := by
  unfold classifyPlain
  by_cases h1 : s = strOf "null"
  · rw [if_pos h1]
    rfl
  · rw [if_neg h1]
    by_cases h2 : s = strOf "true"
    · rw [if_pos h2]
      rfl
    · rw [if_neg h2]
      by_cases h3 : s = strOf "false"
      · rw [if_pos h3]
        rfl
      · rw [if_neg h3]
        by_cases h4 : numLike s
        · rw [if_pos h4]
          exact h4
        · rw [if_neg h4]
          show (!s.contains '\n') = true
          rw [h]
          rfl

theorem plainOK_no_colon {s : Str} (hp : plainOK s = true) : s.contains ':' = false := by
  obtain ⟨c, t, heq, hbad, hcol, hnl, cl, hcl, hcls⟩ := plainOK_facts hp
  exact hcol

theorem scalarTxt_none {v : Val} (h : scalarTxt v = none) :
    (∃ items, v = .seq items) ∨ ∃ es, v = .vmap es := by
  cases v with
  | nul => exact Option.noConfusion h
  | bool b => exact Option.noConfusion h
  | num s => exact Option.noConfusion h
  | str s => exact Option.noConfusion h
  | seq items => exact Or.inl ⟨items, rfl⟩
  | vmap es => exact Or.inr ⟨es, rfl⟩

theorem scalarTxt_facts {v : Val} {X : Str} (h : scalarTxt v = some X)
    (hg : goodVal v = true) :
    LineBase X ∧ X ≠ [] ∧ parseValText X = some v ∧ parseKeyRest X = none ∧
      itemTxt X = none := by
  cases v with
  | nul =>
    injection h with h1
    rw [← h1]
    exact ⟨txtGood_null.1, by decide, null_val_lemmas.1, null_val_lemmas.2.1,
      null_val_lemmas.2.2⟩
  | bool b =>
    injection h with h1
    rw [← h1]
    exact ⟨(txtGood_boolText b).1, by cases b <;> decide, (bool_val_lemmas b).1,
      (bool_val_lemmas b).2.1, (bool_val_lemmas b).2.2⟩
  | num s =>
    injection h with h1
    rw [← h1]
    have hnum : numLike s = true := hg
    obtain ⟨c, t, heq, -⟩ := numLike_facts hnum
    exact ⟨(num_txtGood hnum).1, by rw [heq]; simp, (num_val_lemmas hnum).1,
      (num_val_lemmas hnum).2.1, (num_val_lemmas hnum).2.2⟩
  | str s =>
    injection h with h1
    rw [← h1]
    have hnl : s.contains '\n' = false := by
      have hv := hg
      simp only [goodVal, Bool.not_eq_true'] at hv
      exact hv
    exact ⟨(emitScalar_txtGood hnl).1, emitScalar_ne_nil s, parseValText_emit hnl,
      parseKeyRest_emit s fun hp => plainOK_no_colon hp, itemTxt_emit s⟩
  | seq items => exact Option.noConfusion h
  | vmap es => exact Option.noConfusion h

theorem encVal_scalarTxt {v : Val} {X : Str} (h : scalarTxt v = some X) (i : Nat)
    (k : Str) : encVal i k v = [⟨i, k ++ strOf ": " ++ X⟩] := by
  cases v with
  | nul => injection h with h1; rw [← h1]; rfl
  | bool b => injection h with h1; rw [← h1]; rfl
  | num s => injection h with h1; rw [← h1]; rfl
  | str s => injection h with h1; rw [← h1]; rfl
  | seq items => exact Option.noConfusion h
  | vmap es => exact Option.noConfusion h

theorem encItem_scalarTxt {v : Val} {X : Str} (h : scalarTxt v = some X) (i : Nat) :
    encItem i v = [⟨i, strOf "- " ++ X⟩] := by
  cases v with
  | nul => injection h with h1; rw [← h1]; rfl
  | bool b => injection h with h1; rw [← h1]; rfl
  | num s => injection h with h1; rw [← h1]; rfl
  | str s => injection h with h1; rw [← h1]; rfl
  | seq items => exact Option.noConfusion h
  | vmap es => exact Option.noConfusion h

theorem keyline_txtGood {k v : Str} (hk : keyOK k = true) (hv : LineBase v) :
    TxtGood (k ++ ':' :: ' ' :: v) := by
  obtain ⟨c, t, rfl, hbad, hcolon, hknl, cl, hcl, hcls⟩ := keyOK_facts hk
  obtain ⟨h1, h2, h3, h4, h5, hbr, h6⟩ := badHead_false_facts hbad
  obtain ⟨hvne, -, hvnl, hvl⟩ := hv
  refine ⟨⟨by simp, ?_, ?_, ?_⟩, ?_⟩
  · intro c' r' he
    rw [List.cons_append] at he
    injection he with he1 he2
    exact he1 ▸ ⟨h6, h1⟩
  · intro e he
    rcases List.mem_append.mp he with hek | her
    · exact contains_eq_false_iff.mp hknl e hek
    · rcases List.mem_cons.mp her with rfl | her2
      · decide
      · rcases List.mem_cons.mp her2 with rfl | her3
        · decide
        · exact hvnl e her3
  · intro cl' hcl'
    rw [List.getLast?_append_of_ne_nil (c :: t) (by simp),
      show (':' :: ' ' :: v) = [':', ' '] ++ v from rfl,
      List.getLast?_append_of_ne_nil [':', ' '] hvne] at hcl'
    exact hvl cl' hcl'
  · intro heq
    have hh := congrArg List.head? heq
    rw [List.cons_append] at hh
    rw [show (strOf "---").head? = some '-' from rfl] at hh
    simp at hh
    exact h2 hh

theorem bareline_txtGood {k : Str} (hk : keyOK k = true) : TxtGood (k ++ [':']) := by
  obtain ⟨c, t, rfl, hbad, hcolon, hknl, cl, hcl, hcls⟩ := keyOK_facts hk
  obtain ⟨h1, h2, -, -, -, -, h6⟩ := badHead_false_facts hbad
  refine ⟨⟨by simp, ?_, ?_, ?_⟩, ?_⟩
  · intro c' r' he
    rw [List.cons_append] at he
    injection he with he1 he2
    exact he1 ▸ ⟨h6, h1⟩
  · intro e he
    rcases List.mem_append.mp he with hek | her
    · exact contains_eq_false_iff.mp hknl e hek
    · rcases List.mem_singleton.mp her with rfl
      decide
  · intro cl' hcl'
    rw [List.getLast?_append_of_ne_nil (c :: t) (by simp)] at hcl'
    injection hcl' with hcleq
    exact hcleq ▸ (by decide : isSpc ':' = false)
  · intro heq
    have hh := congrArg List.head? heq
    rw [List.cons_append] at hh
    rw [show (strOf "---").head? = some '-' from rfl] at hh
    simp at hh
    exact h2 hh

theorem dashline_txtGood {v : Str} (hv : LineBase v) : TxtGood ('-' :: ' ' :: v) := by
  obtain ⟨hvne, -, hvnl, hvl⟩ := hv
  refine ⟨⟨by simp, ?_, ?_, ?_⟩, ?_⟩
  · intro c' r' he
    injection he with he1 he2
    exact he1 ▸ ⟨by decide, by decide⟩
  · intro e he
    rcases List.mem_cons.mp he with rfl | he2
    · decide
    · rcases List.mem_cons.mp he2 with rfl | he3
      · decide
      · exact hvnl e he3
  · intro cl' hcl'
    rw [show ('-' :: ' ' :: v) = ['-', ' '] ++ v from rfl,
      List.getLast?_append_of_ne_nil ['-', ' '] hvne] at hcl'
    exact hvl cl' hcl'
  · intro heq
    rw [show strOf "---" = '-' :: '-' :: ['-'] from rfl] at heq
    injection heq with h1 h2
    injection h2 with h3 h4
    exact absurd h3 (by decide)

theorem dashbare_txtGood : TxtGood (['-'] : Str) := by
  refine ⟨⟨by simp, ?_, ?_, ?_⟩, ?_⟩
  · intro c' r' he
    injection he with he1 he2
    exact he1 ▸ ⟨by decide, by decide⟩
  · intro e he
    rcases List.mem_singleton.mp he with rfl
    decide
  · intro cl' hcl'
    rw [show (['-'] : Str).getLast? = some '-' from rfl] at hcl'
    injection hcl' with h1
    exact h1 ▸ (by decide : isSpc '-' = false)
  · intro heq
    rw [show strOf "---" = '-' :: '-' :: ['-'] from rfl] at heq
    injection heq with h1 h2
    exact List.noConfusion h2

theorem lineBase_head {t : Str} (hb : LineBase t) :
    ∀ c, t.head? = some c → isSpc c = false := by
  intro c hc
  cases ht : t with
  | nil => rw [ht] at hc; exact Option.noConfusion hc
  | cons c0 t0 =>
    rw [ht, List.head?_cons] at hc
    injection hc with hc0
    exact hc0 ▸ (hb.2.1 c0 t0 ht).1

theorem enc_facts : ∀ n : Nat,
    (∀ (es : List (Str × Val)) (i : Nat), sizeOf es ≤ n → goodEntries es = true →
      ∀ l ∈ encEntries i es, TxtGood l.txt ∧ i ≤ l.ind) ∧
    (∀ (items : List Val) (i : Nat), sizeOf items ≤ n → goodItems items = true →
      ∀ l ∈ encItems i items, TxtGood l.txt ∧ i ≤ l.ind) := by
  intro n
  induction n with
  | zero =>
    constructor
    · intro es i hsz hg l hl
      cases es with
      | nil => cases hl
      | cons e rest =>
        exfalso
        simp only [List.cons.sizeOf_spec] at hsz
        omega
    · intro items i hsz hg l hl
      cases items with
      | nil => cases hl
      | cons v rest =>
        exfalso
        simp only [List.cons.sizeOf_spec] at hsz
        omega
  | succ n ih =>
    constructor
    · intro es i hsz hg l hl
      cases es with
      | nil => cases hl
      | cons e rest =>
        obtain ⟨k, v⟩ := e
        simp only [goodEntries, Bool.and_eq_true] at hg
        simp only [encEntries] at hl
        rcases List.mem_append.mp hl with hv1 | hr1
        · cases hsc : scalarTxt v with
          | some X =>
            rw [encVal_scalarTxt hsc] at hv1
            rcases List.mem_singleton.mp hv1 with rfl
            refine ⟨?_, le_refl i⟩
            show TxtGood (k ++ strOf ": " ++ X)
            have hw : k ++ strOf ": " ++ X = k ++ ':' :: ' ' :: X := by
              rw [List.append_assoc]
              rfl
            rw [hw]
            exact keyline_txtGood hg.1.1 (scalarTxt_facts hsc hg.1.2).1
          | none =>
            rcases scalarTxt_none hsc with ⟨items2, rfl⟩ | ⟨es2, rfl⟩
            · have hv' := hg.1.2
              simp only [goodVal, Bool.and_eq_true] at hv'
              simp only [encVal] at hv1
              rcases List.mem_cons.mp hv1 with rfl | hv2
              · exact ⟨bareline_txtGood hg.1.1, le_refl i⟩
              · have hszr : sizeOf items2 ≤ n := by
                  simp only [List.cons.sizeOf_spec, Prod.mk.sizeOf_spec,
                    Val.seq.sizeOf_spec] at hsz
                  omega
                obtain ⟨hT, hind⟩ := ih.2 items2 (i + 2) hszr hv'.2 l hv2
                exact ⟨hT, by omega⟩
            · have hv' := hg.1.2
              simp only [goodVal, Bool.and_eq_true] at hv'
              simp only [encVal] at hv1
              rcases List.mem_cons.mp hv1 with rfl | hv2
              · exact ⟨bareline_txtGood hg.1.1, le_refl i⟩
              · have hszr : sizeOf es2 ≤ n := by
                  simp only [List.cons.sizeOf_spec, Prod.mk.sizeOf_spec,
                    Val.vmap.sizeOf_spec] at hsz
                  omega
                obtain ⟨hT, hind⟩ := ih.1 es2 (i + 2) hszr hv'.2 l hv2
                exact ⟨hT, by omega⟩
        · have hszr : sizeOf rest ≤ n := by
            simp only [List.cons.sizeOf_spec] at hsz
            omega
          exact ih.1 rest i hszr hg.2 l hr1
    · intro items i hsz hg l hl
      cases items with
      | nil => cases hl
      | cons v rest =>
        simp only [goodItems, Bool.and_eq_true] at hg
        simp only [encItems] at hl
        rcases List.mem_append.mp hl with hv1 | hr1
        · cases hsc : scalarTxt v with
          | some X =>
            rw [encItem_scalarTxt hsc] at hv1
            rcases List.mem_singleton.mp hv1 with rfl
            refine ⟨?_, le_refl i⟩
            show TxtGood (strOf "- " ++ X)
            rw [show strOf "- " ++ X = '-' :: ' ' :: X from rfl]
            exact dashline_txtGood (scalarTxt_facts hsc hg.1).1
          | none =>
            rcases scalarTxt_none hsc with ⟨items2, rfl⟩ | ⟨es2, rfl⟩
            · have hv' := hg.1
              simp only [goodVal, Bool.and_eq_true] at hv'
              simp only [encItem] at hv1
              rcases List.mem_cons.mp hv1 with rfl | hv2
              · exact ⟨dashbare_txtGood, le_refl i⟩
              · have hszr : sizeOf items2 ≤ n := by
                  simp only [List.cons.sizeOf_spec, Val.seq.sizeOf_spec] at hsz
                  omega
                obtain ⟨hT, hind⟩ := ih.2 items2 (i + 2) hszr hv'.2 l hv2
                exact ⟨hT, by omega⟩
            · have hv' := hg.1
              simp only [goodVal, Bool.and_eq_true] at hv'
              simp only [encItem] at hv1
              rcases List.mem_cons.mp hv1 with rfl | hv2
              · exact ⟨dashbare_txtGood, le_refl i⟩
              · have hszr : sizeOf es2 ≤ n := by
                  simp only [List.cons.sizeOf_spec, Val.vmap.sizeOf_spec] at hsz
                  omega
                obtain ⟨hT, hind⟩ := ih.1 es2 (i + 2) hszr hv'.2 l hv2
                exact ⟨hT, by omega⟩
        · have hszr : sizeOf rest ≤ n := by
            simp only [List.cons.sizeOf_spec] at hsz
            omega
          exact ih.2 rest i hszr hg.2 l hr1

theorem encEntries_facts : ∀ (n : Nat) (es : List (Str × Val)) (i : Nat), sizeOf es ≤ n →
    goodEntries es = true → ∀ l ∈ encEntries i es, TxtGood l.txt ∧ i ≤ l.ind :=
  fun n => (enc_facts n).1

theorem encItems_facts : ∀ (n : Nat) (items : List Val) (i : Nat), sizeOf items ≤ n →
    goodItems items = true → ∀ l ∈ encItems i items, TxtGood l.txt ∧ i ≤ l.ind :=
  fun n => (enc_facts n).2

theorem encEntries_cons_head (i : Nat) (k : Str) (v : Val) (rest : List (Str × Val)) :
    ∃ t r, encEntries i ((k, v) :: rest) = ⟨i, t⟩ :: r := by
  cases v with
  | nul => exact ⟨k ++ strOf ": " ++ strOf "null", encEntries i rest, rfl⟩
  | bool b => exact ⟨k ++ strOf ": " ++ boolText b, encEntries i rest, rfl⟩
  | num s => exact ⟨k ++ strOf ": " ++ s, encEntries i rest, rfl⟩
  | str s => exact ⟨k ++ strOf ": " ++ emitScalar s, encEntries i rest, rfl⟩
  | seq items => exact ⟨k ++ [':'], encItems (i + 2) items ++ encEntries i rest, rfl⟩
  | vmap es2 => exact ⟨k ++ [':'], encEntries (i + 2) es2 ++ encEntries i rest, rfl⟩

theorem encItems_cons_head (i : Nat) (v : Val) (rest : List Val) :
    ∃ t r, encItems i (v :: rest) = ⟨i, t⟩ :: r := by
  cases v with
  | nul => exact ⟨strOf "- " ++ strOf "null", encItems i rest, rfl⟩
  | bool b => exact ⟨strOf "- " ++ boolText b, encItems i rest, rfl⟩
  | num s => exact ⟨strOf "- " ++ s, encItems i rest, rfl⟩
  | str s => exact ⟨strOf "- " ++ emitScalar s, encItems i rest, rfl⟩
  | seq items => exact ⟨['-'], encItems (i + 2) items ++ encItems i rest, rfl⟩
  | vmap es2 => exact ⟨['-'], encEntries (i + 2) es2 ++ encItems i rest, rfl⟩

theorem encEntries_cons_head2 {k : Str} (hk : keyOK k = true) (i : Nat) (v : Val)
    (rest : List (Str × Val)) :
    ∃ t r, encEntries i ((k, v) :: rest) = ⟨i, t⟩ :: r ∧ itemTxt t = none := by
  cases v with
  | nul =>
    refine ⟨k ++ strOf ": " ++ strOf "null", encEntries i rest, rfl, ?_⟩
    rw [List.append_assoc]
    exact keyhead_not_dash hk _
  | bool b =>
    refine ⟨k ++ strOf ": " ++ boolText b, encEntries i rest, rfl, ?_⟩
    rw [List.append_assoc]
    exact keyhead_not_dash hk _
  | num s =>
    refine ⟨k ++ strOf ": " ++ s, encEntries i rest, rfl, ?_⟩
    rw [List.append_assoc]
    exact keyhead_not_dash hk _
  | str s =>
    refine ⟨k ++ strOf ": " ++ emitScalar s, encEntries i rest, rfl, ?_⟩
    rw [List.append_assoc]
    exact keyhead_not_dash hk _
  | seq items =>
    exact ⟨k ++ [':'], encItems (i + 2) items ++ encEntries i rest, rfl,
      keyhead_not_dash hk _⟩
  | vmap es2 =>
    exact ⟨k ++ [':'], encEntries (i + 2) es2 ++ encEntries i rest, rfl,
      keyhead_not_dash hk _⟩

theorem encItems_cons_head2 (i : Nat) (v : Val) (rest : List Val) :
    ∃ t r, encItems i (v :: rest) = ⟨i, t⟩ :: r ∧ (itemTxt t).isSome = true := by
  cases v with
  | nul =>
    refine ⟨strOf "- " ++ strOf "null", encItems i rest, rfl, ?_⟩
    rw [show strOf "- " ++ strOf "null" = '-' :: ' ' :: strOf "null" from rfl,
      itemTxt_dash_space]
    rfl
  | bool b =>
    refine ⟨strOf "- " ++ boolText b, encItems i rest, rfl, ?_⟩
    rw [show strOf "- " ++ boolText b = '-' :: ' ' :: boolText b from rfl,
      itemTxt_dash_space]
    rfl
  | num s =>
    refine ⟨strOf "- " ++ s, encItems i rest, rfl, ?_⟩
    rw [show strOf "- " ++ s = '-' :: ' ' :: s from rfl, itemTxt_dash_space]
    rfl
  | str s =>
    refine ⟨strOf "- " ++ emitScalar s, encItems i rest, rfl, ?_⟩
    rw [show strOf "- " ++ emitScalar s = '-' :: ' ' :: emitScalar s from rfl,
      itemTxt_dash_space]
    rfl
  | seq items => exact ⟨['-'], encItems (i + 2) items ++ encItems i rest, rfl, rfl⟩
  | vmap es2 => exact ⟨['-'], encEntries (i + 2) es2 ++ encItems i rest, rfl, rfl⟩

theorem encEntries_ne_nil (i : Nat) (k : Str) (v : Val) (rest : List (Str × Val)) :
    encEntries i ((k, v) :: rest) ≠ [] := by
  obtain ⟨t, r, h⟩ := encEntries_cons_head i k v rest
  rw [h]
  simp

theorem encItems_ne_nil (i : Nat) (v : Val) (rest : List Val) :
    encItems i (v :: rest) ≠ [] := by
  obtain ⟨t, r, h⟩ := encItems_cons_head i v rest
  rw [h]
  simp

/-! List scanning helpers. -/

theorem takeWhile_append_all {α : Type} (p : α → Bool) {a : List α} (b : List α)
    (h : ∀ x ∈ a, p x = true) : (a ++ b).takeWhile p = a ++ b.takeWhile p := by
  induction a with
  | nil => rfl
  | cons x xs ih =>
    rw [List.cons_append, List.takeWhile_cons, if_pos (h x (List.mem_cons_self _ _)),
      ih fun y hy => h y (List.mem_cons_of_mem _ hy), List.cons_append]

theorem dropWhile_append_all {α : Type} (p : α → Bool) {a : List α} (b : List α)
    (h : ∀ x ∈ a, p x = true) : (a ++ b).dropWhile p = b.dropWhile p := by
  induction a with
  | nil => rfl
  | cons x xs ih =>
    rw [List.cons_append, List.dropWhile_cons, if_pos (h x (List.mem_cons_self _ _)),
      ih fun y hy => h y (List.mem_cons_of_mem _ hy)]

theorem takeWhile_head_stop {α : Type} (p : α → Bool) {b : List α}
    (h : ∀ x, b.head? = some x → p x = false) : b.takeWhile p = [] ∧ b.dropWhile p = b := by
  cases b with
  | nil => exact ⟨rfl, rfl⟩
  | cons x xs =>
    refine ⟨?_, ?_⟩
    · rw [List.takeWhile_cons, if_neg (by simp [h x rfl])]
    · rw [List.dropWhile_cons, if_neg (by simp [h x rfl])]

/-! Round trip of the block-mapping encoder through the block-mapping
reader. -/

theorem emitScalar_head {s : Str} (hs : s.contains '\n' = false) :
    ∀ c, (emitScalar s).head? = some c → isSpc c = false := by
  obtain ⟨⟨hvne, hvh, -, -⟩, -⟩ := emitScalar_txtGood hs
  intro c hc
  cases hes : emitScalar s with
  | nil => exact absurd hes hvne
  | cons c0 r0 =>
    rw [hes, List.head?_cons] at hc
    injection hc with hc0
    exact hc0 ▸ (hvh c0 r0 hes).1

theorem parseEntries_succ (fuel i : Nat) (ls : List YLine) :
    parseEntries (fuel + 1) i ls =
      match ls with
      | [] => some ([], [])
      | l :: rest =>
        if l.ind < i then some ([], l :: rest)
        else if i < l.ind then none
        else
          match parseKeyRest l.txt with
          | none => none
          | some (k, valTxt) =>
            if valTxt = [] then
              let sub := rest.takeWhile fun l2 => i < l2.ind
              let rem := rest.dropWhile fun l2 => i < l2.ind
              match sub with
              | [] => none
              | l2 :: _ =>
                if (itemTxt l2.txt).isSome then
                  match parseItems fuel l2.ind sub with
                  | some (items, []) =>
                    if items.isEmpty then none
                    else
                      match parseEntries fuel i rem with
                      | some (es2, r) => some ((k, .seq items) :: es2, r)
                      | none => none
                  | _ => none
                else
                  match parseEntries fuel l2.ind sub with
                  | some (es, []) =>
                    if es.isEmpty then none
                    else
                      match parseEntries fuel i rem with
                      | some (es2, r) => some ((k, .vmap es) :: es2, r)
                      | none => none
                  | _ => none
            else
              match parseValText valTxt with
              | none => none
              | some v =>
                match parseEntries fuel i rest with
                | some (es2, r) => some ((k, v) :: es2, r)
                | none => none := rfl

theorem parseItems_succ (fuel i : Nat) (ls : List YLine) :
    parseItems (fuel + 1) i ls =
      match ls with
      | [] => some ([], [])
      | l :: rest =>
        if l.ind < i then some ([], l :: rest)
        else if i < l.ind then none
        else
          match itemTxt l.txt with
          | none => none
          | some t =>
            if t = [] then
              let sub := rest.takeWhile fun l2 => i < l2.ind
              let rem := rest.dropWhile fun l2 => i < l2.ind
              match sub with
              | [] => none
              | l2 :: _ =>
                if (itemTxt l2.txt).isSome then
                  match parseItems fuel l2.ind sub with
                  | some (items, []) =>
                    if items.isEmpty then none
                    else
                      match parseItems fuel i rem with
                      | some (items3, r) => some (.seq items :: items3, r)
                      | none => none
                  | _ => none
                else
                  match parseEntries fuel l2.ind sub with
                  | some (es, []) =>
                    if es.isEmpty then none
                    else
                      match parseItems fuel i rem with
                      | some (items3, r) => some (.vmap es :: items3, r)
                      | none => none
                  | _ => none
            else
              if (parseKeyRest t).isSome then none
              else
                match parseValText t with
                | none => none
                | some v =>
                  match parseItems fuel i rest with
                  | some (items3, r) => some (v :: items3, r)
                  | none => none := rfl

theorem parse_rt : ∀ (fuel : Nat),
    (∀ (i : Nat) (es : List (Str × Val)) (tail : List YLine),
      goodEntries es = true →
      (∀ l, tail.head? = some l → l.ind < i) →
      (encEntries i es ++ tail).length < fuel →
      parseEntries fuel i (encEntries i es ++ tail) = some (es, tail)) ∧
    (∀ (i : Nat) (items : List Val) (tail : List YLine),
      goodItems items = true →
      (∀ l, tail.head? = some l → l.ind < i) →
      (encItems i items ++ tail).length < fuel →
      parseItems fuel i (encItems i items ++ tail) = some (items, tail)) := by
  intro fuel
  induction fuel with
  | zero =>
    exact ⟨fun i es tail hg ht hlen => absurd hlen (Nat.not_lt_zero _),
      fun i items tail hg ht hlen => absurd hlen (Nat.not_lt_zero _)⟩
  | succ fuel ih =>
    constructor
    · intro i es tail hg ht hlen
      cases es with
      | nil =>
        rw [show encEntries i ([] : List (Str × Val)) ++ tail = tail from by
          rw [encEntries]; rfl]
        cases tail with
        | nil => rfl
        | cons l rest =>
          have hlt := ht l rfl
          rw [parseEntries_succ]
          simp only [if_pos hlt]
      | cons e rest =>
        obtain ⟨k, v⟩ := e
        simp only [goodEntries, Bool.and_eq_true] at hg
        cases hsc : scalarTxt v with
        | some X =>
          obtain ⟨hXb, hXne, hXpv, hXkr, hXit⟩ := scalarTxt_facts hsc hg.1.2
          have hlist : encEntries i ((k, v) :: rest) ++ tail =
              ⟨i, k ++ strOf ": " ++ X⟩ :: (encEntries i rest ++ tail) := by
            rw [show encEntries i ((k, v) :: rest) = encVal i k v ++ encEntries i rest
              from rfl, encVal_scalarTxt hsc, List.append_assoc]
            rfl
          have hkr : parseKeyRest (k ++ strOf ": " ++ X) = some (k, X) := by
            rw [show k ++ strOf ": " ++ X = k ++ ':' :: ' ' :: X from by
              rw [List.append_assoc]; rfl]
            exact parseKeyRest_keyline hg.1.1 hXne (lineBase_head hXb) hXb.2.2.2
          have hihrest : parseEntries fuel i (encEntries i rest ++ tail) =
              some (rest, tail) := by
            refine ih.1 i rest tail hg.2 ht ?_
            rw [hlist] at hlen
            simp only [List.length_cons] at hlen
            omega
          rw [hlist, parseEntries_succ]
          simp only [if_neg (lt_irrefl i), hkr, if_neg hXne, hXpv, hihrest]
        | none =>
          rcases scalarTxt_none hsc with ⟨items2, rfl⟩ | ⟨es2, rfl⟩
          · have hv' := hg.1.2
            simp only [goodVal, Bool.and_eq_true, Bool.not_eq_true'] at hv'
            cases items2 with
            | nil => simp at hv'
            | cons v2 r2 =>
              have hgI : goodItems (v2 :: r2) = true := hv'.2
              have hlist : encEntries i ((k, Val.seq (v2 :: r2)) :: rest) ++ tail =
                  ⟨i, k ++ [':']⟩ ::
                    (encItems (i + 2) (v2 :: r2) ++ (encEntries i rest ++ tail)) := by
                simp [encEntries, encVal]
              have hfacts := encItems_facts (sizeOf (v2 :: r2)) (v2 :: r2)
                (i + 2) (le_refl _) hgI
              have hall : ∀ x ∈ encItems (i + 2) (v2 :: r2),
                  (fun l2 => decide (i < l2.ind)) x = true := by
                intro x hx
                exact decide_eq_true (by have := (hfacts x hx).2; omega)
              have hstop : ∀ x, (encEntries i rest ++ tail).head? = some x →
                  (fun l2 => decide (i < l2.ind)) x = false := by
                intro x hx
                cases rest with
                | nil =>
                  rw [show encEntries i ([] : List (Str × Val)) ++ tail = tail from by
                    rw [encEntries]; rfl] at hx
                  exact decide_eq_false (by have := ht x hx; omega)
                | cons e3 r3 =>
                  obtain ⟨e3k, e3v⟩ := e3
                  obtain ⟨t0, r0, h0⟩ := encEntries_cons_head i e3k e3v r3
                  rw [h0, List.cons_append, List.head?_cons] at hx
                  injection hx with hx0
                  rw [← hx0]
                  exact decide_eq_false (lt_irrefl i)
              have hsub : (encItems (i + 2) (v2 :: r2) ++
                    (encEntries i rest ++ tail)).takeWhile (fun l2 => decide (i < l2.ind)) =
                  encItems (i + 2) (v2 :: r2) := by
                rw [takeWhile_append_all _ _ hall, (takeWhile_head_stop _ hstop).1,
                  List.append_nil]
              have hrem : (encItems (i + 2) (v2 :: r2) ++
                    (encEntries i rest ++ tail)).dropWhile (fun l2 => decide (i < l2.ind)) =
                  encEntries i rest ++ tail := by
                rw [dropWhile_append_all _ _ hall, (takeWhile_head_stop _ hstop).2]
              obtain ⟨t2, r2', h2, hit2⟩ := encItems_cons_head2 (i + 2) v2 r2
              have hlen' : (encItems (i + 2) (v2 :: r2)).length +
                  ((encEntries i rest).length + tail.length) < fuel := by
                rw [hlist] at hlen
                simp only [List.length_cons, List.length_append] at hlen
                omega
              have hihsub : parseItems fuel (i + 2) (encItems (i + 2) (v2 :: r2)) =
                  some (v2 :: r2, []) := by
                have h3 := ih.2 (i + 2) (v2 :: r2) [] hgI
                  (by intro l hl; exact absurd hl (by simp))
                  (by rw [List.append_nil]; omega)
                rw [List.append_nil] at h3
                exact h3
              have hihrest : parseEntries fuel i (encEntries i rest ++ tail) =
                  some (rest, tail) := by
                refine ih.1 i rest tail hg.2 ht ?_
                simp only [List.length_append] at hlen' ⊢
                omega
              rw [h2] at hihsub
              rw [hlist, parseEntries_succ]
              simp only [if_neg (lt_irrefl i), parseKeyRest_bare hg.1.1, hsub, hrem]
              rw [if_pos trivial]
              simp only [h2, hit2, hihsub, hihrest, List.isEmpty_cons]
              simp
          · have hv' := hg.1.2
            simp only [goodVal, Bool.and_eq_true, Bool.not_eq_true'] at hv'
            cases es2 with
            | nil => simp at hv'
            | cons e2 r2 =>
              obtain ⟨e2k, e2v⟩ := e2
              have hgE : goodEntries ((e2k, e2v) :: r2) = true := hv'.2
              have hkE : keyOK e2k = true := by
                have h4 := hgE
                simp only [goodEntries, Bool.and_eq_true] at h4
                exact h4.1.1
              have hlist : encEntries i ((k, Val.vmap ((e2k, e2v) :: r2)) :: rest) ++ tail =
                  ⟨i, k ++ [':']⟩ ::
                    (encEntries (i + 2) ((e2k, e2v) :: r2) ++
                      (encEntries i rest ++ tail)) := by
                simp [encEntries, encVal]
              have hfacts := encEntries_facts (sizeOf ((e2k, e2v) :: r2)) ((e2k, e2v) :: r2)
                (i + 2) (le_refl _) hgE
              have hall : ∀ x ∈ encEntries (i + 2) ((e2k, e2v) :: r2),
                  (fun l2 => decide (i < l2.ind)) x = true := by
                intro x hx
                exact decide_eq_true (by have := (hfacts x hx).2; omega)
              have hstop : ∀ x, (encEntries i rest ++ tail).head? = some x →
                  (fun l2 => decide (i < l2.ind)) x = false := by
                intro x hx
                cases rest with
                | nil =>
                  rw [show encEntries i ([] : List (Str × Val)) ++ tail = tail from by
                    rw [encEntries]; rfl] at hx
                  exact decide_eq_false (by have := ht x hx; omega)
                | cons e3 r3 =>
                  obtain ⟨e3k, e3v⟩ := e3
                  obtain ⟨t0, r0, h0⟩ := encEntries_cons_head i e3k e3v r3
                  rw [h0, List.cons_append, List.head?_cons] at hx
                  injection hx with hx0
                  rw [← hx0]
                  exact decide_eq_false (lt_irrefl i)
              have hsub : (encEntries (i + 2) ((e2k, e2v) :: r2) ++
                    (encEntries i rest ++ tail)).takeWhile (fun l2 => decide (i < l2.ind)) =
                  encEntries (i + 2) ((e2k, e2v) :: r2) := by
                rw [takeWhile_append_all _ _ hall, (takeWhile_head_stop _ hstop).1,
                  List.append_nil]
              have hrem : (encEntries (i + 2) ((e2k, e2v) :: r2) ++
                    (encEntries i rest ++ tail)).dropWhile (fun l2 => decide (i < l2.ind)) =
                  encEntries i rest ++ tail := by
                rw [dropWhile_append_all _ _ hall, (takeWhile_head_stop _ hstop).2]
              obtain ⟨t2, r2', h2, hit2⟩ := encEntries_cons_head2 hkE (i + 2) e2v r2
              have hlen' : (encEntries (i + 2) ((e2k, e2v) :: r2)).length +
                  ((encEntries i rest).length + tail.length) < fuel := by
                rw [hlist] at hlen
                simp only [List.length_cons, List.length_append] at hlen
                omega
              have hihsub : parseEntries fuel (i + 2)
                  (encEntries (i + 2) ((e2k, e2v) :: r2)) = some ((e2k, e2v) :: r2, []) := by
                have h3 := ih.1 (i + 2) ((e2k, e2v) :: r2) [] hgE
                  (by intro l hl; exact absurd hl (by simp))
                  (by rw [List.append_nil]; omega)
                rw [List.append_nil] at h3
                exact h3
              have hihrest : parseEntries fuel i (encEntries i rest ++ tail) =
                  some (rest, tail) := by
                refine ih.1 i rest tail hg.2 ht ?_
                simp only [List.length_append] at hlen' ⊢
                omega
              rw [h2] at hihsub
              rw [hlist, parseEntries_succ]
              simp only [if_neg (lt_irrefl i), parseKeyRest_bare hg.1.1, hsub, hrem]
              rw [if_pos trivial]
              simp only [h2, hit2, Option.isSome_none, hihsub, hihrest, List.isEmpty_cons]
              simp
    · intro i items tail hg ht hlen
      cases items with
      | nil =>
        rw [show encItems i ([] : List Val) ++ tail = tail from by
          rw [encItems]; rfl]
        cases tail with
        | nil => rfl
        | cons l rest =>
          have hlt := ht l rfl
          rw [parseItems_succ]
          simp only [if_pos hlt]
      | cons v rest =>
        simp only [goodItems, Bool.and_eq_true] at hg
        cases hsc : scalarTxt v with
        | some X =>
          obtain ⟨hXb, hXne, hXpv, hXkr, hXit⟩ := scalarTxt_facts hsc hg.1
          have hlist : encItems i (v :: rest) ++ tail =
              ⟨i, strOf "- " ++ X⟩ :: (encItems i rest ++ tail) := by
            rw [show encItems i (v :: rest) = encItem i v ++ encItems i rest from rfl,
              encItem_scalarTxt hsc, List.append_assoc]
            rfl
          have hit : itemTxt (strOf "- " ++ X) = some X := by
            rw [show strOf "- " ++ X = '-' :: ' ' :: X from rfl]
            exact itemTxt_dash_space X
          have hihrest : parseItems fuel i (encItems i rest ++ tail) =
              some (rest, tail) := by
            refine ih.2 i rest tail hg.2 ht ?_
            rw [hlist] at hlen
            simp only [List.length_cons] at hlen
            omega
          rw [hlist, parseItems_succ]
          simp only [if_neg (lt_irrefl i), hit, if_neg hXne, hXkr, Option.isSome_none,
            hXpv, hihrest]
          simp
        | none =>
          rcases scalarTxt_none hsc with ⟨items2, rfl⟩ | ⟨es2, rfl⟩
          · have hv' := hg.1
            simp only [goodVal, Bool.and_eq_true, Bool.not_eq_true'] at hv'
            cases items2 with
            | nil => simp at hv'
            | cons v2 r2 =>
              have hgI : goodItems (v2 :: r2) = true := hv'.2
              have hlist : encItems i (Val.seq (v2 :: r2) :: rest) ++ tail =
                  ⟨i, ['-']⟩ ::
                    (encItems (i + 2) (v2 :: r2) ++ (encItems i rest ++ tail)) := by
                simp [encItems, encItem]
              have hfacts := encItems_facts (sizeOf (v2 :: r2)) (v2 :: r2)
                (i + 2) (le_refl _) hgI
              have hall : ∀ x ∈ encItems (i + 2) (v2 :: r2),
                  (fun l2 => decide (i < l2.ind)) x = true := by
                intro x hx
                exact decide_eq_true (by have := (hfacts x hx).2; omega)
              have hstop : ∀ x, (encItems i rest ++ tail).head? = some x →
                  (fun l2 => decide (i < l2.ind)) x = false := by
                intro x hx
                cases rest with
                | nil =>
                  rw [show encItems i ([] : List Val) ++ tail = tail from by
                    rw [encItems]; rfl] at hx
                  exact decide_eq_false (by have := ht x hx; omega)
                | cons v3 r3 =>
                  obtain ⟨t0, r0, h0⟩ := encItems_cons_head i v3 r3
                  rw [h0, List.cons_append, List.head?_cons] at hx
                  injection hx with hx0
                  rw [← hx0]
                  exact decide_eq_false (lt_irrefl i)
              have hsub : (encItems (i + 2) (v2 :: r2) ++
                    (encItems i rest ++ tail)).takeWhile (fun l2 => decide (i < l2.ind)) =
                  encItems (i + 2) (v2 :: r2) := by
                rw [takeWhile_append_all _ _ hall, (takeWhile_head_stop _ hstop).1,
                  List.append_nil]
              have hrem : (encItems (i + 2) (v2 :: r2) ++
                    (encItems i rest ++ tail)).dropWhile (fun l2 => decide (i < l2.ind)) =
                  encItems i rest ++ tail := by
                rw [dropWhile_append_all _ _ hall, (takeWhile_head_stop _ hstop).2]
              obtain ⟨t2, r2', h2, hit2⟩ := encItems_cons_head2 (i + 2) v2 r2
              have hlen' : (encItems (i + 2) (v2 :: r2)).length +
                  ((encItems i rest).length + tail.length) < fuel := by
                rw [hlist] at hlen
                simp only [List.length_cons, List.length_append] at hlen
                omega
              have hihsub : parseItems fuel (i + 2) (encItems (i + 2) (v2 :: r2)) =
                  some (v2 :: r2, []) := by
                have h3 := ih.2 (i + 2) (v2 :: r2) [] hgI
                  (by intro l hl; exact absurd hl (by simp))
                  (by rw [List.append_nil]; omega)
                rw [List.append_nil] at h3
                exact h3
              have hihrest : parseItems fuel i (encItems i rest ++ tail) =
                  some (rest, tail) := by
                refine ih.2 i rest tail hg.2 ht ?_
                simp only [List.length_append] at hlen' ⊢
                omega
              rw [h2] at hihsub
              rw [hlist, parseItems_succ]
              simp only [if_neg (lt_irrefl i), show itemTxt ['-'] = some [] from rfl,
                hsub, hrem]
              rw [if_pos trivial]
              simp only [h2, hit2, hihsub, hihrest, List.isEmpty_cons]
              simp
          · have hv' := hg.1
            simp only [goodVal, Bool.and_eq_true, Bool.not_eq_true'] at hv'
            cases es2 with
            | nil => simp at hv'
            | cons e2 r2 =>
              obtain ⟨e2k, e2v⟩ := e2
              have hgE : goodEntries ((e2k, e2v) :: r2) = true := hv'.2
              have hkE : keyOK e2k = true := by
                have h4 := hgE
                simp only [goodEntries, Bool.and_eq_true] at h4
                exact h4.1.1
              have hlist : encItems i (Val.vmap ((e2k, e2v) :: r2) :: rest) ++ tail =
                  ⟨i, ['-']⟩ ::
                    (encEntries (i + 2) ((e2k, e2v) :: r2) ++
                      (encItems i rest ++ tail)) := by
                simp [encItems, encItem]
              have hfacts := encEntries_facts (sizeOf ((e2k, e2v) :: r2)) ((e2k, e2v) :: r2)
                (i + 2) (le_refl _) hgE
              have hall : ∀ x ∈ encEntries (i + 2) ((e2k, e2v) :: r2),
                  (fun l2 => decide (i < l2.ind)) x = true := by
                intro x hx
                exact decide_eq_true (by have := (hfacts x hx).2; omega)
              have hstop : ∀ x, (encItems i rest ++ tail).head? = some x →
                  (fun l2 => decide (i < l2.ind)) x = false := by
                intro x hx
                cases rest with
                | nil =>
                  rw [show encItems i ([] : List Val) ++ tail = tail from by
                    rw [encItems]; rfl] at hx
                  exact decide_eq_false (by have := ht x hx; omega)
                | cons v3 r3 =>
                  obtain ⟨t0, r0, h0⟩ := encItems_cons_head i v3 r3
                  rw [h0, List.cons_append, List.head?_cons] at hx
                  injection hx with hx0
                  rw [← hx0]
                  exact decide_eq_false (lt_irrefl i)
              have hsub : (encEntries (i + 2) ((e2k, e2v) :: r2) ++
                    (encItems i rest ++ tail)).takeWhile (fun l2 => decide (i < l2.ind)) =
                  encEntries (i + 2) ((e2k, e2v) :: r2) := by
                rw [takeWhile_append_all _ _ hall, (takeWhile_head_stop _ hstop).1,
                  List.append_nil]
              have hrem : (encEntries (i + 2) ((e2k, e2v) :: r2) ++
                    (encItems i rest ++ tail)).dropWhile (fun l2 => decide (i < l2.ind)) =
                  encItems i rest ++ tail := by
                rw [dropWhile_append_all _ _ hall, (takeWhile_head_stop _ hstop).2]
              obtain ⟨t2, r2', h2, hit2⟩ := encEntries_cons_head2 hkE (i + 2) e2v r2
              have hlen' : (encEntries (i + 2) ((e2k, e2v) :: r2)).length +
                  ((encItems i rest).length + tail.length) < fuel := by
                rw [hlist] at hlen
                simp only [List.length_cons, List.length_append] at hlen
                omega
              have hihsub : parseEntries fuel (i + 2)
                  (encEntries (i + 2) ((e2k, e2v) :: r2)) = some ((e2k, e2v) :: r2, []) := by
                have h3 := ih.1 (i + 2) ((e2k, e2v) :: r2) [] hgE
                  (by intro l hl; exact absurd hl (by simp))
                  (by rw [List.append_nil]; omega)
                rw [List.append_nil] at h3
                exact h3
              have hihrest : parseItems fuel i (encItems i rest ++ tail) =
                  some (rest, tail) := by
                refine ih.2 i rest tail hg.2 ht ?_
                simp only [List.length_append] at hlen' ⊢
                omega
              rw [h2] at hihsub
              rw [hlist, parseItems_succ]
              simp only [if_neg (lt_irrefl i), show itemTxt ['-'] = some [] from rfl,
                hsub, hrem]
              rw [if_pos trivial]
              simp only [h2, hit2, Option.isSome_none, hihsub, hihrest, List.isEmpty_cons]
              simp

theorem parseEntries_rt : ∀ (fuel i : Nat) (es : List (Str × Val)) (tail : List YLine),
    goodEntries es = true →
    (∀ l, tail.head? = some l → l.ind < i) →
    (encEntries i es ++ tail).length < fuel →
    parseEntries fuel i (encEntries i es ++ tail) = some (es, tail) :=
  fun fuel => (parse_rt fuel).1

theorem parseItems_rt : ∀ (fuel i : Nat) (items : List Val) (tail : List YLine),
    goodItems items = true →
    (∀ l, tail.head? = some l → l.ind < i) →
    (encItems i items ++ tail).length < fuel →
    parseItems fuel i (encItems i items ++ tail) = some (items, tail) :=
  fun fuel => (parse_rt fuel).2

/-! Stream-level facts: lines, separators and documents. -/

theorem splitOnP_all_false {α : Type} (p : α → Bool) :
    ∀ {s : List α}, (∀ x ∈ s, p x = false) → splitOnP p s = [s] := by
  intro s
  induction s with
  | nil => intro h; rfl
  | cons a rest ih =>
    intro h
    rw [splitOnP_cons_false p (h a (List.mem_cons_self _ _)) rest,
      ih fun e he => h e (List.mem_cons_of_mem _ he)]
    rfl

theorem splitOnP_joinl {α : Type} (p : α → Bool) {sep : α} (hsep : p sep = true) :
    ∀ (gs : List (List α)), gs ≠ [] → (∀ g ∈ gs, ∀ x ∈ g, p x = false) →
      splitOnP p (joinl [sep] gs) = gs := by
  intro gs
  induction gs with
  | nil => intro h; exact absurd rfl h
  | cons g rest ih =>
    intro hne hall
    cases rest with
    | nil => exact splitOnP_all_false p (hall g (List.mem_cons_self _ _))
    | cons g2 r2 =>
      have hj : joinl [sep] (g :: g2 :: r2) = g ++ sep :: joinl [sep] (g2 :: r2) := by
        show g ++ [sep] ++ joinl [sep] (g2 :: r2) = _
        rw [List.append_assoc]
        rfl
      rw [hj, splitOnP_append p (fun x hx => hall g (List.mem_cons_self _ _) x hx) hsep _,
        ih (by simp) fun g' hg' => hall g' (List.mem_cons_of_mem _ hg')]

theorem joinl_ne_nil {α : Type} (sep : List α) {x : List α} (xs : List (List α))
    (hx : x ≠ []) : joinl sep (x :: xs) ≠ [] := by
  cases xs with
  | nil => exact hx
  | cons y ys =>
    show x ++ sep ++ joinl sep (y :: ys) ≠ []
    intro hc
    rw [List.append_assoc, List.append_eq_nil] at hc
    exact hx hc.1

theorem joinl_head? {α : Type} (sep : List α) (x : List α) (xs : List (List α))
    (hx : x ≠ []) : (joinl sep (x :: xs)).head? = x.head? := by
  cases xs with
  | nil => rfl
  | cons y ys =>
    show (x ++ sep ++ joinl sep (y :: ys)).head? = x.head?
    cases x with
    | nil => exact absurd rfl hx
    | cons c t => rfl

theorem joinl_getLast? {α : Type} (sep : List α) :
    ∀ (gs : List (List α)) (g : List α), gs.getLast? = some g → (∀ g' ∈ gs, g' ≠ []) →
      (joinl sep gs).getLast? = g.getLast? := by
  intro gs
  induction gs with
  | nil => intro g h; exact absurd h (by simp)
  | cons g0 rest ih =>
    intro g hlast hall
    cases rest with
    | nil =>
      rw [show ([g0] : List (List α)).getLast? = some g0 from rfl] at hlast
      injection hlast with hg
      rw [← hg]
      rfl
    | cons g1 r1 =>
      rw [List.getLast?_cons_cons] at hlast
      have hJ : joinl sep (g1 :: r1) ≠ [] :=
        joinl_ne_nil sep r1 (hall g1 (List.mem_cons_of_mem _ (List.mem_cons_self _ _)))
      show (g0 ++ sep ++ joinl sep (g1 :: r1)).getLast? = g.getLast?
      rw [List.append_assoc, List.getLast?_append_of_ne_nil g0 (by
          intro hc
          rw [List.append_eq_nil] at hc
          exact hJ hc.2),
        List.getLast?_append_of_ne_nil sep hJ]
      exact ih g hlast fun g' hg' => hall g' (List.mem_cons_of_mem _ hg')

theorem joinl_mem {α : Type} {sep : α} : ∀ {gs : List (List α)} {x : α},
    x ∈ joinl [sep] gs → x = sep ∨ ∃ g ∈ gs, x ∈ g := by
  intro gs
  induction gs with
  | nil => intro x hx; cases hx
  | cons g rest ih =>
    intro x hx
    cases rest with
    | nil =>
      have hx' : x ∈ g := hx
      exact Or.inr ⟨g, List.mem_cons_self _ _, hx'⟩
    | cons g2 r2 =>
      have hx' : x ∈ g ++ [sep] ++ joinl [sep] (g2 :: r2) := hx
      rcases List.mem_append.mp hx' with h1 | h2
      · rcases List.mem_append.mp h1 with h1a | h1b
        · exact Or.inr ⟨g, List.mem_cons_self _ _, h1a⟩
        · exact Or.inl (List.mem_singleton.mp h1b)
      · rcases ih h2 with h | ⟨g', hg', hxg'⟩
        · exact Or.inl h
        · exact Or.inr ⟨g', List.mem_cons_of_mem _ hg', hxg'⟩

theorem spaces_all (n : Nat) : ∀ x ∈ spaces n, x = ' ' := by
  induction n with
  | zero => intro x hx; cases hx
  | succ n ih =>
    intro x hx
    rcases List.mem_cons.mp hx with rfl | hx2
    · rfl
    · exact ih x hx2

theorem spaces_length (n : Nat) : (spaces n).length = n := by
  induction n with
  | zero => rfl
  | succ n ih =>
    show (spaces n).length + 1 = n + 1
    rw [ih]

theorem renderLine_ne_nil {l : YLine} (h : l.txt ≠ []) : renderLine l ≠ [] := by
  unfold renderLine
  intro hc
  rw [List.append_eq_nil] at hc
  exact h hc.2

theorem renderLine_not_nl {l : YLine} (h : ∀ e ∈ l.txt, e ≠ '\n') :
    ∀ x ∈ renderLine l, (fun c => decide (c = '\n')) x = false := by
  intro x hx
  rcases List.mem_append.mp hx with hs | ht
  · rw [spaces_all l.ind x hs]
    decide
  · exact decide_eq_false (h x ht)

theorem takeWhile_spaces {i : Nat} {t : Str}
    (h : ∀ c, t.head? = some c → isSpc c = false) :
    (spaces i ++ t).takeWhile (· = ' ') = spaces i ∧
      (spaces i ++ t).dropWhile (· = ' ') = t := by
  have hstop : ∀ x, t.head? = some x → (fun c => decide (c = ' ')) x = false := by
    intro x hx
    refine decide_eq_false ?_
    intro hc
    subst hc
    exact Bool.noConfusion (h ' ' hx)
  have hall : ∀ x ∈ spaces i, (fun c => decide (c = ' ')) x = true := by
    intro x hx
    rw [spaces_all i x hx]
    decide
  exact ⟨by rw [takeWhile_append_all _ _ hall, (takeWhile_head_stop _ hstop).1,
      List.append_nil],
    by rw [dropWhile_append_all _ _ hall, (takeWhile_head_stop _ hstop).2]⟩

theorem renderLine_parse {l : YLine} (hb : LineBase l.txt) :
    (⟨((renderLine l).takeWhile (· = ' ')).length,
      (renderLine l).dropWhile (· = ' ')⟩ : YLine) = l := by
  obtain ⟨htake, hdrop⟩ := takeWhile_spaces (lineBase_head hb)
  show (⟨((spaces l.ind ++ l.txt).takeWhile (· = ' ')).length,
    (spaces l.ind ++ l.txt).dropWhile (· = ' ')⟩ : YLine) = l
  rw [htake, hdrop, spaces_length]

theorem toLines_renderLines {ls : List YLine} (hne : ls ≠ [])
    (hb : ∀ l ∈ ls, LineBase l.txt) : toLines (renderLines ls) = ls := by
  unfold toLines renderLines
  have hsplit : splitChar '\n' (joinl ['\n'] (ls.map renderLine)) = ls.map renderLine := by
    refine splitOnP_joinl _ (by decide) _ (by simpa using hne) ?_
    intro g hg x hx
    obtain ⟨l, hl, rfl⟩ := List.mem_map.mp hg
    exact renderLine_not_nl (hb l hl).2.2.1 x hx
  rw [hsplit, List.map_map]
  have hcongr : ∀ l ∈ ls,
      ((fun l0 => (⟨(l0.takeWhile (· = ' ')).length,
          l0.dropWhile (· = ' ')⟩ : YLine)) ∘ renderLine) l = id l := by
    intro l hl
    exact renderLine_parse (hb l hl)
  rw [List.map_congr_left hcongr, List.map_id]

theorem filter_keepLine_all {ls : List YLine} (h : ∀ l ∈ ls, LineBase l.txt) :
    ls.filter keepLine = ls := by
  rw [List.filter_eq_self]
  intro l hl
  obtain ⟨hne, hh, -, -⟩ := h l hl
  unfold keepLine
  rw [Bool.and_eq_true]
  cases htxt : l.txt with
  | nil => exact absurd htxt hne
  | cons c t =>
    constructor
    · rfl
    · have h2 := (hh c t htxt).2
      simp [h2]

theorem sepLine_lineBase : LineBase sepLine.txt := by
  refine ⟨by decide, ?_, by decide, ?_⟩
  · intro c r h
    injection (show ('-' :: '-' :: '-' :: [] : Str) = c :: r from h) with h1 h2
    exact h1 ▸ (by decide)
  · intro cl hcl
    injection (show some '-' = some cl from hcl) with h1
    exact h1 ▸ (by decide)

theorem txtGood_not_isSep {l : YLine} (h : TxtGood l.txt) : isSep l = false := by
  simp [isSep, h.2]

theorem scalarTxt_txtGood {v : Val} {X : Str} (h : scalarTxt v = some X)
    (hg : goodVal v = true) : TxtGood X := by
  cases v with
  | nul =>
    injection h with h1
    rw [← h1]
    exact txtGood_null
  | bool b =>
    injection h with h1
    rw [← h1]
    exact txtGood_boolText b
  | num s =>
    injection h with h1
    rw [← h1]
    exact num_txtGood hg
  | str s =>
    injection h with h1
    rw [← h1]
    refine emitScalar_txtGood ?_
    simp only [goodVal, Bool.not_eq_true'] at hg
    exact hg
  | seq items => exact Option.noConfusion h
  | vmap es => exact Option.noConfusion h

theorem encDoc_scalarTxt {d : Val} {X : Str} (h : scalarTxt d = some X) :
    encDoc d = [⟨0, X⟩] := by
  cases d with
  | nul => injection h with h1; rw [← h1]; rfl
  | bool b => injection h with h1; rw [← h1]; rfl
  | num s => injection h with h1; rw [← h1]; rfl
  | str s => injection h with h1; rw [← h1]; rfl
  | seq items => exact Option.noConfusion h
  | vmap es => exact Option.noConfusion h

theorem encDoc_lineBase {d : Val} (hg : goodVal d = true) :
    ∀ l ∈ encDoc d, TxtGood l.txt := by
  intro l hl
  cases hsc : scalarTxt d with
  | some X =>
    rw [encDoc_scalarTxt hsc] at hl
    rcases List.mem_singleton.mp hl with rfl
    exact scalarTxt_txtGood hsc hg
  | none =>
    rcases scalarTxt_none hsc with ⟨items, rfl⟩ | ⟨es, rfl⟩
    · simp only [encDoc] at hl
      simp only [goodVal, Bool.and_eq_true, Bool.not_eq_true'] at hg
      exact (encItems_facts (sizeOf items) items 0 (le_refl _) hg.2 l hl).1
    · simp only [encDoc] at hl
      simp only [goodVal, Bool.and_eq_true, Bool.not_eq_true'] at hg
      exact (encEntries_facts (sizeOf es) es 0 (le_refl _) hg.2 l hl).1

theorem encDoc_ne_nil {d : Val} (hg : goodVal d = true) : encDoc d ≠ [] := by
  cases hsc : scalarTxt d with
  | some X =>
    rw [encDoc_scalarTxt hsc]
    simp
  | none =>
    rcases scalarTxt_none hsc with ⟨items, rfl⟩ | ⟨es, rfl⟩
    · simp only [goodVal, Bool.and_eq_true, Bool.not_eq_true'] at hg
      cases items with
      | nil => simp at hg
      | cons v r => exact encItems_ne_nil 0 v r
    · simp only [goodVal, Bool.and_eq_true, Bool.not_eq_true'] at hg
      cases es with
      | nil => simp at hg
      | cons e r =>
        obtain ⟨ek, ev⟩ := e
        exact encEntries_ne_nil 0 ek ev r

theorem encDoc_head {d : Val} (hg : goodVal d = true) :
    ∃ t r, encDoc d = ⟨0, t⟩ :: r := by
  cases hsc : scalarTxt d with
  | some X => exact ⟨X, [], encDoc_scalarTxt hsc⟩
  | none =>
    rcases scalarTxt_none hsc with ⟨items, rfl⟩ | ⟨es, rfl⟩
    · simp only [goodVal, Bool.and_eq_true, Bool.not_eq_true'] at hg
      cases items with
      | nil => simp at hg
      | cons v r => exact encItems_cons_head 0 v r
    · simp only [goodVal, Bool.and_eq_true, Bool.not_eq_true'] at hg
      cases es with
      | nil => simp at hg
      | cons e r =>
        obtain ⟨ek, ev⟩ := e
        exact encEntries_cons_head 0 ek ev r

theorem encodeDocs_lineBase {docs : List Val} (hg : ∀ d ∈ docs, goodVal d = true) :
    ∀ l ∈ encodeDocs docs, LineBase l.txt := by
  intro l hl
  unfold encodeDocs at hl
  rcases joinl_mem hl with rfl | ⟨g, hgmem, hlg⟩
  · exact sepLine_lineBase
  · obtain ⟨d, hd, rfl⟩ := List.mem_map.mp hgmem
    exact (encDoc_lineBase (hg d hd) l hlg).1

theorem renderLines_head (l0 : YLine) (ls : List YLine) (h0 : renderLine l0 ≠ []) :
    (renderLines (l0 :: ls)).head? = (renderLine l0).head? := by
  unfold renderLines
  rw [List.map_cons]
  exact joinl_head? ['\n'] (renderLine l0) (ls.map renderLine) h0

theorem renderLines_getLast {ls : List YLine} {l : YLine} (h : ls.getLast? = some l)
    (hall : ∀ l' ∈ ls, renderLine l' ≠ []) :
    (renderLines ls).getLast? = (renderLine l).getLast? := by
  unfold renderLines
  refine joinl_getLast? ['\n'] (ls.map renderLine) (renderLine l) ?_ ?_
  · rw [List.getLast?_map, h]
    rfl
  · intro g hgmem
    obtain ⟨l', hl', rfl⟩ := List.mem_map.mp hgmem
    exact hall l' hl'

theorem parseDoc_enc (d : Val) (hg : goodVal d = true) : parseDoc (encDoc d) = some d := by
  cases hsc : scalarTxt d with
  | some X =>
    obtain ⟨hXb, hXne, hXpv, hXkr, hXit⟩ := scalarTxt_facts hsc hg
    rw [encDoc_scalarTxt hsc]
    have hpe : parseEntries ([(⟨0, X⟩ : YLine)].length + 1) 0 [(⟨0, X⟩ : YLine)] =
        none := by
      rw [parseEntries_succ]
      simp only [if_neg (lt_irrefl 0), hXkr]
    unfold parseDoc
    simp only [hXit, Option.isSome_none, hpe, hXkr, hXpv]
    simp
  | none =>
    rcases scalarTxt_none hsc with ⟨items, rfl⟩ | ⟨es, rfl⟩
    · simp only [goodVal, Bool.and_eq_true, Bool.not_eq_true'] at hg
      cases items with
      | nil => simp at hg
      | cons v r =>
        obtain ⟨t0, r0, h0, hit0⟩ := encItems_cons_head2 0 v r
        have hrt : parseItems ((encItems 0 (v :: r)).length + 1) 0
            (encItems 0 (v :: r)) = some (v :: r, []) := by
          have h1 := parseItems_rt ((encItems 0 (v :: r)).length + 1) 0
            (v :: r) [] hg.2 (by intro l hl; exact Option.noConfusion hl)
            (by rw [List.append_nil]; omega)
          rw [List.append_nil] at h1
          exact h1
        show parseDoc (encItems 0 (v :: r)) = _
        unfold parseDoc
        rw [h0] at hrt ⊢
        simp only [hit0, hrt]
        simp
    · simp only [goodVal, Bool.and_eq_true, Bool.not_eq_true'] at hg
      cases es with
      | nil => simp at hg
      | cons e r =>
        obtain ⟨ek, ev⟩ := e
        have hkE : keyOK ek = true := by
          have h4 := hg.2
          simp only [goodEntries, Bool.and_eq_true] at h4
          exact h4.1.1
        obtain ⟨t0, r0, h0, hit0⟩ := encEntries_cons_head2 hkE 0 ev r
        have hrt : parseEntries ((encEntries 0 ((ek, ev) :: r)).length + 1) 0
            (encEntries 0 ((ek, ev) :: r)) = some ((ek, ev) :: r, []) := by
          have h1 := parseEntries_rt ((encEntries 0 ((ek, ev) :: r)).length + 1) 0
            ((ek, ev) :: r) [] hg.2 (by intro l hl; exact Option.noConfusion hl)
            (by rw [List.append_nil]; omega)
          rw [List.append_nil] at h1
          exact h1
        show parseDoc (encEntries 0 ((ek, ev) :: r)) = _
        unfold parseDoc
        rw [h0] at hrt ⊢
        simp only [hit0, Option.isSome_none, hrt]
        simp

theorem mapM_parseDoc_enc : ∀ (docs : List Val), (∀ d ∈ docs, goodVal d = true) →
    (docs.map encDoc).mapM parseDoc = some docs := by
  intro docs
  induction docs with
  | nil => intro h; rfl
  | cons d rest ih =>
    intro h
    rw [List.map_cons, List.mapM_cons, parseDoc_enc d (h d (List.mem_cons_self _ _)),
      ih fun d' hd' => h d' (List.mem_cons_of_mem _ hd')]
    rfl

theorem encode_trim_id {d0 : Val} {drest : List Val}
    (hg : ∀ d ∈ d0 :: drest, goodVal d = true) :
    trim (renderLines (encodeDocs (d0 :: drest))) = renderLines (encodeDocs (d0 :: drest)) := by
  have hlb : ∀ l ∈ encodeDocs (d0 :: drest), LineBase l.txt := encodeDocs_lineBase hg
  obtain ⟨t0, r0, h0⟩ := encDoc_head (hg d0 (List.mem_cons_self _ _))
  have hh : (encodeDocs (d0 :: drest)).head? = some ⟨0, t0⟩ := by
    show (joinl [sepLine] ((d0 :: drest).map encDoc)).head? = _
    rw [List.map_cons,
      joinl_head? [sepLine] (encDoc d0) _ (encDoc_ne_nil (hg d0 (List.mem_cons_self _ _))),
      h0, List.head?_cons]
  obtain ⟨tl, hLSeq⟩ : ∃ tl, encodeDocs (d0 :: drest) = ⟨0, t0⟩ :: tl := by
    cases hLSc : encodeDocs (d0 :: drest) with
    | nil => rw [hLSc] at hh; exact Option.noConfusion hh
    | cons a tl =>
      rw [hLSc, List.head?_cons] at hh
      injection hh with ha
      exact ⟨tl, by rw [← ha]⟩
  have hb0 : LineBase t0 := hlb ⟨0, t0⟩ (by rw [hLSeq]; exact List.mem_cons_self _ _)
  obtain ⟨llast, hlasteq, hlastlb⟩ :
      ∃ llast, (encodeDocs (d0 :: drest)).getLast? = some llast ∧ LineBase llast.txt := by
    cases hLSc : (encodeDocs (d0 :: drest)).getLast? with
    | none =>
      rw [hLSeq] at hLSc
      simp at hLSc
    | some llast =>
      refine ⟨llast, rfl, hlb llast ?_⟩
      exact List.mem_of_mem_getLast? (show llast ∈ (encodeDocs (d0 :: drest)).getLast? from by
        rw [hLSc]; rfl)
  refine trim_eq_self ?_ ?_
  · intro c hc
    rw [hLSeq, renderLines_head _ tl (renderLine_ne_nil hb0.1)] at hc
    have hc' : t0.head? = some c := hc
    exact lineBase_head hb0 c hc'
  · intro c hc
    rw [renderLines_getLast hlasteq fun l' hl' => renderLine_ne_nil (hlb l' hl').1] at hc
    rw [show renderLine llast = spaces llast.ind ++ llast.txt from rfl,
      List.getLast?_append_of_ne_nil _ hlastlb.1] at hc
    exact hlastlb.2.2.2 c hc

theorem decode_encode {docs : List Val} (hg : ∀ d ∈ docs, goodVal d = true) :
    decodeDocs (renderLines (encodeDocs docs)) = some docs := by
  cases docs with
  | nil => rfl
  | cons d0 drest =>
    unfold decodeDocs
    have hlb : ∀ l ∈ encodeDocs (d0 :: drest), LineBase l.txt := encodeDocs_lineBase hg
    have hencne : encodeDocs (d0 :: drest) ≠ [] := by
      show joinl [sepLine] ((d0 :: drest).map encDoc) ≠ []
      rw [List.map_cons]
      exact joinl_ne_nil [sepLine] _ (encDoc_ne_nil (hg d0 (List.mem_cons_self _ _)))
    rw [toLines_renderLines hencne hlb, filter_keepLine_all hlb,
      show encodeDocs (d0 :: drest) = joinl [sepLine] (encDoc d0 :: drest.map encDoc) from by
        rw [encodeDocs, List.map_cons]]
    have hnosep : ∀ g ∈ encDoc d0 :: drest.map encDoc, ∀ x ∈ g, isSep x = false := by
      intro g hgm x hx
      rcases List.mem_cons.mp hgm with rfl | hgm2
      · exact txtGood_not_isSep (encDoc_lineBase (hg d0 (List.mem_cons_self _ _)) x hx)
      · obtain ⟨d, hd, rfl⟩ := List.mem_map.mp hgm2
        exact txtGood_not_isSep
          (encDoc_lineBase (hg d (List.mem_cons_of_mem _ hd)) x hx)
    rw [splitOnP_joinl isSep (by decide) _ (by simp) hnosep]
    have hnonempty : ∀ g ∈ encDoc d0 :: drest.map encDoc, (!g.isEmpty) = true := by
      intro g hgm
      have hgne : g ≠ [] := by
        rcases List.mem_cons.mp hgm with rfl | hgm2
        · exact encDoc_ne_nil (hg d0 (List.mem_cons_self _ _))
        · obtain ⟨d, hd, rfl⟩ := List.mem_map.mp hgm2
          exact encDoc_ne_nil (hg d (List.mem_cons_of_mem _ hd))
      cases hgeq : g with
      | nil => exact absurd hgeq hgne
      | cons a r => rfl
    rw [List.filter_eq_self.mpr hnonempty, ← List.map_cons]
    exact mapM_parseDoc_enc (d0 :: drest) hg

/-! Decoded values are within the encoder fragment. -/

theorem mem_trim {s : Str} {e : Char} (h : e ∈ trim s) : e ∈ s := by
  have h1 : e ∈ trimRight s := (List.dropWhile_sublist _).subset h
  unfold trimRight at h1
  rw [List.mem_reverse] at h1
  have h2 : e ∈ s.reverse := (List.dropWhile_sublist _).subset h1
  rw [List.mem_reverse] at h2
  exact h2

theorem unqQ_mem : ∀ (n : Nat) (r out : Str), r.length ≤ n → unqQ r = some out →
    ∀ e ∈ out, e ∈ r := by
  intro n
  induction n with
  | zero =>
    intro r out hlen h e he
    cases r with
    | nil => exact Option.noConfusion h
    | cons c t => simp at hlen
  | succ n ih =>
    intro r out hlen h e he
    cases r with
    | nil => exact Option.noConfusion h
    | cons c t =>
      by_cases hc : c = '\''
      · subst hc
        cases t with
        | nil =>
          have h' : some ([] : Str) = some out := h
          injection h' with h1
          rw [← h1] at he
          cases he
        | cons c2 t2 =>
          by_cases hc2 : c2 = '\''
          · subst hc2
            rw [unqQ_quote_quote] at h
            cases hq : unqQ t2 with
            | none => rw [hq] at h; exact Option.noConfusion h
            | some ou =>
              rw [hq] at h
              injection h with h1
              rw [← h1] at he
              rcases List.mem_cons.mp he with rfl | he2
              · exact List.mem_cons_self _ _
              · have h3 := ih t2 ou (by simp only [List.length_cons] at hlen; omega) hq e he2
                exact List.mem_cons_of_mem _ (List.mem_cons_of_mem _ h3)
          · have h' : (none : Option Str) = some out := by
              rw [← h]
              show none = unqQ ('\'' :: c2 :: t2)
              rw [unqQ.eq_def]
              simp [hc2]
            exact Option.noConfusion h'
      · rw [unqQ_cons_ne hc] at h
        cases hq : unqQ t with
        | none => rw [hq] at h; exact Option.noConfusion h
        | some ou =>
          rw [hq] at h
          injection h with h1
          rw [← h1] at he
          rcases List.mem_cons.mp he with rfl | he2
          · exact List.mem_cons_self _ _
          · exact List.mem_cons_of_mem _
              (ih t ou (by simp only [List.length_cons] at hlen; omega) hq e he2)

theorem unqD_mem : ∀ (r out : Str), unqD r = some out → ∀ e ∈ out, e ∈ r := by
  intro r
  induction r with
  | nil => intro out h e he; exact Option.noConfusion h
  | cons c t ih =>
    intro out h e he
    by_cases hc : c = '"'
    · subst hc
      cases t with
      | nil =>
        have h' : some ([] : Str) = some out := h
        injection h' with h1
        rw [← h1] at he
        cases he
      | cons c2 t2 =>
        have h' : (none : Option Str) = some out := h
        exact Option.noConfusion h'
    · have hstep : unqD (c :: t) = (unqD t).map (c :: ·) := by
        rw [unqD.eq_def]
        simp [hc]
      rw [hstep] at h
      cases hq : unqD t with
      | none => rw [hq] at h; exact Option.noConfusion h
      | some ou =>
        rw [hq] at h
        injection h with h1
        rw [← h1] at he
        rcases List.mem_cons.mp he with rfl | he2
        · exact List.mem_cons_self _ _
        · exact List.mem_cons_of_mem _ (ih ou hq e he2)

theorem parseKeyTxt_keyOK {kt k : Str} (h : parseKeyTxt kt = some k) : keyOK k = true := by
  cases kt with
  | nil => exact Option.noConfusion h
  | cons c r =>
    have hh : (if c = '\'' then (unqQ r).bind fun k0 => if keyOK k0 then some k0 else none
        else if c = '"' then (unqD r).bind fun k0 => if keyOK k0 then some k0 else none
        else if keyOK (c :: r) then some (c :: r) else none) = some k := h
    by_cases h1 : c = '\''
    · rw [if_pos h1] at hh
      cases hq : unqQ r with
      | none => rw [hq] at hh; exact Option.noConfusion hh
      | some kq =>
        rw [hq] at hh
        have h' : (if keyOK kq then some kq else none) = some k := hh
        by_cases h2 : keyOK kq
        · rw [if_pos h2] at h'
          injection h' with h3
          rw [← h3]
          exact h2
        · rw [if_neg h2] at h'
          exact Option.noConfusion h'
    · rw [if_neg h1] at hh
      by_cases h2 : c = '"'
      · rw [if_pos h2] at hh
        cases hq : unqD r with
        | none => rw [hq] at hh; exact Option.noConfusion hh
        | some kq =>
          rw [hq] at hh
          have h' : (if keyOK kq then some kq else none) = some k := hh
          by_cases h3 : keyOK kq
          · rw [if_pos h3] at h'
            injection h' with h4
            rw [← h4]
            exact h3
          · rw [if_neg h3] at h'
            exact Option.noConfusion h'
      · rw [if_neg h2] at hh
        by_cases h3 : keyOK (c :: r)
        · rw [if_pos h3] at hh
          injection hh with h4
          rw [← h4]
          exact h3
        · rw [if_neg h3] at hh
          exact Option.noConfusion hh

theorem parseKeyRest_keyOK {txt k v : Str} (h : parseKeyRest txt = some (k, v)) :
    keyOK k = true := by
  unfold parseKeyRest at h
  cases hs : splitChar ':' txt with
  | nil => rw [hs] at h; exact Option.noConfusion h
  | cons k0 rest =>
    rw [hs] at h
    cases rest with
    | nil => exact Option.noConfusion h
    | cons x xs =>
      have hh : (parseKeyTxt k0).map (fun key => (key, trim (joinl [':'] (x :: xs)))) =
          some (k, v) := h
      cases hkt : parseKeyTxt k0 with
      | none => rw [hkt] at hh; exact Option.noConfusion hh
      | some key =>
        rw [hkt] at hh
        injection hh with hp
        have h1 : key = k := congrArg Prod.fst hp
        rw [← h1]
        exact parseKeyTxt_keyOK hkt

theorem parseKeyRest_val_mem {txt k valTxt : Str} (h : parseKeyRest txt = some (k, valTxt)) :
    ∀ e ∈ valTxt, e = ':' ∨ e ∈ txt := by
  unfold parseKeyRest at h
  cases hs : splitChar ':' txt with
  | nil => rw [hs] at h; exact Option.noConfusion h
  | cons k0 rest =>
    rw [hs] at h
    cases rest with
    | nil => exact Option.noConfusion h
    | cons x xs =>
      have hh : (parseKeyTxt k0).map (fun key => (key, trim (joinl [':'] (x :: xs)))) =
          some (k, valTxt) := h
      cases hkt : parseKeyTxt k0 with
      | none => rw [hkt] at hh; exact Option.noConfusion hh
      | some key =>
        rw [hkt] at hh
        injection hh with hp
        have hval : trim (joinl [':'] (x :: xs)) = valTxt := congrArg Prod.snd hp
        intro e he
        rw [← hval] at he
        have he2 : e ∈ joinl [':'] (x :: xs) := mem_trim he
        rcases joinl_mem he2 with rfl | ⟨g, hgm, heg⟩
        · exact Or.inl rfl
        · refine Or.inr ?_
          have hgm2 : g ∈ splitChar ':' txt := by
            rw [hs]
            exact List.mem_cons_of_mem _ hgm
          exact splitOnP_mem_subset _ _ g hgm2 e heg

theorem parseFlowScalar_good {t : Str} {v : Val} (h : parseFlowScalar t = some v)
    (hnl : ∀ e ∈ t, e ≠ '\n') : goodVal v = true := by
  cases t with
  | nil => exact Option.noConfusion h
  | cons c r =>
    have hh : (if c = '\'' then (unqQ r).map Val.str
        else if c = '"' then (unqD r).map Val.str
        else if c = '{' then none
        else if c = '[' then none
        else some (classifyPlain (c :: r))) = some v := h
    by_cases h1 : c = '\''
    · rw [if_pos h1] at hh
      cases hq : unqQ r with
      | none => rw [hq] at hh; exact Option.noConfusion hh
      | some ou =>
        rw [hq] at hh
        injection hh with hv
        rw [← hv]
        simp only [goodVal, Bool.not_eq_true']
        refine contains_eq_false_iff.mpr ?_
        intro e he
        exact hnl e (List.mem_cons_of_mem _ (unqQ_mem r.length r ou (le_refl _) hq e he))
    · rw [if_neg h1] at hh
      by_cases h2 : c = '"'
      · rw [if_pos h2] at hh
        cases hq : unqD r with
        | none => rw [hq] at hh; exact Option.noConfusion hh
        | some ou =>
          rw [hq] at hh
          injection hh with hv
          rw [← hv]
          simp only [goodVal, Bool.not_eq_true']
          refine contains_eq_false_iff.mpr ?_
          intro e he
          exact hnl e (List.mem_cons_of_mem _ (unqD_mem r ou hq e he))
      · rw [if_neg h2] at hh
        by_cases h3 : c = '{'
        · rw [if_pos h3] at hh
          exact Option.noConfusion hh
        · rw [if_neg h3] at hh
          by_cases h4 : c = '['
          · rw [if_pos h4] at hh
            exact Option.noConfusion hh
          · rw [if_neg h4] at hh
            injection hh with hv
            rw [← hv]
            exact classifyPlain_good (contains_eq_false_iff.mpr hnl)

theorem parseFlowEntry_good {piece : Str} {k : Str} {v : Val}
    (h : parseFlowEntry piece = some (k, v)) (hnl : ∀ e ∈ piece, e ≠ '\n') :
    keyOK k = true ∧ goodVal v = true := by
  unfold parseFlowEntry at h
  cases hs : splitChar ':' piece with
  | nil => rw [hs] at h; exact Option.noConfusion h
  | cons k0 rest =>
    rw [hs] at h
    cases rest with
    | nil => exact Option.noConfusion h
    | cons x xs =>
      have hh : (parseKeyTxt (trim k0)).bind (fun key =>
          (parseFlowScalar (trim (joinl [':'] (x :: xs)))).map fun w => (key, w)) =
          some (k, v) := h
      cases hkt : parseKeyTxt (trim k0) with
      | none => rw [hkt] at hh; exact Option.noConfusion hh
      | some key =>
        rw [hkt] at hh
        have hh2 : (parseFlowScalar (trim (joinl [':'] (x :: xs)))).map
            (fun w => (key, w)) = some (k, v) := hh
        cases hfs : parseFlowScalar (trim (joinl [':'] (x :: xs))) with
        | none => rw [hfs] at hh2; exact Option.noConfusion hh2
        | some v0 =>
          rw [hfs] at hh2
          injection hh2 with hp
          have hk : key = k := congrArg Prod.fst hp
          have hv : v0 = v := congrArg Prod.snd hp
          constructor
          · rw [← hk]
            exact parseKeyTxt_keyOK hkt
          · rw [← hv]
            refine parseFlowScalar_good hfs ?_
            intro e he
            have he2 := mem_trim he
            rcases joinl_mem he2 with rfl | ⟨g, hgm, heg⟩
            · decide
            · have hgm2 : g ∈ splitChar ':' piece := by
                rw [hs]
                exact List.mem_cons_of_mem _ hgm
              exact hnl e (splitOnP_mem_subset _ _ g hgm2 e heg)

theorem mapM_parseFlowEntry_good : ∀ (pieces : List Str) (es : List (Str × Val)),
    pieces.mapM parseFlowEntry = some es →
    (∀ p ∈ pieces, ∀ e ∈ p, e ≠ '\n') →
    goodEntries es = true ∧ (pieces = [] ↔ es = []) := by
  intro pieces
  induction pieces with
  | nil =>
    intro es h hnl
    injection h with h1
    exact ⟨by rw [← h1]; rfl, by rw [← h1]; simp⟩
  | cons p ps ih =>
    intro es h hnl
    rw [List.mapM_cons] at h
    cases hfe : parseFlowEntry p with
    | none => rw [hfe] at h; exact Option.noConfusion h
    | some kv =>
      rw [hfe] at h
      cases hrest : ps.mapM parseFlowEntry with
      | none => rw [hrest] at h; exact Option.noConfusion h
      | some es0 =>
        rw [hrest] at h
        injection h with h1
        obtain ⟨hge0, hiff⟩ := ih es0 hrest fun q hq => hnl q (List.mem_cons_of_mem _ hq)
        obtain ⟨k, v⟩ := kv
        obtain ⟨hkOK, hgv⟩ := parseFlowEntry_good hfe (hnl p (List.mem_cons_self _ _))
        rw [← h1]
        refine ⟨?_, by simp⟩
        simp only [goodEntries, Bool.and_eq_true]
        exact ⟨⟨hkOK, hgv⟩, hge0⟩

theorem parseFlow_good {inner : Str} {es : List (Str × Val)}
    (h : parseFlow inner = some es) (hnl : ∀ e ∈ inner, e ≠ '\n') :
    es ≠ [] ∧ goodEntries es = true := by
  unfold parseFlow at h
  have hp : ∀ p ∈ splitChar ',' inner, ∀ e ∈ p, e ≠ '\n' := by
    intro p hpmem e he
    exact hnl e (splitOnP_mem_subset _ _ p hpmem e he)
  obtain ⟨hge, hiff⟩ := mapM_parseFlowEntry_good _ es h hp
  refine ⟨?_, hge⟩
  intro hes
  exact splitOnP_ne_nil _ _ (hiff.mpr hes)

theorem itemTxt_mem {x t : Str} (h : itemTxt x = some t) : ∀ e ∈ t, e ∈ x := by
  cases x with
  | nil => exact Option.noConfusion h
  | cons c r =>
    have hh : (if c = '-' then
        (match r with
          | [] => some []
          | c2 :: t2 => if c2 = ' ' then some t2 else none) else none) = some t := h
    by_cases hc : c = '-'
    · rw [if_pos hc] at hh
      cases r with
      | nil =>
        injection hh with h1
        rw [← h1]
        intro e he
        cases he
      | cons c2 t2 =>
        have hh2 : (if c2 = ' ' then some t2 else none) = some t := hh
        by_cases hc2 : c2 = ' '
        · rw [if_pos hc2] at hh2
          injection hh2 with h1
          rw [← h1]
          intro e he
          exact List.mem_cons_of_mem _ (List.mem_cons_of_mem _ he)
        · rw [if_neg hc2] at hh2
          exact Option.noConfusion hh2
    · rw [if_neg hc] at hh
      exact Option.noConfusion hh

theorem mapM_parseFlowScalar_good : ∀ (pieces : List Str) (vs : List Val),
    pieces.mapM (fun piece => parseFlowScalar (trim piece)) = some vs →
    (∀ p ∈ pieces, ∀ e ∈ p, e ≠ '\n') →
    goodItems vs = true ∧ (pieces = [] ↔ vs = []) := by
  intro pieces
  induction pieces with
  | nil =>
    intro vs h hnl
    injection h with h1
    exact ⟨by rw [← h1]; rfl, by rw [← h1]; simp⟩
  | cons p ps ih =>
    intro vs h hnl
    rw [List.mapM_cons] at h
    cases hfs : parseFlowScalar (trim p) with
    | none => rw [hfs] at h; exact Option.noConfusion h
    | some v0 =>
      rw [hfs] at h
      cases hrest : ps.mapM (fun piece => parseFlowScalar (trim piece)) with
      | none => rw [hrest] at h; exact Option.noConfusion h
      | some vs0 =>
        rw [hrest] at h
        injection h with h1
        obtain ⟨hg0, hiff⟩ := ih vs0 hrest fun q hq => hnl q (List.mem_cons_of_mem _ hq)
        have hgv : goodVal v0 = true := by
          refine parseFlowScalar_good hfs ?_
          intro e he
          exact hnl p (List.mem_cons_self _ _) e (mem_trim he)
        rw [← h1]
        refine ⟨?_, by simp⟩
        simp only [goodItems, Bool.and_eq_true]
        exact ⟨hgv, hg0⟩

theorem parseFlowSeq_good {inner : Str} {vs : List Val}
    (h : parseFlowSeq inner = some vs) (hnl : ∀ e ∈ inner, e ≠ '\n') :
    vs ≠ [] ∧ goodItems vs = true := by
  unfold parseFlowSeq at h
  have hp : ∀ p ∈ splitChar ',' inner, ∀ e ∈ p, e ≠ '\n' := by
    intro p hpmem e he
    exact hnl e (splitOnP_mem_subset _ _ p hpmem e he)
  obtain ⟨hg, hiff⟩ := mapM_parseFlowScalar_good _ vs h hp
  refine ⟨?_, hg⟩
  intro hvs
  exact splitOnP_ne_nil _ _ (hiff.mpr hvs)

theorem parseValText_good {t : Str} {v : Val} (h : parseValText t = some v)
    (hnl : ∀ e ∈ t, e ≠ '\n') : goodVal v = true := by
  cases t with
  | nil => exact Option.noConfusion h
  | cons c r =>
    have hh : (if c = '\'' then (unqQ r).map Val.str
        else if c = '"' then (unqD r).map Val.str
        else if c = '{' then
          (match r.getLast? with
            | some cl => if cl = '}' then (parseFlow (trim r.dropLast)).map Val.vmap
                else none
            | none => none)
        else if c = '[' then
          (match r.getLast? with
            | some cl => if cl = ']' then (parseFlowSeq (trim r.dropLast)).map Val.seq
                else none
            | none => none)
        else some (classifyPlain (c :: r))) = some v := h
    by_cases h1 : c = '\''
    · rw [if_pos h1] at hh
      cases hq : unqQ r with
      | none => rw [hq] at hh; exact Option.noConfusion hh
      | some ou =>
        rw [hq] at hh
        injection hh with hv
        rw [← hv]
        simp only [goodVal, Bool.not_eq_true']
        refine contains_eq_false_iff.mpr ?_
        intro e he
        exact hnl e (List.mem_cons_of_mem _ (unqQ_mem r.length r ou (le_refl _) hq e he))
    · rw [if_neg h1] at hh
      by_cases h2 : c = '"'
      · rw [if_pos h2] at hh
        cases hq : unqD r with
        | none => rw [hq] at hh; exact Option.noConfusion hh
        | some ou =>
          rw [hq] at hh
          injection hh with hv
          rw [← hv]
          simp only [goodVal, Bool.not_eq_true']
          refine contains_eq_false_iff.mpr ?_
          intro e he
          exact hnl e (List.mem_cons_of_mem _ (unqD_mem r ou hq e he))
      · rw [if_neg h2] at hh
        by_cases h3 : c = '{'
        · rw [if_pos h3] at hh
          cases hlast : r.getLast? with
          | none => rw [hlast] at hh; exact Option.noConfusion hh
          | some cl =>
            rw [hlast] at hh
            have hh2 : (if cl = '}' then (parseFlow (trim r.dropLast)).map Val.vmap
                else none) = some v := hh
            by_cases h4 : cl = '}'
            · rw [if_pos h4] at hh2
              cases hf : parseFlow (trim r.dropLast) with
              | none => rw [hf] at hh2; exact Option.noConfusion hh2
              | some es =>
                rw [hf] at hh2
                injection hh2 with hv
                rw [← hv]
                simp only [goodVal, Bool.and_eq_true, Bool.not_eq_true']
                have hmem : ∀ e ∈ trim r.dropLast, e ≠ '\n' := by
                  intro e he
                  exact hnl e (List.mem_cons_of_mem _
                    ((List.dropLast_sublist r).subset (mem_trim he)))
                obtain ⟨hne, hge⟩ := parseFlow_good hf hmem
                refine ⟨?_, hge⟩
                cases hes : es with
                | nil => exact absurd hes hne
                | cons a b => rfl
            · rw [if_neg h4] at hh2
              exact Option.noConfusion hh2
        · rw [if_neg h3] at hh
          by_cases h5 : c = '['
          · rw [if_pos h5] at hh
            cases hlast : r.getLast? with
            | none => rw [hlast] at hh; exact Option.noConfusion hh
            | some cl =>
              rw [hlast] at hh
              have hh2 : (if cl = ']' then (parseFlowSeq (trim r.dropLast)).map Val.seq
                  else none) = some v := hh
              by_cases h4 : cl = ']'
              · rw [if_pos h4] at hh2
                cases hf : parseFlowSeq (trim r.dropLast) with
                | none => rw [hf] at hh2; exact Option.noConfusion hh2
                | some vs =>
                  rw [hf] at hh2
                  injection hh2 with hv
                  rw [← hv]
                  simp only [goodVal, Bool.and_eq_true, Bool.not_eq_true']
                  have hmem : ∀ e ∈ trim r.dropLast, e ≠ '\n' := by
                    intro e he
                    exact hnl e (List.mem_cons_of_mem _
                      ((List.dropLast_sublist r).subset (mem_trim he)))
                  obtain ⟨hne, hge⟩ := parseFlowSeq_good hf hmem
                  refine ⟨?_, hge⟩
                  cases hvs : vs with
                  | nil => exact absurd hvs hne
                  | cons a b => rfl
              · rw [if_neg h4] at hh2
                exact Option.noConfusion hh2
          · rw [if_neg h5] at hh
            injection hh with hv
            rw [← hv]
            exact classifyPlain_good (contains_eq_false_iff.mpr hnl)

theorem parse_good : ∀ (fuel : Nat),
    (∀ (i : Nat) (ls : List YLine) (es : List (Str × Val)) (rem : List YLine),
      parseEntries fuel i ls = some (es, rem) →
      (∀ l ∈ ls, ∀ e ∈ l.txt, e ≠ '\n') → goodEntries es = true) ∧
    (∀ (i : Nat) (ls : List YLine) (items : List Val) (rem : List YLine),
      parseItems fuel i ls = some (items, rem) →
      (∀ l ∈ ls, ∀ e ∈ l.txt, e ≠ '\n') → goodItems items = true) := by
  intro fuel
  induction fuel with
  | zero =>
    exact ⟨fun i ls es rem h hnl => Option.noConfusion h,
      fun i ls items rem h hnl => Option.noConfusion h⟩
  | succ fuel ih =>
    constructor
    · intro i ls es rem h hnl
      rw [parseEntries_succ] at h
      cases ls with
      | nil =>
        injection h with hp
        have h1 : ([] : List (Str × Val)) = es := congrArg Prod.fst hp
        rw [← h1]
        rfl
      | cons l rest =>
        have hbody : (if l.ind < i then some (([] : List (Str × Val)), l :: rest)
            else if i < l.ind then none
            else
              match parseKeyRest l.txt with
              | none => none
              | some (k, valTxt) =>
                if valTxt = [] then
                  match rest.takeWhile (fun l2 => decide (i < l2.ind)) with
                  | [] => none
                  | l2 :: _ =>
                    if (itemTxt l2.txt).isSome then
                      match parseItems fuel l2.ind
                          (rest.takeWhile fun l2 => decide (i < l2.ind)) with
                      | some (items1, []) =>
                        if items1.isEmpty then none
                        else
                          match parseEntries fuel i
                              (rest.dropWhile fun l2 => decide (i < l2.ind)) with
                          | some (es2, r) => some ((k, Val.seq items1) :: es2, r)
                          | none => none
                      | _ => none
                    else
                      match parseEntries fuel l2.ind
                          (rest.takeWhile fun l2 => decide (i < l2.ind)) with
                      | some (es1, []) =>
                        if es1.isEmpty then none
                        else
                          match parseEntries fuel i
                              (rest.dropWhile fun l2 => decide (i < l2.ind)) with
                          | some (es2, r) => some ((k, Val.vmap es1) :: es2, r)
                          | none => none
                      | _ => none
                else
                  match parseValText valTxt with
                  | none => none
                  | some v =>
                    match parseEntries fuel i rest with
                    | some (es2, r) => some ((k, v) :: es2, r)
                    | none => none) = some (es, rem) := h
        by_cases hlt : l.ind < i
        · rw [if_pos hlt] at hbody
          injection hbody with hp
          have h1 : ([] : List (Str × Val)) = es := congrArg Prod.fst hp
          rw [← h1]
          rfl
        · rw [if_neg hlt] at hbody
          by_cases hgt : i < l.ind
          · rw [if_pos hgt] at hbody
            exact Option.noConfusion hbody
          · rw [if_neg hgt] at hbody
            cases hkr : parseKeyRest l.txt with
            | none => rw [hkr] at hbody; exact Option.noConfusion hbody
            | some kv =>
              obtain ⟨k, valTxt⟩ := kv
              rw [hkr] at hbody
              have hkOK : keyOK k = true := parseKeyRest_keyOK hkr
              have hbody2 : (if valTxt = [] then
                  match rest.takeWhile (fun l2 => decide (i < l2.ind)) with
                  | [] => none
                  | l2 :: _ =>
                    if (itemTxt l2.txt).isSome then
                      match parseItems fuel l2.ind
                          (rest.takeWhile fun l2 => decide (i < l2.ind)) with
                      | some (items1, []) =>
                        if items1.isEmpty then none
                        else
                          match parseEntries fuel i
                              (rest.dropWhile fun l2 => decide (i < l2.ind)) with
                          | some (es2, r) => some ((k, Val.seq items1) :: es2, r)
                          | none => none
                      | _ => none
                    else
                      match parseEntries fuel l2.ind
                          (rest.takeWhile fun l2 => decide (i < l2.ind)) with
                      | some (es1, []) =>
                        if es1.isEmpty then none
                        else
                          match parseEntries fuel i
                              (rest.dropWhile fun l2 => decide (i < l2.ind)) with
                          | some (es2, r) => some ((k, Val.vmap es1) :: es2, r)
                          | none => none
                      | _ => none
                else
                  match parseValText valTxt with
                  | none => none
                  | some v =>
                    match parseEntries fuel i rest with
                    | some (es2, r) => some ((k, v) :: es2, r)
                    | none => none) = some (es, rem) := hbody
              by_cases hv0 : valTxt = []
              · rw [if_pos hv0] at hbody2
                cases hsub : rest.takeWhile (fun l2 => decide (i < l2.ind)) with
                | nil => rw [hsub] at hbody2; exact Option.noConfusion hbody2
                | cons l2 subrest =>
                  rw [hsub] at hbody2
                  have hbody3 : (if (itemTxt l2.txt).isSome = true then
                      match parseItems fuel l2.ind (l2 :: subrest) with
                      | some (items1, []) =>
                        if items1.isEmpty then none
                        else
                          match parseEntries fuel i
                              (rest.dropWhile fun l2 => decide (i < l2.ind)) with
                          | some (es2, r) => some ((k, Val.seq items1) :: es2, r)
                          | none => none
                      | _ => none
                    else
                      match parseEntries fuel l2.ind (l2 :: subrest) with
                      | some (es1, []) =>
                        if es1.isEmpty then none
                        else
                          match parseEntries fuel i
                              (rest.dropWhile fun l2 => decide (i < l2.ind)) with
                          | some (es2, r) => some ((k, Val.vmap es1) :: es2, r)
                          | none => none
                      | _ => none) = some (es, rem) := hbody2
                  by_cases hdisp : (itemTxt l2.txt).isSome = true
                  · rw [if_pos hdisp] at hbody3
                    cases hpi1 : parseItems fuel l2.ind (l2 :: subrest) with
                    | none => rw [hpi1] at hbody3; exact Option.noConfusion hbody3
                    | some p1 =>
                      obtain ⟨items1, rem1⟩ := p1
                      rw [hpi1] at hbody3
                      cases rem1 with
                      | cons a b => exact Option.noConfusion hbody3
                      | nil =>
                        have hif : (if items1.isEmpty then none else
                            match parseEntries fuel i
                                (rest.dropWhile fun l2 => decide (i < l2.ind)) with
                              | some (es2, r) => some ((k, Val.seq items1) :: es2, r)
                              | none => none) = some (es, rem) := hbody3
                        by_cases hemp : items1.isEmpty
                        · rw [if_pos hemp] at hif
                          exact Option.noConfusion hif
                        · rw [if_neg hemp] at hif
                          cases hpe2 : parseEntries fuel i
                              (rest.dropWhile fun l2 => decide (i < l2.ind)) with
                          | none => rw [hpe2] at hif; exact Option.noConfusion hif
                          | some p2 =>
                            obtain ⟨es2, r2⟩ := p2
                            rw [hpe2] at hif
                            injection hif with hp
                            have h1 : (k, Val.seq items1) :: es2 = es :=
                              congrArg Prod.fst hp
                            rw [← h1]
                            have hempf : items1.isEmpty = false := by
                              cases hbe : items1.isEmpty with
                              | true => exact absurd hbe hemp
                              | false => rfl
                            have hgood1 : goodItems items1 = true := by
                              refine ih.2 l2.ind (l2 :: subrest) items1 [] hpi1 ?_
                              intro l0 hl0
                              refine hnl l0 (List.mem_cons_of_mem _ ?_)
                              exact (List.takeWhile_sublist _).subset (hsub ▸ hl0)
                            have hgood2 : goodEntries es2 = true := by
                              refine ih.1 i (rest.dropWhile fun l2 => decide (i < l2.ind))
                                es2 r2 hpe2 ?_
                              intro l0 hl0
                              exact hnl l0 (List.mem_cons_of_mem _
                                ((List.dropWhile_sublist _).subset hl0))
                            simp only [goodEntries, goodVal, Bool.and_eq_true,
                              Bool.not_eq_true']
                            exact ⟨⟨hkOK, hempf, hgood1⟩, hgood2⟩
                  · rw [if_neg hdisp] at hbody3
                    cases hpe1 : parseEntries fuel l2.ind (l2 :: subrest) with
                    | none => rw [hpe1] at hbody3; exact Option.noConfusion hbody3
                    | some p1 =>
                      obtain ⟨es1, rem1⟩ := p1
                      rw [hpe1] at hbody3
                      cases rem1 with
                      | cons a b => exact Option.noConfusion hbody3
                      | nil =>
                        have hif : (if es1.isEmpty then none else
                            match parseEntries fuel i
                                (rest.dropWhile fun l2 => decide (i < l2.ind)) with
                              | some (es2, r) => some ((k, Val.vmap es1) :: es2, r)
                              | none => none) = some (es, rem) := hbody3
                        by_cases hemp : es1.isEmpty
                        · rw [if_pos hemp] at hif
                          exact Option.noConfusion hif
                        · rw [if_neg hemp] at hif
                          cases hpe2 : parseEntries fuel i
                              (rest.dropWhile fun l2 => decide (i < l2.ind)) with
                          | none => rw [hpe2] at hif; exact Option.noConfusion hif
                          | some p2 =>
                            obtain ⟨es2, r2⟩ := p2
                            rw [hpe2] at hif
                            injection hif with hp
                            have h1 : (k, Val.vmap es1) :: es2 = es :=
                              congrArg Prod.fst hp
                            rw [← h1]
                            have hempf : es1.isEmpty = false := by
                              cases hbe : es1.isEmpty with
                              | true => exact absurd hbe hemp
                              | false => rfl
                            have hgood1 : goodEntries es1 = true := by
                              refine ih.1 l2.ind (l2 :: subrest) es1 [] hpe1 ?_
                              intro l0 hl0
                              refine hnl l0 (List.mem_cons_of_mem _ ?_)
                              exact (List.takeWhile_sublist _).subset (hsub ▸ hl0)
                            have hgood2 : goodEntries es2 = true := by
                              refine ih.1 i (rest.dropWhile fun l2 => decide (i < l2.ind))
                                es2 r2 hpe2 ?_
                              intro l0 hl0
                              exact hnl l0 (List.mem_cons_of_mem _
                                ((List.dropWhile_sublist _).subset hl0))
                            simp only [goodEntries, goodVal, Bool.and_eq_true,
                              Bool.not_eq_true']
                            exact ⟨⟨hkOK, hempf, hgood1⟩, hgood2⟩
              · rw [if_neg hv0] at hbody2
                cases hpv : parseValText valTxt with
                | none => rw [hpv] at hbody2; exact Option.noConfusion hbody2
                | some v =>
                  rw [hpv] at hbody2
                  have hbody3 : (match parseEntries fuel i rest with
                      | some (es2, r) => some ((k, v) :: es2, r)
                      | none => none) = some (es, rem) := hbody2
                  cases hpe2 : parseEntries fuel i rest with
                  | none => rw [hpe2] at hbody3; exact Option.noConfusion hbody3
                  | some p2 =>
                    obtain ⟨es2, r2⟩ := p2
                    rw [hpe2] at hbody3
                    injection hbody3 with hp
                    have h1 : (k, v) :: es2 = es := congrArg Prod.fst hp
                    rw [← h1]
                    have hgv : goodVal v = true := by
                      refine parseValText_good hpv ?_
                      intro e he
                      rcases parseKeyRest_val_mem hkr e he with rfl | hein
                      · decide
                      · exact hnl l (List.mem_cons_self _ _) e hein
                    simp only [goodEntries, Bool.and_eq_true]
                    exact ⟨⟨hkOK, hgv⟩,
                      ih.1 i rest es2 r2 hpe2 fun l0 hl0 =>
                        hnl l0 (List.mem_cons_of_mem _ hl0)⟩
    · intro i ls items rem h hnl
      rw [parseItems_succ] at h
      cases ls with
      | nil =>
        injection h with hp
        have h1 : ([] : List Val) = items := congrArg Prod.fst hp
        rw [← h1]
        rfl
      | cons l rest =>
        have hbody : (if l.ind < i then some (([] : List Val), l :: rest)
            else if i < l.ind then none
            else
              match itemTxt l.txt with
              | none => none
              | some t =>
                if t = [] then
                  match rest.takeWhile (fun l2 => decide (i < l2.ind)) with
                  | [] => none
                  | l2 :: _ =>
                    if (itemTxt l2.txt).isSome then
                      match parseItems fuel l2.ind
                          (rest.takeWhile fun l2 => decide (i < l2.ind)) with
                      | some (items1, []) =>
                        if items1.isEmpty then none
                        else
                          match parseItems fuel i
                              (rest.dropWhile fun l2 => decide (i < l2.ind)) with
                          | some (items3, r) => some (Val.seq items1 :: items3, r)
                          | none => none
                      | _ => none
                    else
                      match parseEntries fuel l2.ind
                          (rest.takeWhile fun l2 => decide (i < l2.ind)) with
                      | some (es1, []) =>
                        if es1.isEmpty then none
                        else
                          match parseItems fuel i
                              (rest.dropWhile fun l2 => decide (i < l2.ind)) with
                          | some (items3, r) => some (Val.vmap es1 :: items3, r)
                          | none => none
                      | _ => none
                else
                  if (parseKeyRest t).isSome then none
                  else
                    match parseValText t with
                    | none => none
                    | some v =>
                      match parseItems fuel i rest with
                      | some (items3, r) => some (v :: items3, r)
                      | none => none) = some (items, rem) := h
        by_cases hlt : l.ind < i
        · rw [if_pos hlt] at hbody
          injection hbody with hp
          have h1 : ([] : List Val) = items := congrArg Prod.fst hp
          rw [← h1]
          rfl
        · rw [if_neg hlt] at hbody
          by_cases hgt : i < l.ind
          · rw [if_pos hgt] at hbody
            exact Option.noConfusion hbody
          · rw [if_neg hgt] at hbody
            cases hit : itemTxt l.txt with
            | none => rw [hit] at hbody; exact Option.noConfusion hbody
            | some t =>
              rw [hit] at hbody
              have hbody2 : (if t = [] then
                  match rest.takeWhile (fun l2 => decide (i < l2.ind)) with
                  | [] => none
                  | l2 :: _ =>
                    if (itemTxt l2.txt).isSome then
                      match parseItems fuel l2.ind
                          (rest.takeWhile fun l2 => decide (i < l2.ind)) with
                      | some (items1, []) =>
                        if items1.isEmpty then none
                        else
                          match parseItems fuel i
                              (rest.dropWhile fun l2 => decide (i < l2.ind)) with
                          | some (items3, r) => some (Val.seq items1 :: items3, r)
                          | none => none
                      | _ => none
                    else
                      match parseEntries fuel l2.ind
                          (rest.takeWhile fun l2 => decide (i < l2.ind)) with
                      | some (es1, []) =>
                        if es1.isEmpty then none
                        else
                          match parseItems fuel i
                              (rest.dropWhile fun l2 => decide (i < l2.ind)) with
                          | some (items3, r) => some (Val.vmap es1 :: items3, r)
                          | none => none
                      | _ => none
                else
                  if (parseKeyRest t).isSome then none
                  else
                    match parseValText t with
                    | none => none
                    | some v =>
                      match parseItems fuel i rest with
                      | some (items3, r) => some (v :: items3, r)
                      | none => none) = some (items, rem) := hbody
              by_cases hv0 : t = []
              · rw [if_pos hv0] at hbody2
                cases hsub : rest.takeWhile (fun l2 => decide (i < l2.ind)) with
                | nil => rw [hsub] at hbody2; exact Option.noConfusion hbody2
                | cons l2 subrest =>
                  rw [hsub] at hbody2
                  have hbody3 : (if (itemTxt l2.txt).isSome = true then
                      match parseItems fuel l2.ind (l2 :: subrest) with
                      | some (items1, []) =>
                        if items1.isEmpty then none
                        else
                          match parseItems fuel i
                              (rest.dropWhile fun l2 => decide (i < l2.ind)) with
                          | some (items3, r) => some (Val.seq items1 :: items3, r)
                          | none => none
                      | _ => none
                    else
                      match parseEntries fuel l2.ind (l2 :: subrest) with
                      | some (es1, []) =>
                        if es1.isEmpty then none
                        else
                          match parseItems fuel i
                              (rest.dropWhile fun l2 => decide (i < l2.ind)) with
                          | some (items3, r) => some (Val.vmap es1 :: items3, r)
                          | none => none
                      | _ => none) = some (items, rem) := hbody2
                  by_cases hdisp : (itemTxt l2.txt).isSome = true
                  · rw [if_pos hdisp] at hbody3
                    cases hpi1 : parseItems fuel l2.ind (l2 :: subrest) with
                    | none => rw [hpi1] at hbody3; exact Option.noConfusion hbody3
                    | some p1 =>
                      obtain ⟨items1, rem1⟩ := p1
                      rw [hpi1] at hbody3
                      cases rem1 with
                      | cons a b => exact Option.noConfusion hbody3
                      | nil =>
                        have hif : (if items1.isEmpty then none else
                            match parseItems fuel i
                                (rest.dropWhile fun l2 => decide (i < l2.ind)) with
                              | some (items3, r) => some (Val.seq items1 :: items3, r)
                              | none => none) = some (items, rem) := hbody3
                        by_cases hemp : items1.isEmpty
                        · rw [if_pos hemp] at hif
                          exact Option.noConfusion hif
                        · rw [if_neg hemp] at hif
                          cases hpi2 : parseItems fuel i
                              (rest.dropWhile fun l2 => decide (i < l2.ind)) with
                          | none => rw [hpi2] at hif; exact Option.noConfusion hif
                          | some p2 =>
                            obtain ⟨items3, r2⟩ := p2
                            rw [hpi2] at hif
                            injection hif with hp
                            have h1 : Val.seq items1 :: items3 = items :=
                              congrArg Prod.fst hp
                            rw [← h1]
                            have hempf : items1.isEmpty = false := by
                              cases hbe : items1.isEmpty with
                              | true => exact absurd hbe hemp
                              | false => rfl
                            have hgood1 : goodItems items1 = true := by
                              refine ih.2 l2.ind (l2 :: subrest) items1 [] hpi1 ?_
                              intro l0 hl0
                              refine hnl l0 (List.mem_cons_of_mem _ ?_)
                              exact (List.takeWhile_sublist _).subset (hsub ▸ hl0)
                            have hgood2 : goodItems items3 = true := by
                              refine ih.2 i (rest.dropWhile fun l2 => decide (i < l2.ind))
                                items3 r2 hpi2 ?_
                              intro l0 hl0
                              exact hnl l0 (List.mem_cons_of_mem _
                                ((List.dropWhile_sublist _).subset hl0))
                            simp only [goodItems, goodVal, Bool.and_eq_true,
                              Bool.not_eq_true']
                            exact ⟨⟨hempf, hgood1⟩, hgood2⟩
                  · rw [if_neg hdisp] at hbody3
                    cases hpe1 : parseEntries fuel l2.ind (l2 :: subrest) with
                    | none => rw [hpe1] at hbody3; exact Option.noConfusion hbody3
                    | some p1 =>
                      obtain ⟨es1, rem1⟩ := p1
                      rw [hpe1] at hbody3
                      cases rem1 with
                      | cons a b => exact Option.noConfusion hbody3
                      | nil =>
                        have hif : (if es1.isEmpty then none else
                            match parseItems fuel i
                                (rest.dropWhile fun l2 => decide (i < l2.ind)) with
                              | some (items3, r) => some (Val.vmap es1 :: items3, r)
                              | none => none) = some (items, rem) := hbody3
                        by_cases hemp : es1.isEmpty
                        · rw [if_pos hemp] at hif
                          exact Option.noConfusion hif
                        · rw [if_neg hemp] at hif
                          cases hpi2 : parseItems fuel i
                              (rest.dropWhile fun l2 => decide (i < l2.ind)) with
                          | none => rw [hpi2] at hif; exact Option.noConfusion hif
                          | some p2 =>
                            obtain ⟨items3, r2⟩ := p2
                            rw [hpi2] at hif
                            injection hif with hp
                            have h1 : Val.vmap es1 :: items3 = items :=
                              congrArg Prod.fst hp
                            rw [← h1]
                            have hempf : es1.isEmpty = false := by
                              cases hbe : es1.isEmpty with
                              | true => exact absurd hbe hemp
                              | false => rfl
                            have hgood1 : goodEntries es1 = true := by
                              refine ih.1 l2.ind (l2 :: subrest) es1 [] hpe1 ?_
                              intro l0 hl0
                              refine hnl l0 (List.mem_cons_of_mem _ ?_)
                              exact (List.takeWhile_sublist _).subset (hsub ▸ hl0)
                            have hgood2 : goodItems items3 = true := by
                              refine ih.2 i (rest.dropWhile fun l2 => decide (i < l2.ind))
                                items3 r2 hpi2 ?_
                              intro l0 hl0
                              exact hnl l0 (List.mem_cons_of_mem _
                                ((List.dropWhile_sublist _).subset hl0))
                            simp only [goodItems, goodVal, Bool.and_eq_true,
                              Bool.not_eq_true']
                            exact ⟨⟨hempf, hgood1⟩, hgood2⟩
              · rw [if_neg hv0] at hbody2
                by_cases hks : (parseKeyRest t).isSome = true
                · rw [if_pos hks] at hbody2
                  exact Option.noConfusion hbody2
                · rw [if_neg hks] at hbody2
                  cases hpv : parseValText t with
                  | none => rw [hpv] at hbody2; exact Option.noConfusion hbody2
                  | some v =>
                    rw [hpv] at hbody2
                    have hbody3 : (match parseItems fuel i rest with
                        | some (items3, r) => some (v :: items3, r)
                        | none => none) = some (items, rem) := hbody2
                    cases hpi2 : parseItems fuel i rest with
                    | none => rw [hpi2] at hbody3; exact Option.noConfusion hbody3
                    | some p2 =>
                      obtain ⟨items3, r2⟩ := p2
                      rw [hpi2] at hbody3
                      injection hbody3 with hp
                      have h1 : v :: items3 = items := congrArg Prod.fst hp
                      rw [← h1]
                      have hgv : goodVal v = true := by
                        refine parseValText_good hpv ?_
                        intro e he
                        exact hnl l (List.mem_cons_self _ _) e (itemTxt_mem hit e he)
                      simp only [goodItems, Bool.and_eq_true]
                      exact ⟨hgv,
                        ih.2 i rest items3 r2 hpi2 fun l0 hl0 =>
                          hnl l0 (List.mem_cons_of_mem _ hl0)⟩

theorem parseDoc_good {ls : List YLine} {d : Val} (h : parseDoc ls = some d)
    (hnl : ∀ l ∈ ls, ∀ e ∈ l.txt, e ≠ '\n') : goodVal d = true := by
  unfold parseDoc at h
  cases ls with
  | nil => exact Option.noConfusion h
  | cons l rest =>
    have hbody : (if (itemTxt l.txt).isSome = true then
        match parseItems ((l :: rest).length + 1) l.ind (l :: rest) with
        | some (items, []) => if items.isEmpty then none else some (Val.seq items)
        | _ => none
      else
        match parseEntries ((l :: rest).length + 1) l.ind (l :: rest) with
        | some (es, []) => if es.isEmpty then none else some (Val.vmap es)
        | _ =>
          match l :: rest with
          | [la] => if (parseKeyRest la.txt).isSome = true then none
              else parseValText la.txt
          | _ => none) = some d := h
    by_cases hdisp : (itemTxt l.txt).isSome = true
    · rw [if_pos hdisp] at hbody
      cases hpi : parseItems ((l :: rest).length + 1) l.ind (l :: rest) with
      | none => rw [hpi] at hbody; exact Option.noConfusion hbody
      | some p =>
        obtain ⟨items, rem⟩ := p
        rw [hpi] at hbody
        cases rem with
        | cons a b => exact Option.noConfusion hbody
        | nil =>
          have hif : (if items.isEmpty then none else some (Val.seq items)) =
              some d := hbody
          by_cases hemp : items.isEmpty
          · rw [if_pos hemp] at hif
            exact Option.noConfusion hif
          · rw [if_neg hemp] at hif
            injection hif with hd
            rw [← hd]
            simp only [goodVal, Bool.and_eq_true, Bool.not_eq_true']
            refine ⟨?_, (parse_good _).2 l.ind _ items [] hpi hnl⟩
            cases hbe : items.isEmpty with
            | true => exact absurd hbe hemp
            | false => rfl
    · rw [if_neg hdisp] at hbody
      cases hpe : parseEntries ((l :: rest).length + 1) l.ind (l :: rest) with
      | none =>
        rw [hpe] at hbody
        cases rest with
        | nil =>
          have hif : (if (parseKeyRest l.txt).isSome = true then none
              else parseValText l.txt) = some d := hbody
          by_cases hks : (parseKeyRest l.txt).isSome = true
          · rw [if_pos hks] at hif
            exact Option.noConfusion hif
          · rw [if_neg hks] at hif
            exact parseValText_good hif fun e he => hnl l (List.mem_cons_self _ _) e he
        | cons r rs =>
          exact Option.noConfusion hbody
      | some p =>
        obtain ⟨es, rem⟩ := p
        rw [hpe] at hbody
        cases rem with
        | nil =>
          have hif : (if es.isEmpty then none else some (Val.vmap es)) = some d := hbody
          by_cases hemp : es.isEmpty
          · rw [if_pos hemp] at hif
            exact Option.noConfusion hif
          · rw [if_neg hemp] at hif
            injection hif with hd
            rw [← hd]
            simp only [goodVal, Bool.and_eq_true, Bool.not_eq_true']
            refine ⟨?_, (parse_good _).1 l.ind _ es [] hpe hnl⟩
            cases hbe : es.isEmpty with
            | true => exact absurd hbe hemp
            | false => rfl
        | cons a b =>
          cases rest with
          | nil =>
            have hif : (if (parseKeyRest l.txt).isSome = true then none
                else parseValText l.txt) = some d := hbody
            by_cases hks : (parseKeyRest l.txt).isSome = true
            · rw [if_pos hks] at hif
              exact Option.noConfusion hif
            · rw [if_neg hks] at hif
              exact parseValText_good hif fun e he => hnl l (List.mem_cons_self _ _) e he
          | cons r rs =>
            exact Option.noConfusion hbody

theorem mapM_parseDoc_good : ∀ (groups : List (List YLine)) (docs : List Val),
    groups.mapM parseDoc = some docs →
    (∀ g ∈ groups, ∀ l ∈ g, ∀ e ∈ l.txt, e ≠ '\n') →
    ∀ d ∈ docs, goodVal d = true := by
  intro groups
  induction groups with
  | nil =>
    intro docs h hnl d hd
    injection h with h1
    rw [← h1] at hd
    cases hd
  | cons g gs ih =>
    intro docs h hnl d hd
    rw [List.mapM_cons] at h
    cases hpd : parseDoc g with
    | none => rw [hpd] at h; exact Option.noConfusion h
    | some d0 =>
      rw [hpd] at h
      cases hrest : gs.mapM parseDoc with
      | none => rw [hrest] at h; exact Option.noConfusion h
      | some ds0 =>
        rw [hrest] at h
        injection h with h1
        rw [← h1] at hd
        rcases List.mem_cons.mp hd with rfl | hd2
        · exact parseDoc_good hpd (hnl g (List.mem_cons_self _ _))
        · exact ih ds0 hrest (fun g' hg' => hnl g' (List.mem_cons_of_mem _ hg')) d hd2

theorem decodeDocs_good {content : Str} {docs : List Val}
    (h : decodeDocs content = some docs) : ∀ d ∈ docs, goodVal d = true := by
  unfold decodeDocs at h
  refine mapM_parseDoc_good _ _ h ?_
  intro g hg l hl e he
  have hg2 : g ∈ splitOnP isSep ((toLines content).filter keepLine) :=
    List.mem_of_mem_filter hg
  have hl2 : l ∈ (toLines content).filter keepLine :=
    splitOnP_mem_subset _ _ g hg2 l hl
  have hl3 : l ∈ toLines content := List.mem_of_mem_filter hl2
  unfold toLines at hl3
  obtain ⟨raw, hraw, hlraw⟩ := List.mem_map.mp hl3
  have htxt : l.txt = raw.dropWhile (· = ' ') := by
    rw [← hlraw]
  rw [htxt] at he
  have he2 : e ∈ raw := (List.dropWhile_sublist _).subset he
  intro hcon
  subst hcon
  have := splitOnP_mem_false _ _ raw hraw '\n' he2
  simp at this

/-- C6: for every parseable document text x, normalization is idempotent:
if normalizeYAML x succeeds with output y, then normalizeYAML y succeeds and
returns y itself, byte for byte. -/
theorem c6_normalize_idempotent (x y : Str) (h : normalizeYAML x = .ok y) :
    normalizeYAML y = .ok y := by
  unfold normalizeYAML at h
  cases hdec : decodeDocs x with
  | none => rw [hdec] at h; exact Except.noConfusion h
  | some docs =>
    rw [hdec] at h
    injection h with hy
    have hgood : ∀ d ∈ docs, goodVal d = true := decodeDocs_good hdec
    cases docs with
    | nil =>
      rw [← hy]
      rfl
    | cons d0 drest =>
      have htrim := encode_trim_id hgood
      unfold normalizeYAML
      rw [← hy, htrim, decode_encode hgood]
      show Except.ok (trim (renderLines (encodeDocs (d0 :: drest)))) =
        Except.ok (renderLines (encodeDocs (d0 :: drest)))
      rw [htrim]

/-- Witness for C6: a document with a flow sequence, a flow mapping and a null
scalar normalizes to block style, and normalizing the result returns it
unchanged. -/
theorem c6_normalize_idempotent_witness :
    normalizeYAML (strOf "a:\n  - 1\n  - x\nb: null\nc:\n  d: true") =
      Except.ok (strOf "a:\n  - 1\n  - x\nb: null\nc:\n  d: true") :=
  c6_normalize_idempotent (strOf "a: [1, x]\nb: null\nc: {d: true}")
    (strOf "a:\n  - 1\n  - x\nb: null\nc:\n  d: true") (by decide)

/-! Sortedness of the normalizeManifest source order. -/

theorem strLe_total : ∀ (a b : Str), strLe a b = true ∨ strLe b a = true := by
  intro a
  induction a with
  | nil => intro b; exact Or.inl rfl
  | cons x xs ih =>
    intro b
    cases b with
    | nil => exact Or.inr rfl
    | cons y ys =>
      have hl : strLe (x :: xs) (y :: ys) =
          if x = y then strLe xs ys else decide (x < y) := rfl
      have hr : strLe (y :: ys) (x :: xs) =
          if y = x then strLe ys xs else decide (y < x) := rfl
      by_cases hxy : x = y
      · subst hxy
        rw [hl, hr, if_pos rfl, if_pos rfl]
        exact ih ys
      · rw [hl, hr, if_neg hxy, if_neg fun hc => hxy hc.symm]
        rcases lt_trichotomy x y with h | h | h
        · exact Or.inl (decide_eq_true h)
        · exact absurd h hxy
        · exact Or.inr (decide_eq_true h)

theorem insortStr_chain (x : Str) : ∀ {ys : List Str},
    List.Chain' (fun a b => strLe a b = true) ys →
    List.Chain' (fun a b => strLe a b = true) (insortStr x ys) ∧
      ∀ h, (insortStr x ys).head? = some h → h = x ∨ ys.head? = some h := by
  intro ys
  induction ys with
  | nil =>
    intro hch
    refine ⟨List.chain'_singleton x, ?_⟩
    intro h hh
    injection hh with h1
    exact Or.inl h1.symm
  | cons y ys ih =>
    intro hch
    by_cases hxy : strLe x y
    · have heq : insortStr x (y :: ys) = x :: y :: ys := by
        show (if strLe x y then x :: y :: ys else y :: insortStr x ys) = _
        rw [if_pos hxy]
      rw [heq]
      constructor
      · rw [List.chain'_cons]
        exact ⟨hxy, hch⟩
      · intro h hh
        rw [List.head?_cons] at hh
        injection hh with h1
        exact Or.inl h1.symm
    · have heq : insortStr x (y :: ys) = y :: insortStr x ys := by
        show (if strLe x y then x :: y :: ys else y :: insortStr x ys) = _
        rw [if_neg hxy]
      obtain ⟨hch', hhead⟩ := ih hch.tail
      rw [heq]
      constructor
      · rw [List.chain'_cons']
        refine ⟨?_, hch'⟩
        intro h hh
        rw [Option.mem_def] at hh
        rcases hhead h hh with heq | hys
        · subst heq
          rcases strLe_total h y with ht | ht
          · exact absurd ht hxy
          · exact ht
        · exact (List.chain'_cons'.mp hch).1 h (by rw [Option.mem_def]; exact hys)
      · intro h hh
        rw [List.head?_cons] at hh
        injection hh with h1
        exact Or.inr (by rw [List.head?_cons, h1])

theorem sortStrs_chain (l : List Str) :
    List.Chain' (fun a b => strLe a b = true) (sortStrs l) := by
  unfold sortStrs
  induction l with
  | nil => exact List.chain'_nil
  | cons x rest ih =>
    show List.Chain' _ (insortStr x (rest.foldr insortStr []))
    exact (insortStr_chain x ih).1

theorem insortStr_length (x : Str) : ∀ (ys : List Str),
    (insortStr x ys).length = ys.length + 1 := by
  intro ys
  induction ys with
  | nil => rfl
  | cons y ys ih =>
    show (if strLe x y then x :: y :: ys else y :: insortStr x ys).length = _
    by_cases h : strLe x y
    · rw [if_pos h]
      rfl
    · rw [if_neg h]
      show (insortStr x ys).length + 1 = (y :: ys).length + 1
      rw [ih]
      rfl

theorem sortStrs_length (l : List Str) : (sortStrs l).length = l.length := by
  unfold sortStrs
  induction l with
  | nil => rfl
  | cons x rest ih =>
    show (insortStr x (rest.foldr insortStr [])).length = rest.length + 1
    rw [insortStr_length, ih]

/-! Source keys carry no newline. -/

theorem splitN2_fst_no_nl {s p0 p1 : Str} (h : splitN2 s = [p0, p1]) :
    ∀ e ∈ p0, e ≠ '\n' := by
  unfold splitN2 at h
  cases hs : splitChar '\n' s with
  | nil => rw [hs] at h; exact List.noConfusion h
  | cons x rest =>
    rw [hs] at h
    cases rest with
    | nil =>
      injection h with h1 h2
      exact List.noConfusion h2
    | cons y t =>
      injection h with h1 h2
      intro e he
      rw [← h1] at he
      have hxmem : x ∈ splitChar '\n' s := by
        rw [hs]
        exact List.mem_cons_self _ _
      have hf := splitOnP_mem_false (fun e0 => decide (e0 = '\n')) s x hxmem e he
      simpa using hf

theorem foldl_splitStep_keys_nl : ∀ (chunks : List Str) (items : List (Str × Str)),
    (∀ p ∈ items, ∀ e ∈ p.1, e ≠ '\n') →
    ∀ p ∈ chunks.foldl splitStep items, ∀ e ∈ p.1, e ≠ '\n' := by
  intro chunks
  induction chunks with
  | nil => intro items h p hp; exact h p hp
  | cons chunk rest ih =>
    intro items h p hp
    refine ih (splitStep items chunk) ?_ p hp
    intro q hq
    have hq' : q ∈ (if trim chunk = [] then items
        else match splitN2 (trim chunk) with
          | [p0, p1] => assocUpdate items (trim p0) (trim p1)
          | _ => items) := hq
    by_cases hemp : trim chunk = []
    · rw [if_pos hemp] at hq'
      exact h q hq'
    · rw [if_neg hemp] at hq'
      cases hsp : splitN2 (trim chunk) with
      | nil => rw [hsp] at hq'; exact h q hq'
      | cons p0 ps =>
        cases ps with
        | nil => rw [hsp] at hq'; exact h q hq'
        | cons p1 ps2 =>
          cases ps2 with
          | cons z zs => rw [hsp] at hq'; exact h q hq'
          | nil =>
            rw [hsp] at hq'
            have hq2 : q ∈ assocUpdate items (trim p0) (trim p1) := hq'
            have hkey : ∀ e ∈ trim p0, e ≠ '\n' := by
              intro e he
              exact splitN2_fst_no_nl hsp e (mem_trim he)
            unfold assocUpdate at hq2
            cases hlk : alookup items (trim p0) with
            | some cur =>
              rw [hlk] at hq2
              have hmapped : q.1 ∈ (aset items (trim p0)
                  (cur ++ strOf "\n---\n" ++ trim p1)).map Prod.fst :=
                List.mem_map.mpr ⟨q, hq2, rfl⟩
              rw [aset_map_fst] at hmapped
              obtain ⟨q', hq'', hfst⟩ := List.mem_map.mp hmapped
              intro e he
              rw [← hfst] at he
              exact h q' hq'' e he
            | none =>
              rw [hlk] at hq2
              rcases List.mem_append.mp hq2 with h1 | h2
              · exact h q h1
              · rcases List.mem_singleton.mp h2 with rfl
                exact hkey

theorem splitManifest_keys_nl (buffer : Str) :
    ∀ p ∈ splitManifest buffer, ∀ e ∈ p.1, e ≠ '\n' :=
  foldl_splitStep_keys_nl _ [] (by intro p hp; cases hp)

/-! Header lines of the assembled output. -/

theorem isPrefixOf_false_of_head {c : Char} {p s : Str} (h : s.head? ≠ some c) :
    (c :: p).isPrefixOf s = false := by
  cases s with
  | nil => rfl
  | cons d t =>
    rw [List.head?_cons] at h
    show (c == d && p.isPrefixOf t) = false
    have hcd : (c == d) = false :=
      beq_eq_false_iff_ne.mpr fun hc => h (by rw [hc])
    rw [hcd]
    rfl

theorem isPrefixOf_append_self : ∀ (p s : Str), p.isPrefixOf (p ++ s) = true := by
  intro p
  induction p with
  | nil =>
    intro s
    rw [List.nil_append]
    cases s <;> rfl
  | cons a as ih =>
    intro s
    show (a == a && as.isPrefixOf (as ++ s)) = true
    rw [beq_self_eq_true, ih]
    rfl

theorem normalizeYAML_no_header {x y : Str} (h : normalizeYAML x = .ok y) :
    ∀ l ∈ splitChar '\n' y, (strOf "# Source: ").isPrefixOf l = false := by
  unfold normalizeYAML at h
  cases hdec : decodeDocs x with
  | none => rw [hdec] at h; exact Except.noConfusion h
  | some docs =>
    rw [hdec] at h
    injection h with hy
    have hgood := decodeDocs_good hdec
    cases docs with
    | nil =>
      intro l hl
      rw [← hy] at hl
      have hl' : l ∈ [([] : Str)] := hl
      rcases List.mem_singleton.mp hl' with rfl
      decide
    | cons d0 drest =>
      intro l hl
      rw [← hy, encode_trim_id hgood] at hl
      have hencne : encodeDocs (d0 :: drest) ≠ [] := by
        show joinl [sepLine] ((d0 :: drest).map encDoc) ≠ []
        rw [List.map_cons]
        exact joinl_ne_nil [sepLine] _ (encDoc_ne_nil (hgood d0 (List.mem_cons_self _ _)))
      have hsplit : splitChar '\n' (renderLines (encodeDocs (d0 :: drest))) =
          (encodeDocs (d0 :: drest)).map renderLine := by
        unfold renderLines
        refine splitOnP_joinl _ (by decide) _ (by simpa using hencne) ?_
        intro g hg x0 hx0
        obtain ⟨l0, hl0, rfl⟩ := List.mem_map.mp hg
        exact renderLine_not_nl (encodeDocs_lineBase hgood l0 hl0).2.2.1 x0 hx0
      rw [hsplit] at hl
      obtain ⟨l0, hl0, rfl⟩ := List.mem_map.mp hl
      have hb := encodeDocs_lineBase hgood l0 hl0
      cases hind : l0.ind with
      | zero =>
        have hrl : renderLine l0 = l0.txt := by
          unfold renderLine
          rw [hind]
          rfl
        rw [hrl]
        cases htxt : l0.txt with
        | nil => exact absurd htxt hb.1
        | cons c0 t0 =>
          refine isPrefixOf_false_of_head ?_
          rw [List.head?_cons]
          intro hc
          injection hc with hc1
          exact (hb.2.1 c0 t0 htxt).2 hc1
      | succ n =>
        have hrl : renderLine l0 = ' ' :: (spaces n ++ l0.txt) := by
          unfold renderLine
          rw [hind]
          rfl
        rw [hrl]
        refine isPrefixOf_false_of_head ?_
        rw [List.head?_cons]
        intro hc
        injection hc with hc1
        exact absurd hc1 (by decide)

theorem splitOnP_append_sep {α : Type} (p : α → Bool) {c : α} (hc : p c = true) :
    ∀ (a b : List α), splitOnP p (a ++ c :: b) = splitOnP p a ++ splitOnP p b := by
  intro a
  induction a with
  | nil =>
    intro b
    rw [List.nil_append, splitOnP_sep_cons p hc]
    rfl
  | cons x xs ih =>
    intro b
    rw [List.cons_append]
    by_cases hx : p x
    · rw [splitOnP_sep_cons p hx, splitOnP_sep_cons p hx, ih, List.cons_append]
    · have hxf : p x = false := by
        cases hpx : p x with
        | true => exact absurd hpx hx
        | false => rfl
      rw [splitOnP_cons_false p hxf, splitOnP_cons_false p hxf, ih]
      cases hsp : splitOnP p xs with
      | nil => exact absurd hsp (splitOnP_ne_nil _ _)
      | cons h0 t0 => simp

theorem splitChar_joinl_join (c : Char) : ∀ (parts : List Str), parts ≠ [] →
    splitChar c (joinl [c] parts) = (parts.map (splitChar c)).flatten := by
  intro parts
  induction parts with
  | nil => intro h; exact absurd rfl h
  | cons x rest ih =>
    intro hne
    cases rest with
    | nil =>
      show splitChar c (joinl [c] [x]) = (([x]).map (splitChar c)).flatten
      simp [joinl]
    | cons y t =>
      have hj : joinl [c] (x :: y :: t) = x ++ c :: joinl [c] (y :: t) := by
        show x ++ [c] ++ joinl [c] (y :: t) = _
        rw [List.append_assoc]
        rfl
      rw [hj]
      show splitOnP (· = c) (x ++ c :: joinl [c] (y :: t)) = _
      rw [splitOnP_append_sep (fun e => decide (e = c)) (by simp) x (joinl [c] (y :: t)),
        show splitOnP (fun e => decide (e = c)) (joinl [c] (y :: t)) =
          splitChar c (joinl [c] (y :: t)) from rfl,
        ih (by simp)]
      simp [splitChar]

theorem count_join (P : Str → Bool) : ∀ (parts : List Str),
    (∀ part ∈ parts, ((splitChar '\n' part).filter P).length = 1) →
    (((parts.map (splitChar '\n')).flatten).filter P).length = parts.length := by
  intro parts
  induction parts with
  | nil => intro h; rfl
  | cons x rest ih =>
    intro h
    rw [List.map_cons, List.flatten_cons, List.filter_append, List.length_append,
      h x (List.mem_cons_self _ _), ih fun q hq => h q (List.mem_cons_of_mem _ hq)]
    simp only [List.length_cons]
    omega

theorem part_header_lines {source y : Str} (hsrc : ∀ e ∈ source, e ≠ '\n')
    (hy : ∀ l ∈ splitChar '\n' y, (strOf "# Source: ").isPrefixOf l = false) :
    ((splitChar '\n' (strOf "---\n# Source: " ++ source ++ ['\n'] ++ y)).filter
      (fun l => (strOf "# Source: ").isPrefixOf l)).length = 1 := by
  have hshape : strOf "---\n# Source: " ++ source ++ ['\n'] ++ y =
      strOf "---" ++ '\n' :: ((strOf "# Source: " ++ source) ++ '\n' :: y) := by
    simp [strOf]
  rw [hshape, splitChar_appendC '\n' (by decide) _]
  have hclosed : ∀ e ∈ strOf "# Source: ", e ≠ '\n' := by decide
  have hfirst : (strOf "# Source: " ++ source).contains '\n' = false := by
    refine contains_eq_false_iff.mpr ?_
    intro e he
    rcases List.mem_append.mp he with h1 | h2
    · exact hclosed e h1
    · exact hsrc e h2
  rw [splitChar_appendC '\n' hfirst y]
  have h1 : (strOf "# Source: ").isPrefixOf (strOf "---") = false := by decide
  have h2 : (strOf "# Source: ").isPrefixOf (strOf "# Source: " ++ source) = true :=
    isPrefixOf_append_self _ _
  have h3 : (splitChar '\n' y).filter (fun l => (strOf "# Source: ").isPrefixOf l) = [] := by
    refine List.filter_eq_nil_iff.mpr ?_
    intro l hl
    simp [hy l hl]
  simp [List.filter_cons, h1, h2, h3]

/-! Inversion of the normalizeManifest assembly loop. -/

theorem normalizeParts_ok_inv2 : ∀ (sources : List Str) (documents : List (Str × Str))
    (parts : List Str), normalizeParts documents sources = .ok parts →
    parts.length = sources.length ∧
    ∀ part ∈ parts, ∃ source y, source ∈ sources ∧
      normalizeYAML ((alookup documents source).getD []) = .ok y ∧
      part = strOf "---\n# Source: " ++ source ++ ['\n'] ++ y := by
  intro sources
  induction sources with
  | nil =>
    intro documents parts h
    injection h with h1
    rw [← h1]
    exact ⟨rfl, by intro part hp; cases hp⟩
  | cons source rest ih =>
    intro documents parts h
    have hh : (match normalizeYAML ((alookup documents source).getD []) with
        | .error e => Except.error (strOf "normalizing YAML: " ++ e)
        | .ok normalizedContent =>
          match normalizeParts documents rest with
          | .error e => Except.error e
          | .ok parts2 =>
            Except.ok ((strOf "---\n# Source: " ++ source ++ ['\n'] ++
              normalizedContent) :: parts2)) = Except.ok parts := h
    cases hn : normalizeYAML ((alookup documents source).getD []) with
    | error e => rw [hn] at hh; exact Except.noConfusion hh
    | ok nc =>
      rw [hn] at hh
      cases hr : normalizeParts documents rest with
      | error e => rw [hr] at hh; exact Except.noConfusion hh
      | ok parts2 =>
        rw [hr] at hh
        injection hh with h1
        obtain ⟨hlen, hmem⟩ := ih documents parts2 hr
        rw [← h1]
        refine ⟨by simp [hlen], ?_⟩
        intro part hp
        rcases List.mem_cons.mp hp with rfl | hp2
        · exact ⟨source, nc, List.mem_cons_self _ _, hn, rfl⟩
        · obtain ⟨src, y0, hsrc, hny, hpart⟩ := hmem part hp2
          exact ⟨src, y0, List.mem_cons_of_mem _ hsrc, hny, hpart⟩

/-- C10: when normalizeManifest succeeds, the emitted per-source sections
follow the ascending lexicographic order of the source paths regardless of
their order in the input, the output is exactly the newline-join of one
headed section per source, and the output carries exactly one Source header
line per distinct source path: a path whose sections were merged keeps a
single header. -/
theorem c10_sections_sorted_single_header (m out : Str)
    (h : normalizeManifest m = .ok out) :
    List.Chain' (fun a b => strLe a b = true)
        (sortStrs ((splitManifest m).map Prod.fst)) ∧
    (∃ parts, normalizeParts (splitManifest m)
        (sortStrs ((splitManifest m).map Prod.fst)) = .ok parts ∧
      out = joinl ['\n'] parts) ∧
    headerCount out = (splitManifest m).length := by
  have hh : (match normalizeParts (splitManifest m)
        (sortStrs ((splitManifest m).map Prod.fst)) with
      | .error e => Except.error e
      | .ok parts => Except.ok (joinl ['\n'] parts)) = Except.ok out := h
  cases hnp : normalizeParts (splitManifest m)
      (sortStrs ((splitManifest m).map Prod.fst)) with
  | error e => rw [hnp] at hh; exact Except.noConfusion hh
  | ok parts =>
    rw [hnp] at hh
    injection hh with hout
    obtain ⟨hlen, hmem⟩ := normalizeParts_ok_inv2 _ _ _ hnp
    refine ⟨sortStrs_chain _, ⟨parts, rfl, hout.symm⟩, ?_⟩
    rw [← hout]
    have hper : ∀ part ∈ parts, ((splitChar '\n' part).filter
        (fun l => (strOf "# Source: ").isPrefixOf l)).length = 1 := by
      intro part hpart
      obtain ⟨source, y0, hsrc, hny, hpeq⟩ := hmem part hpart
      rw [hpeq]
      refine part_header_lines ?_ (normalizeYAML_no_header hny)
      have hsrck : source ∈ (splitManifest m).map Prod.fst := mem_sortStrs.mp hsrc
      obtain ⟨q, hq, hfst⟩ := List.mem_map.mp hsrck
      intro e he
      rw [← hfst] at he
      exact splitManifest_keys_nl m q hq e he
    cases hps : parts with
    | nil =>
      have hlen0 : (splitManifest m).length = 0 := by
        rw [hps] at hlen
        rw [sortStrs_length, List.length_map] at hlen
        simp only [List.length_nil] at hlen
        omega
      rw [hlen0]
      decide
    | cons part0 prest =>
      rw [← hps]
      unfold headerCount
      rw [splitChar_joinl_join '\n' parts (by rw [hps]; simp),
        count_join _ parts hper, hlen, sortStrs_length, List.length_map]

/-- Witness for C10: a manifest listing source b before source a is emitted
with the a section first, and one header line per source. -/
theorem c10_sections_sorted_single_header_witness :
    List.Chain' (fun a b => strLe a b = true)
        (sortStrs ((splitManifest (strOf "---\n# Source: b.yaml\nkey: 1\n---\n# Source: a.yaml\nother: 2\n")).map Prod.fst)) ∧
    (∃ parts, normalizeParts
        (splitManifest (strOf "---\n# Source: b.yaml\nkey: 1\n---\n# Source: a.yaml\nother: 2\n"))
        (sortStrs ((splitManifest (strOf "---\n# Source: b.yaml\nkey: 1\n---\n# Source: a.yaml\nother: 2\n")).map Prod.fst)) = .ok parts ∧
      strOf "---\n# Source: a.yaml\nother: 2\n---\n# Source: b.yaml\nkey: 1" = joinl ['\n'] parts) ∧
    headerCount (strOf "---\n# Source: a.yaml\nother: 2\n---\n# Source: b.yaml\nkey: 1") =
      (splitManifest (strOf "---\n# Source: b.yaml\nkey: 1\n---\n# Source: a.yaml\nother: 2\n")).length :=
  c10_sections_sorted_single_header
    (strOf "---\n# Source: b.yaml\nkey: 1\n---\n# Source: a.yaml\nother: 2\n")
    (strOf "---\n# Source: a.yaml\nother: 2\n---\n# Source: b.yaml\nkey: 1")
    (by decide)

/-- C8: in every reachable configuration of the orchestrator with n tests
and concurrency limit cap, at most cap test executions are in flight
simultaneously, and the finalized reports are exactly the indices
0..consumed-1 in submission order, regardless of the order in which the
finish transitions fire. -/
theorem c8_bounded_inflight_ordered_reports (n cap : Nat) (s : SuiteConfig)
    (h : SuiteReach n cap s) :
    s.running.length ≤ cap ∧ s.reports = List.range s.consumed := by
  induction h with
  | init => exact ⟨Nat.zero_le _, rfl⟩
  | step hreach hstep ih =>
    cases hstep with
    | spawn h1 h2 =>
      refine ⟨?_, ih.2⟩
      rw [List.length_append]
      simpa using h2
    | finish i hi =>
      refine ⟨?_, ih.2⟩
      exact le_trans (List.erase_sublist _ _).length_le ih.1
    | consume hc =>
      refine ⟨ih.1, ?_⟩
      rw [ih.2, List.range_succ]

/-- Witness for C8: with two tests and capacity two, the second test can
finish before the first, yet the reports come out as 0 then 1. -/
theorem c8_bounded_inflight_ordered_reports_witness :
    (⟨2, [], [1, 0], 2, [0, 1]⟩ : SuiteConfig).running.length ≤ 2 ∧
    (⟨2, [], [1, 0], 2, [0, 1]⟩ : SuiteConfig).reports =
      List.range (⟨2, [], [1, 0], 2, [0, 1]⟩ : SuiteConfig).consumed :=
  c8_bounded_inflight_ordered_reports 2 2 _
    (.step (.step (.step (.step (.step (.step .init
      (.spawn (by decide) (by decide)))
      (.spawn (by decide) (by decide)))
      (.finish 1 (by decide)))
      (.finish 0 (by decide)))
      (.consume (by decide)))
      (.consume (by decide)))

end Testchart
